import Mathlib

/-!
# Finality-aware log ingestion: the `logs.Processor` of beacon-kit

A shallow embedding of `beacon/execution/logs/processor.go` (namespace
`BeaconKit.Logs`) and of the generated SSZ code of `Fork`,
`mod/consensus-types/pkg/types/fork.ssz.go` (namespace `BeaconKit.Types`).  The processor is
stateful: it mutates the caches registered in `sigToCache` and talks to four
collaborators (fork choicer, finalized-logs store, engine client, log factory).
The embedding threads the cache map explicitly and returns, next to the Go
result, the list of collaborator and cache calls the function performed, in
program order.  Unsigned 64-bit arithmetic is `Nat` arithmetic reduced modulo
`2 ^ 64` wherever the source can wrap.  No implementation of the `LogCache` interface
is among the sources: the processor runs on a cache state modelled from the spec
(`LogCache`), and what a `Rollback()` can restore is stated for every implementation
of the interface (`CacheImpl`), on the calls the processor makes.
-/

namespace BeaconKit.Logs

/-! ## Data model -/

/-- A 32-byte hash (`ethcommon.Hash`), kept abstract as a number. -/
abbrev Hash := Nat

/-- An execution-layer address (`ethcommon.Address`). -/
abbrev Address := Nat

/-- The modulus of Go's `uint64`. -/
def U64 : Nat := 18446744073709551616

/-- Wrapping `uint64` addition. -/
def add64 (a b : Nat) : Nat := (a + b) % U64

/-- Wrapping `uint64` subtraction. -/
def sub64 (a b : Nat) : Nat := (a + U64 - b % U64) % U64

/-- The constant `DefaultBatchSize`. -/
def DefaultBatchSize : Nat := 1000

/-- A raw log, `ethtypes.Log` (the fields the processor reads, and its payload). -/
structure Log where
  Address : Address
  Topics : List Hash
  Data : List Nat
  BlockNumber : Nat
  Index : Nat
deriving DecidableEq, Repr

/-- A decoded value, `LogValueContainer`: its `Signature()` and an opaque payload. -/
structure LogValueContainer where
  Signature : Hash
  value : Nat
deriving DecidableEq, Repr

/-- The context strings handed to `errors.Wrapf`. -/
inductive WrapMsg where
  | failedToGetLatestFinalizedBlock
  | failedToGetFinalizedHeader
  | failedToProcessLogsInBatch
  | failedToGetLogs
  | failedToProcessLogsInBlock (blockNum : Nat)
  | failedToProcessLogs
  | failedToPushContainer
deriving DecidableEq, Repr

/-- A Go `error` value: an error produced by a collaborator, or a wrapped error. -/
inductive Error where
  | external (code : Nat)
  | wrapf (cause : Error) (msg : WrapMsg)
deriving DecidableEq, Repr

/-- How a Go call ends: a value with a nil error, a non-nil error, or a run-time panic. -/
inductive Outcome (α : Type) where
  | ok (v : α)
  | err (e : Error)
  | panic
deriving DecidableEq, Repr

/-- Modelled from the spec: the state behind the `LogCache` interface, whose
implementations are not part of the sources.  The cursor is
`(lastProcessedBlock, currentProcessingBlock, currentProcessingIndex)`; `contents`
are the decoded containers the cache holds, oldest first. -/
structure LogCache where
  lastProcessedBlock : Nat
  currentProcessingBlock : Nat
  currentProcessingIndex : Nat
  contents : List LogValueContainer
deriving DecidableEq, Repr

/-- Modelled from the spec: `LogCache.LastProcessedBlock()` reads the watermark. -/
def LogCache.LastProcessedBlock (c : LogCache) : Nat := c.lastProcessedBlock

/-- Modelled from the spec: `LogCache.SetLastProcessedBlock(n)` sets the watermark to `n`. -/
def LogCache.SetLastProcessedBlock (c : LogCache) (blockNumber : Nat) : LogCache :=
  { c with lastProcessedBlock := blockNumber }

/-- Modelled from the spec: `LogCache.SetCurrentProcessingBlock(n)` sets the block of the
resume hint. -/
def LogCache.SetCurrentProcessingBlock (c : LogCache) (blockNumber : Nat) : LogCache :=
  { c with currentProcessingBlock := blockNumber }

/-- Modelled from the spec: `LogCache.SetCurrentProcessingIndex(i)` sets the log index of
the resume hint. -/
def LogCache.SetCurrentProcessingIndex (c : LogCache) (index : Nat) : LogCache :=
  { c with currentProcessingIndex := index }

/-- Modelled from the spec: a successful `LogCache.Push(container)` hands the container
over to the cache, which then holds it after the ones it held before. -/
def LogCache.Push (c : LogCache) (container : LogValueContainer) : LogCache :=
  { c with contents := c.contents ++ [container] }

/-- Modelled from the spec: `LogCache.Rollback()` "reverts the cursor to its pre-batch
value" (spec, sections 3 and 4.2).  The method takes no argument and its body is not in
the sources: `preBatch` stands for whatever record the cache keeps of the state to
return to, and is one reading among several (section 8 of the spec speaks of the value
before the run, the comments of `processor.go` of "the last finalized block").  The
statements on failed batches are therefore made on the calls of the processor; of the
state this definition yields only the bound `watermarksAtMost` is used, which holds
for every rollback that returns to an earlier watermark.  What a rollback can restore
is settled for every implementation of the cache, see `CacheImpl`. -/
def LogCache.Rollback (c preBatch : LogCache) : LogCache :=
  { c with
    lastProcessedBlock := preBatch.lastProcessedBlock
    currentProcessingBlock := preBatch.currentProcessingBlock
    currentProcessingIndex := preBatch.currentProcessingIndex
    contents := preBatch.contents }

/-- The collaborators of a `Processor`: `fcs`, `engine`, `fls`, `factory`, and the two
cache-defined decisions (`ShouldProcess`, and whether a `Push` is refused), which may
depend on the signature and on the cache state at the time of the call. -/
structure Env where
  FinalizedCheckpoint : Hash
  HeaderByHash : Hash → Except Error Nat
  GetLastProcessedBlockNumber : Hash → Nat
  GetLastProcessedLogIndex : Hash → Nat
  GetRegisteredAddresses : List Address
  GetLogs : Nat → Nat → List Address → Except Error (List Log)
  ProcessLogs : List Log → Nat → Except Error (List LogValueContainer)
  ShouldProcess : Hash → LogCache → Log → Bool
  PushError : Hash → LogCache → LogValueContainer → Option Error

/-- One call made by the processor on a collaborator or on a cache (caches are named by
the signature they are registered under).  Fallible calls record whether they
returned a nil error. -/
inductive Event where
  | FinalizedCheckpoint
  | HeaderByHash (hash : Hash) (ok : Bool)
  | LastProcessedBlock (sig : Hash)
  | GetLastProcessedBlockNumber (sig : Hash)
  | GetLastProcessedLogIndex (sig : Hash)
  | SetCurrentProcessingBlock (sig : Hash) (blockNumber : Nat)
  | SetCurrentProcessingIndex (sig : Hash) (index : Nat)
  | GetRegisteredAddresses
  | GetLogs (fromBlock toBlock : Nat) (addresses : List Address) (ok : Bool)
  | ShouldProcess (sig : Hash) (log : Log)
  | ProcessLogs (logs : List Log) (blockNumber : Nat) (ok : Bool)
  | Push (sig : Hash) (container : LogValueContainer) (ok : Bool)
  | SetLastProcessedBlock (sig : Hash) (blockNumber : Nat)
  | Rollback (sig : Hash)
deriving DecidableEq, Repr

/-- The map `sigToCache`, as an association list (Go iterates it in an unspecified
order; the list order stands for the order of one run). -/
abbrev CacheMap := List (Hash × LogCache)

/-- What a processor function leaves behind: its Go result, the cache map after the
call and the calls it made. -/
structure Step (α : Type) where
  result : α
  sigToCache : CacheMap
  events : List Event

/-- Puts earlier calls in front of the calls of a step. -/
def Step.after {α : Type} (evs : List Event) (s : Step α) : Step α :=
  { s with events := evs ++ s.events }

/-- The map read `p.sigToCache[sig]`. -/
def getCache (m : CacheMap) (sig : Hash) : Option LogCache :=
  match m with
  | [] => none
  | (k, c) :: rest => if k = sig then some c else getCache rest sig

/-- The effect of a mutating method call on the cache stored under `sig`. -/
def setCache (m : CacheMap) (sig : Hash) (c : LogCache) : CacheMap :=
  match m with
  | [] => []
  | (k, old) :: rest => if k = sig then (k, c) :: rest else (k, old) :: setCache rest sig c

/-! ## The processor -/

/-- The function `setLastProcessedBlockAllCaches`. -/
def setLastProcessedBlockAllCaches (m : CacheMap) (blockNumber : Nat) : Step Unit :=
  { result := ()
    sigToCache := m.map (fun sc => (sc.1, sc.2.SetLastProcessedBlock blockNumber))
    events := m.map (fun sc => Event.SetLastProcessedBlock sc.1 blockNumber) }

/-- The function `rollbackCaches`: `Rollback()` on every registered cache, without
argument (the calls are the `events`); `preBatch` is only the model's stand-in for the
caches' own bookkeeping (see `LogCache.Rollback`). -/
def rollbackCaches (m preBatch : CacheMap) : Step Unit :=
  { result := ()
    sigToCache := List.zipWith (fun sc pre => (sc.1, sc.2.Rollback pre.2)) m preBatch
    events := m.map (fun sc => Event.Rollback sc.1) }

/-- The filter loop of `processLogsInBlock` (lines 217-225): the logs to decode, in
order, or `none` when indexing `log.Topics[0]` panics on a log without topics. -/
def filterLogs (env : Env) (m : CacheMap) : List Log → Option (List Log) × List Event
  | [] => (some [], [])
  | log :: rest =>
    match log.Topics with
    | [] => (none, [])
    | sig :: _ =>
      match getCache m sig with
      | none => filterLogs env m rest
      | some cache =>
        let r := filterLogs env m rest
        if env.ShouldProcess sig cache log then
          (r.1.map (fun kept => log :: kept), Event.ShouldProcess sig log :: r.2)
        else
          (r.1, Event.ShouldProcess sig log :: r.2)

/-- The push loop of `processLogsInBlock` (lines 233-241): `none` when every push
succeeded, else the wrapped error of the first refused push. -/
def pushContainers (env : Env) : List LogValueContainer → CacheMap → Step (Option Error)
  | [], m => { result := none, sigToCache := m, events := [] }
  | container :: rest, m =>
    match getCache m container.Signature with
    | none => pushContainers env rest m
    | some cache =>
      match env.PushError container.Signature cache container with
      | some e =>
        { result := some (Error.wrapf e WrapMsg.failedToPushContainer)
          sigToCache := m
          events := [Event.Push container.Signature container false] }
      | none =>
        Step.after [Event.Push container.Signature container true]
          (pushContainers env rest
            (setCache m container.Signature (cache.Push container)))

/-- The function `processLogsInBlock`. -/
def processLogsInBlock (env : Env) (m : CacheMap) (logs : List Log) (blockNumber : Nat) :
    Step (Outcome Unit) :=
  match (filterLogs env m logs).1 with
  | none =>
    { result := Outcome.panic, sigToCache := m, events := (filterLogs env m logs).2 }
  | some filteredLogs =>
    match env.ProcessLogs filteredLogs blockNumber with
    | Except.error e =>
      { result := Outcome.err (Error.wrapf e WrapMsg.failedToProcessLogs)
        sigToCache := m
        events := (filterLogs env m logs).2 ++
          [Event.ProcessLogs filteredLogs blockNumber false] }
    | Except.ok containers =>
      match (pushContainers env containers m).result with
      | some e =>
        { result := Outcome.err e
          sigToCache := (pushContainers env containers m).sigToCache
          events := (filterLogs env m logs).2 ++
            Event.ProcessLogs filteredLogs blockNumber true ::
              (pushContainers env containers m).events }
      | none =>
        { result := Outcome.ok ()
          sigToCache := (setLastProcessedBlockAllCaches
            (pushContainers env containers m).sigToCache blockNumber).sigToCache
          events := (filterLogs env m logs).2 ++
            Event.ProcessLogs filteredLogs blockNumber true ::
              ((pushContainers env containers m).events ++
                (setLastProcessedBlockAllCaches
                  (pushContainers env containers m).sigToCache blockNumber).events) }

/-- The map `blockToLogs` built at lines 183-186: each log is appended to the slice of
its block; `none` stands for a block number that is not a key. -/
def blockToLogs : List Log → Nat → Option (List Log)
  | [], _ => none
  | log :: rest, blockNum =>
    if log.BlockNumber = blockNum then
      some (log :: (blockToLogs rest blockNum).getD [])
    else blockToLogs rest blockNum

/-- The block loop of `processBlocksInBatch` (lines 195-205), `blockNum++` wrapping as
`uint64` does.  The result `none` means that the loop is still running after `fuel`
iterations; the caches and calls are then those reached so far. -/
def blockLoop (env : Env) (logs : List Log) (toBlock : Nat) :
    Nat → Nat → CacheMap → Step (Option (Outcome Unit))
  | 0, _, m => { result := none, sigToCache := m, events := [] }
  | fuel + 1, blockNum, m =>
    if blockNum ≤ toBlock then
      match blockToLogs logs blockNum with
      | none => blockLoop env logs toBlock fuel (add64 blockNum 1) m
      | some blockLogs =>
        match (processLogsInBlock env m blockLogs blockNum).result with
        | Outcome.ok _ =>
          Step.after (processLogsInBlock env m blockLogs blockNum).events
            (blockLoop env logs toBlock fuel (add64 blockNum 1)
              (processLogsInBlock env m blockLogs blockNum).sigToCache)
        | Outcome.err e =>
          { result := some (Outcome.err
              (Error.wrapf e (WrapMsg.failedToProcessLogsInBlock blockNum)))
            sigToCache := (processLogsInBlock env m blockLogs blockNum).sigToCache
            events := (processLogsInBlock env m blockLogs blockNum).events }
        | Outcome.panic =>
          { result := some Outcome.panic
            sigToCache := (processLogsInBlock env m blockLogs blockNum).sigToCache
            events := (processLogsInBlock env m blockLogs blockNum).events }
    else { result := some (Outcome.ok ()), sigToCache := m, events := [] }

/-- The end of the range fetched by `processBlocksInBatch` (lines 168-171), in `uint64`
arithmetic. -/
def batchToBlock (fromBlock batchSize latestFinalizedBlock : Nat) : Nat :=
  if sub64 (add64 fromBlock batchSize) 1 > latestFinalizedBlock then latestFinalizedBlock
  else sub64 (add64 fromBlock batchSize) 1

/-- The function `processBlocksInBatch`.  The deferred function rolls every cache back
when the block loop left a non-nil `err`; a failed `GetLogs` returns before the
`defer` statement is reached, and a panic unwinds with `err` still nil. -/
def processBlocksInBatch (env : Env) (fuel : Nat) (m : CacheMap)
    (fromBlock batchSize latestFinalizedBlock : Nat) (registeredAddresses : List Address) :
    Step (Option (Outcome Nat)) :=
  match env.GetLogs fromBlock (batchToBlock fromBlock batchSize latestFinalizedBlock)
      registeredAddresses with
  | Except.error e =>
    { result := some (Outcome.err (Error.wrapf e WrapMsg.failedToGetLogs))
      sigToCache := m
      events := [Event.GetLogs fromBlock
        (batchToBlock fromBlock batchSize latestFinalizedBlock) registeredAddresses false] }
  | Except.ok batchedLogs =>
    Step.after
      [Event.GetLogs fromBlock (batchToBlock fromBlock batchSize latestFinalizedBlock)
        registeredAddresses true]
      (match (blockLoop env batchedLogs
          (batchToBlock fromBlock batchSize latestFinalizedBlock) fuel fromBlock m).result with
      | none =>
        { result := none
          sigToCache := (blockLoop env batchedLogs
            (batchToBlock fromBlock batchSize latestFinalizedBlock) fuel fromBlock
            m).sigToCache
          events := (blockLoop env batchedLogs
            (batchToBlock fromBlock batchSize latestFinalizedBlock) fuel fromBlock m).events }
      | some (Outcome.ok _) =>
        { result := some (Outcome.ok (batchToBlock fromBlock batchSize latestFinalizedBlock))
          sigToCache := (blockLoop env batchedLogs
            (batchToBlock fromBlock batchSize latestFinalizedBlock) fuel fromBlock
            m).sigToCache
          events := (blockLoop env batchedLogs
            (batchToBlock fromBlock batchSize latestFinalizedBlock) fuel fromBlock m).events }
      | some (Outcome.err e) =>
        { result := some (Outcome.err e)
          sigToCache := (rollbackCaches (blockLoop env batchedLogs
            (batchToBlock fromBlock batchSize latestFinalizedBlock) fuel fromBlock
            m).sigToCache m).sigToCache
          events := (blockLoop env batchedLogs
              (batchToBlock fromBlock batchSize latestFinalizedBlock) fuel fromBlock
              m).events ++
            (rollbackCaches (blockLoop env batchedLogs
              (batchToBlock fromBlock batchSize latestFinalizedBlock) fuel fromBlock
              m).sigToCache m).events }
      | some Outcome.panic =>
        { result := some Outcome.panic
          sigToCache := (blockLoop env batchedLogs
            (batchToBlock fromBlock batchSize latestFinalizedBlock) fuel fromBlock
            m).sigToCache
          events := (blockLoop env batchedLogs
            (batchToBlock fromBlock batchSize latestFinalizedBlock) fuel fromBlock
            m).events })

/-- The function `getLatestFinalizedBlock`; `Number.Uint64()` keeps the low 64 bits. -/
def getLatestFinalizedBlock (env : Env) : Except Error Nat × List Event :=
  match env.HeaderByHash env.FinalizedCheckpoint with
  | Except.error e =>
    (Except.error (Error.wrapf e WrapMsg.failedToGetFinalizedHeader),
      [Event.FinalizedCheckpoint, Event.HeaderByHash env.FinalizedCheckpoint false])
  | Except.ok number =>
    (Except.ok (number % U64),
      [Event.FinalizedCheckpoint, Event.HeaderByHash env.FinalizedCheckpoint true])

/-- The body of the first loop of `ProcessPastLogs` (lines 94-108) for one entry of
`sigToCache`: the value of `latestCacheCheckpoint` at line 110, the cache after the
body and the calls made.  The subtraction cannot wrap: it is guarded by `c < p`. -/
def reconcile (env : Env) (sig : Hash) (cache : LogCache) : Nat × LogCache × List Event :=
  if cache.LastProcessedBlock < env.GetLastProcessedBlockNumber sig then
    (env.GetLastProcessedBlockNumber sig - 1,
     (cache.SetCurrentProcessingBlock
        (env.GetLastProcessedBlockNumber sig)).SetCurrentProcessingIndex
       (env.GetLastProcessedLogIndex sig),
     [Event.LastProcessedBlock sig, Event.GetLastProcessedBlockNumber sig,
      Event.SetCurrentProcessingBlock sig (env.GetLastProcessedBlockNumber sig),
      Event.GetLastProcessedLogIndex sig,
      Event.SetCurrentProcessingIndex sig (env.GetLastProcessedLogIndex sig)])
  else
    (cache.LastProcessedBlock, cache,
     [Event.LastProcessedBlock sig, Event.GetLastProcessedBlockNumber sig])

/-- The first loop of `ProcessPastLogs` (lines 92-113), started with
`minLastFinalizedBlockInCache = acc`: its final value, the caches and the calls. -/
def windowLoop (env : Env) : CacheMap → Nat → Step Nat
  | [], acc => { result := acc, sigToCache := [], events := [] }
  | (sig, cache) :: rest, acc =>
    { result := (windowLoop env rest
        (if (reconcile env sig cache).1 < acc then (reconcile env sig cache).1
          else acc)).result
      sigToCache := (sig, (reconcile env sig cache).2.1) ::
        (windowLoop env rest
          (if (reconcile env sig cache).1 < acc then (reconcile env sig cache).1
            else acc)).sigToCache
      events := (reconcile env sig cache).2.2 ++
        (windowLoop env rest
          (if (reconcile env sig cache).1 < acc then (reconcile env sig cache).1
            else acc)).events }

/-- The batch loop of `ProcessPastLogs` (lines 124-137).  `currBlock + 1` cannot wrap
under the guard `currBlock < finalizedBlockNumber`.  The result `none` means that the
loop, or a block loop inside it, is still running after `fuel` iterations. -/
def batchLoop (env : Env) (finalizedBlockNumber : Nat) (registeredAddresses : List Address) :
    Nat → Nat → CacheMap → Step (Option (Outcome Unit))
  | 0, _, m => { result := none, sigToCache := m, events := [] }
  | fuel + 1, currBlock, m =>
    if currBlock < finalizedBlockNumber then
      match (processBlocksInBatch env (fuel + 1) m (currBlock + 1) DefaultBatchSize
          finalizedBlockNumber registeredAddresses).result with
      | none =>
        { result := none
          sigToCache := (processBlocksInBatch env (fuel + 1) m (currBlock + 1)
            DefaultBatchSize finalizedBlockNumber registeredAddresses).sigToCache
          events := (processBlocksInBatch env (fuel + 1) m (currBlock + 1)
            DefaultBatchSize finalizedBlockNumber registeredAddresses).events }
      | some (Outcome.ok next) =>
        Step.after
          (processBlocksInBatch env (fuel + 1) m (currBlock + 1) DefaultBatchSize
            finalizedBlockNumber registeredAddresses).events
          (batchLoop env finalizedBlockNumber registeredAddresses fuel next
            (processBlocksInBatch env (fuel + 1) m (currBlock + 1) DefaultBatchSize
              finalizedBlockNumber registeredAddresses).sigToCache)
      | some (Outcome.err e) =>
        { result := some (Outcome.err (Error.wrapf e WrapMsg.failedToProcessLogsInBatch))
          sigToCache := (processBlocksInBatch env (fuel + 1) m (currBlock + 1)
            DefaultBatchSize finalizedBlockNumber registeredAddresses).sigToCache
          events := (processBlocksInBatch env (fuel + 1) m (currBlock + 1)
            DefaultBatchSize finalizedBlockNumber registeredAddresses).events }
      | some Outcome.panic =>
        { result := some Outcome.panic
          sigToCache := (processBlocksInBatch env (fuel + 1) m (currBlock + 1)
            DefaultBatchSize finalizedBlockNumber registeredAddresses).sigToCache
          events := (processBlocksInBatch env (fuel + 1) m (currBlock + 1)
            DefaultBatchSize finalizedBlockNumber registeredAddresses).events }
    else { result := some (Outcome.ok ()), sigToCache := m, events := [] }

/-- The method `ProcessPastLogs`. -/
def ProcessPastLogs (env : Env) (fuel : Nat) (m : CacheMap) : Step (Option (Outcome Unit)) :=
  match getLatestFinalizedBlock env with
  | (Except.error e, evs) =>
    { result := some (Outcome.err (Error.wrapf e WrapMsg.failedToGetLatestFinalizedBlock))
      sigToCache := m
      events := evs }
  | (Except.ok finalizedBlockNumber, evs) =>
    if (windowLoop env m finalizedBlockNumber).result = finalizedBlockNumber then
      { result := some (Outcome.ok ())
        sigToCache := (windowLoop env m finalizedBlockNumber).sigToCache
        events := evs ++ (windowLoop env m finalizedBlockNumber).events }
    else
      Step.after
        (evs ++ (windowLoop env m finalizedBlockNumber).events ++
          [Event.GetRegisteredAddresses])
        (batchLoop env finalizedBlockNumber env.GetRegisteredAddresses fuel
          (windowLoop env m finalizedBlockNumber).result
          (windowLoop env m finalizedBlockNumber).sigToCache)

/-! ## Vocabulary of the statements -/

/-- The per-signature safe resume points of a run, one per registered signature. -/
def resumePoints (env : Env) (m : CacheMap) : List Nat :=
  m.map (fun sc => (reconcile env sc.1 sc.2).1)

/-- The block ranges of the `GetLogs` calls of a trace, in call order. -/
def getLogsCalls : List Event → List (Nat × Nat)
  | [] => []
  | Event.GetLogs fromBlock toBlock _ _ :: rest => (fromBlock, toBlock) :: getLogsCalls rest
  | _ :: rest => getLogsCalls rest

/-- A decode step or a cache `Push` that returned an error. -/
def Event.isBlockFailure : Event → Bool
  | Event.ProcessLogs _ _ false => true
  | Event.Push _ _ false => true
  | _ => false

/-- No call of the trace is a failed decode or a failed push. -/
def noBlockFailure (evs : List Event) : Prop := ∀ e ∈ evs, e.isBlockFailure = false

/-- The calls a batch can make: `GetLogs`, and the calls of the block step. -/
def Event.isBatchCall : Event → Bool
  | Event.GetLogs _ _ _ _ => true
  | Event.ShouldProcess _ _ => true
  | Event.ProcessLogs _ _ _ => true
  | Event.Push _ _ _ => true
  | Event.SetLastProcessedBlock _ _ => true
  | Event.Rollback _ => true
  | _ => false

/-- Every call of the trace is a call a batch can make. -/
def onlyBatchCalls (evs : List Event) : Prop := ∀ e ∈ evs, e.isBatchCall = true

/-- The calls `Rollback()` of `rollbackCaches`, one per registered cache. -/
def rollbackEvents (m : CacheMap) : List Event :=
  m.map (fun sc => Event.Rollback sc.1)

/-- The ranges `rs` split the blocks `a .. F` into consecutive batches: each range starts
where the one before it ended plus one (the first at `a`), is non-empty, holds at
most `B` blocks and, unless it is the last, exactly `B`; the last one ends at `F`. -/
def coversInBatches (B : Nat) : Nat → Nat → List (Nat × Nat) → Prop
  | a, F, [] => a = F + 1
  | a, F, r :: rest =>
    r.1 = a ∧ r.1 ≤ r.2 ∧ r.2 ≤ F ∧ r.2 + 1 - r.1 ≤ B ∧
      (rest ≠ [] → r.2 + 1 - r.1 = B) ∧ coversInBatches B (r.2 + 1) F rest

/-- No collaborator fails: `GetLogs` returns logs that all carry a topic, the decode
step returns containers, and no cache refuses a push. -/
def FaultFree (env : Env) : Prop :=
  (∀ a b addrs, ∃ logs, env.GetLogs a b addrs = Except.ok logs ∧ ∀ l ∈ logs, l.Topics ≠ []) ∧
  (∀ logs n, ∃ containers, env.ProcessLogs logs n = Except.ok containers) ∧
  (∀ sig cache container, env.PushError sig cache container = none)

/-! ## Concrete collaborators and caches used in the examples -/

/-- A cache with watermark `c`, no resume hint and no contents. -/
def cacheAt (c : Nat) : LogCache :=
  { lastProcessedBlock := c, currentProcessingBlock := 0, currentProcessingIndex := 0,
    contents := [] }

/-- A log of block `b` with log index `i`, emitted under signature `sig`. -/
def logAt (sig : Hash) (b i : Nat) : Log :=
  { Address := 1, Topics := [sig], Data := [], BlockNumber := b, Index := i }

/-- Collaborators for the examples: finalized block `F`, the same checkpoint `(p, i)` for
every signature, an engine that holds the logs `chain` and returns those of the
requested range, a factory that decodes every log to a container tagged with its
first topic and fails on block `failAt` (no block when `failAt = none`), caches that
accept every log and every push. -/
def exampleEnv (F p i : Nat) (chain : List Log) (failAt : Option Nat) : Env :=
  { FinalizedCheckpoint := 7
    HeaderByHash := fun _ => Except.ok F
    GetLastProcessedBlockNumber := fun _ => p
    GetLastProcessedLogIndex := fun _ => i
    GetRegisteredAddresses := [1]
    GetLogs := fun fromBlock toBlock _ =>
      Except.ok (chain.filter
        (fun l => decide (fromBlock ≤ l.BlockNumber) && decide (l.BlockNumber ≤ toBlock)))
    ProcessLogs := fun logs blockNumber =>
      if failAt = some blockNumber then Except.error (Error.external 1)
      else Except.ok (logs.map
        (fun l => { Signature := l.Topics.headD 0, value := l.Index }))
    ShouldProcess := fun _ _ _ => true
    PushError := fun _ _ _ => none }

/-- The logs of a block that the spec says are decoded: those whose signature (first
topic) has a registered cache whose `ShouldProcess` accepts the log, in the original
order. -/
def acceptedLogs (env : Env) (m : CacheMap) (logs : List Log) : List Log :=
  logs.filter (fun log =>
    match log.Topics with
    | [] => false
    | sig :: _ =>
      match getCache m sig with
      | none => false
      | some cache => env.ShouldProcess sig cache log)

/-- The containers whose own signature has a registered cache, in the original order. -/
def registeredContainers (m : CacheMap) (cs : List LogValueContainer) :
    List LogValueContainer :=
  cs.filter (fun c => (getCache m c.Signature).isSome)

/-- The `Push` calls of a trace, in call order: the cache (by signature), the container
and whether the push was accepted. -/
def pushCalls : List Event → List (Hash × LogValueContainer × Bool)
  | [] => []
  | Event.Push sig container ok :: rest => (sig, container, ok) :: pushCalls rest
  | _ :: rest => pushCalls rest

/-- The containers that a trace pushed successfully into the cache registered under
`sig`, in call order. -/
def pushedTo (sig : Hash) (evs : List Event) : List LogValueContainer :=
  ((pushCalls evs).filter (fun t => decide (t.1 = sig) && t.2.2)).map (fun t => t.2.1)

/-- The decode calls of a trace, in call order: the logs handed over and the block. -/
def decodeCalls : List Event → List (List Log × Nat)
  | [] => []
  | Event.ProcessLogs logs blockNumber _ :: rest => (logs, blockNumber) :: decodeCalls rest
  | _ :: rest => decodeCalls rest

/-- Collaborators for the push examples: as `exampleEnv 10 0 0 [] none`, but the cache
refuses every container whose value is `refused`. -/
def refusingEnv (refused : Nat) : Env :=
  { exampleEnv 10 0 0 [] none with
    PushError := fun _ _ container =>
      if container.value = refused then some (Error.external 2) else none }

/-- The block numbers that a call passes to `GetLogs`, to the decode step or to
`SetLastProcessedBlock` are at most `F` (other calls carry no such block number). -/
def Event.blocksAtMost (F : Nat) : Event → Prop
  | Event.GetLogs fromBlock toBlock _ _ => fromBlock ≤ F ∧ toBlock ≤ F
  | Event.ProcessLogs _ blockNumber _ => blockNumber ≤ F
  | Event.SetLastProcessedBlock _ blockNumber => blockNumber ≤ F
  | _ => True

/-- Every registered cache has a watermark of at most `F`. -/
def watermarksAtMost (F : Nat) (m : CacheMap) : Prop :=
  ∀ sc ∈ m, sc.2.LastProcessedBlock ≤ F

/-- A `GetLogs` call that returned an error. -/
def Event.isFetchFailure : Event → Bool
  | Event.GetLogs _ _ _ false => true
  | _ => false

/-- A call of `Rollback`. -/
def Event.isRollback : Event → Bool
  | Event.Rollback _ => true
  | _ => false

/-- The calls the block step can make: `ShouldProcess`, the decode step, `Push` and
`SetLastProcessedBlock`. -/
def Event.isBlockStepCall : Event → Bool
  | Event.ShouldProcess _ _ => true
  | Event.ProcessLogs _ _ _ => true
  | Event.Push _ _ _ => true
  | Event.SetLastProcessedBlock _ _ => true
  | _ => false

/-- Collaborators for the fetch examples: as `exampleEnv F p i chain none`, but `GetLogs`
fails for the range that starts at block `failFrom`. -/
def fetchFailingEnv (F p i : Nat) (chain : List Log) (failFrom : Nat) : Env :=
  { exampleEnv F p i chain none with
    GetLogs := fun fromBlock toBlock addrs =>
      if fromBlock = failFrom then Except.error (Error.external 3)
      else (exampleEnv F p i chain none).GetLogs fromBlock toBlock addrs }

/-- The block numbers of the decode calls of a trace, in call order. -/
def decodedBlocks (evs : List Event) : List Nat :=
  (decodeCalls evs).map Prod.snd

/-- Two lists hold the same logs block by block, with the logs of each block in the same
relative order (so each is a permutation of the other that keeps the order of logs
sharing a block number). -/
def sameBlocks (logs logs2 : List Log) : Prop :=
  ∀ n, logs.filter (fun l => decide (l.BlockNumber = n)) =
    logs2.filter (fun l => decide (l.BlockNumber = n))

/-- The collaborators `env` with an engine whose `GetLogs` returns `logs`. -/
def Env.withLogs (env : Env) (logs : List Log) : Env :=
  { env with GetLogs := fun _ _ _ => Except.ok logs }
/-- Collaborators for the wrap example: finalized block `2^64 - 1` and one log, in
block `2^64 - 1`. -/
def wrapEnv : Env :=
  exampleEnv (U64 - 1) 0 0 [logAt 1 (U64 - 1) 0] none

end BeaconKit.Logs

/-! ## The SSZ encoding of `Fork` (`consensus-types/pkg/types/fork.ssz.go`) -/

namespace BeaconKit.Types

/-- A Go `byte`. -/
abbrev Byte := Fin 256

/-- The low byte of a number, as the conversion `byte(n)` computes it. -/
def byteOf (n : Nat) : Byte := ⟨n % 256, Nat.mod_lt n (by decide)⟩

/-- A `primitives.Version`, the array type `[4]byte`. -/
structure Version where
  b0 : Byte
  b1 : Byte
  b2 : Byte
  b3 : Byte
deriving DecidableEq, Repr

/-- The struct `Fork`.  Its declaration is not among the sources; the fields are the ones
`fork.ssz.go` reads and writes: two 4-byte versions and the epoch, a `uint64`. -/
structure Fork where
  PreviousVersion : Version
  CurrentVersion : Version
  Epoch : Nat
deriving DecidableEq, Repr

/-- The error values of the `fastssz` library that `fork.ssz.go` returns. -/
inductive SSZError where
  | ErrSize
deriving DecidableEq, Repr

/-- The slice `v[:]` of a version. -/
def Version.bytes (v : Version) : List Byte := [v.b0, v.b1, v.b2, v.b3]

/-- The statement `copy(v[:], src)`: the first bytes of `src` overwrite those of `v`, as
many as both hold. -/
def Version.copyFrom (v : Version) (src : List Byte) : Version :=
  { b0 := src.getD 0 v.b0, b1 := src.getD 1 v.b1, b2 := src.getD 2 v.b2,
    b3 := src.getD 3 v.b3 }

/-- The slice expression `buf[lo:hi]`, for `lo <= hi <= len(buf)`. -/
def slice (buf : List Byte) (lo hi : Nat) : List Byte := (buf.drop lo).take (hi - lo)

/-- The library function `ssz.MarshalUint64` (fastssz, outside the repository): appends
the 8 bytes of `i`, least significant first, to `dst`. -/
def MarshalUint64 (dst : List Byte) (i : Nat) : List Byte :=
  dst ++ [byteOf i, byteOf (i / 256), byteOf (i / 65536), byteOf (i / 16777216),
    byteOf (i / 4294967296), byteOf (i / 1099511627776), byteOf (i / 281474976710656),
    byteOf (i / 72057594037927936)]

/-- The library function `ssz.UnmarshallUint64` (fastssz, outside the repository): the
little-endian value of the first 8 bytes of `src`.  On a shorter slice the Go function
panics; `UnmarshalSSZ` only calls it on 8 bytes, and the model reads a missing byte
as 0. -/
def UnmarshallUint64 (src : List Byte) : Nat :=
  (src.getD 0 0).val + (src.getD 1 0).val * 256 + (src.getD 2 0).val * 65536 +
    (src.getD 3 0).val * 16777216 + (src.getD 4 0).val * 4294967296 +
    (src.getD 5 0).val * 1099511627776 + (src.getD 6 0).val * 281474976710656 +
    (src.getD 7 0).val * 72057594037927936

/-- The method `Fork.MarshalSSZTo`: the bytes appended to `buf`, and the error (always
nil).  The conversion `uint64(f.Epoch)` keeps the low 64 bits. -/
def Fork.MarshalSSZTo (f : Fork) (buf : List Byte) : List Byte × Option SSZError :=
  (MarshalUint64 (buf ++ f.PreviousVersion.bytes ++ f.CurrentVersion.bytes)
    (f.Epoch % Logs.U64), none)

/-- The method `Fork.UnmarshalSSZ`: the receiver after the call, and the error. -/
def Fork.UnmarshalSSZ (f : Fork) (buf : List Byte) : Fork × Option SSZError :=
  if buf.length ≠ 16 then (f, some SSZError.ErrSize)
  else
    ({ PreviousVersion := f.PreviousVersion.copyFrom (slice buf 0 4)
       CurrentVersion := f.CurrentVersion.copyFrom (slice buf 4 8)
       Epoch := UnmarshallUint64 (slice buf 8 16) }, none)

/-- The method `Fork.SizeSSZ`. -/
def Fork.SizeSSZ (_f : Fork) : Nat := 16

/-- The 8 bytes of a 64-bit number in little-endian order: byte `k` is
`(n / 256 ^ k) % 256`. -/
def littleEndian8 (n : Nat) : List Byte :=
  (List.range 8).map (fun k => byteOf (n / 256 ^ k))

/-- A fork with versions `01 00 00 00` and `02 00 00 00` and epoch `2^32 + 5`. -/
def exampleFork : Fork :=
  { PreviousVersion := { b0 := 1, b1 := 0, b2 := 0, b3 := 0 }
    CurrentVersion := { b0 := 2, b1 := 0, b2 := 0, b3 := 0 }
    Epoch := 4294967301 }

/-- Another fork, used as the receiver of `UnmarshalSSZ`. -/
def otherFork : Fork :=
  { PreviousVersion := { b0 := 9, b1 := 9, b2 := 9, b3 := 9 }
    CurrentVersion := { b0 := 9, b1 := 9, b2 := 9, b3 := 9 }
    Epoch := 77 }

end BeaconKit.Types

namespace BeaconKit.Logs

/-- Modelled from the spec: an implementation of the Log Cache interface (spec, section
6); none is part of the sources.  Its state is a value of `σ`.  `LastProcessedBlock`
is the value the getter `LastProcessedBlock()` returns, and the getter leaves the state
as it is.  Every other field is the state after the call: the three setters,
`ShouldProcess`, `Push` (also when it returns an error) and `Rollback()`, which takes
no argument, change the state in whatever way the implementation defines. -/
structure CacheImpl (σ : Type) where
  LastProcessedBlock : σ → Nat
  SetLastProcessedBlock : σ → Nat → σ
  SetCurrentProcessingBlock : σ → Nat → σ
  SetCurrentProcessingIndex : σ → Nat → σ
  ShouldProcess : σ → Log → σ
  Push : σ → LogValueContainer → σ
  Rollback : σ → σ

/-- The state of the cache registered under `sig` after one call of the processor: a call
on another cache or on a collaborator, and the getter, leave it as it is. -/
def CacheImpl.apply {σ : Type} (impl : CacheImpl σ) (sig : Hash) (s : σ) : Event → σ
  | Event.SetCurrentProcessingBlock k n =>
    if k = sig then impl.SetCurrentProcessingBlock s n else s
  | Event.SetCurrentProcessingIndex k i =>
    if k = sig then impl.SetCurrentProcessingIndex s i else s
  | Event.ShouldProcess k log => if k = sig then impl.ShouldProcess s log else s
  | Event.Push k container _ => if k = sig then impl.Push s container else s
  | Event.SetLastProcessedBlock k n => if k = sig then impl.SetLastProcessedBlock s n else s
  | Event.Rollback k => if k = sig then impl.Rollback s else s
  | _ => s

/-- The state of the cache registered under `sig` after the calls of a trace, in call
order, started in state `s`. -/
def CacheImpl.replay {σ : Type} (impl : CacheImpl σ) (sig : Hash) (evs : List Event)
    (s : σ) : σ :=
  evs.foldl (impl.apply sig) s

/-- A call that can change the state of the cache registered under `sig`: every call on
that cache but the getter `LastProcessedBlock()`. -/
def Event.changes (sig : Hash) : Event → Bool
  | Event.SetCurrentProcessingBlock k _ => decide (k = sig)
  | Event.SetCurrentProcessingIndex k _ => decide (k = sig)
  | Event.ShouldProcess k _ => decide (k = sig)
  | Event.Push k _ _ => decide (k = sig)
  | Event.SetLastProcessedBlock k _ => decide (k = sig)
  | Event.Rollback k => decide (k = sig)
  | _ => false

/-- The calls of a trace that can change the state of the cache registered under `sig`,
in call order. -/
def cacheCalls (sig : Hash) (evs : List Event) : List Event :=
  evs.filter (Event.changes sig)

/-- No call of the trace is a failed decode, a failed push or a `Rollback`. -/
def noFailureNoRollback (evs : List Event) : Prop :=
  ∀ e ∈ evs, e.isBlockFailure = false ∧ e.isRollback = false

/-- Collaborators for the rollback examples: finalized block `F`, no checkpoint, logs of
signature 1 in blocks 500 and 1200, and a decode step that fails on block 1200. -/
def atomicityEnv (F : Nat) : Env :=
  exampleEnv F 0 0 [logAt 1 500 0, logAt 1 1200 0] (some 1200)

/-- A run at finalized block 1000 on one cache at watermark 0: block 500 is processed. -/
def earlierRun : Step (Option (Outcome Unit)) :=
  ProcessPastLogs (atomicityEnv 1000) 1002 [(1, cacheAt 0)]

/-- The next run, at finalized block 2000, on the cache `earlierRun` leaves behind: its
only batch, blocks 501 to 1500, fails on block 1200. -/
def laterRun : Step (Option (Outcome Unit)) :=
  ProcessPastLogs (atomicityEnv 2000) 1002 earlierRun.sigToCache

/-- One run at finalized block 2000 on one cache at watermark 0: the first batch, blocks
1 to 1000, processes block 500; the second, blocks 1001 to 2000, fails on block 1200. -/
def singleRun : Step (Option (Outcome Unit)) :=
  ProcessPastLogs (atomicityEnv 2000) 1002 [(1, cacheAt 0)]

/-- An implementation of the cache interface for the examples: its state is a `LogCache`,
the setters and `Push` are the modelled ones, `ShouldProcess` changes nothing and
`Rollback()` keeps the state it finds. -/
def keepingCache : CacheImpl LogCache :=
  { LastProcessedBlock := LogCache.LastProcessedBlock
    SetLastProcessedBlock := LogCache.SetLastProcessedBlock
    SetCurrentProcessingBlock := LogCache.SetCurrentProcessingBlock
    SetCurrentProcessingIndex := LogCache.SetCurrentProcessingIndex
    ShouldProcess := fun c _ => c
    Push := LogCache.Push
    Rollback := fun c => c }

/-! ## Shared lemmas -/

theorem getLogsCalls_append (a b : List Event) :
    getLogsCalls (a ++ b) = getLogsCalls a ++ getLogsCalls b := by
  induction a with
  | nil => rfl
  | cons e rest ih => cases e <;> simp [getLogsCalls, ih]

theorem reconcile_events_getLogsCalls (env : Env) (sig : Hash) (cache : LogCache) :
    getLogsCalls (reconcile env sig cache).2.2 = [] := by
  unfold reconcile
  split <;> rfl

theorem windowLoop_getLogsCalls (env : Env) (m : CacheMap) (acc : Nat) :
    getLogsCalls (windowLoop env m acc).events = [] := by
  induction m generalizing acc with
  | nil => rfl
  | cons sc rest ih =>
    obtain ⟨sig, cache⟩ := sc
    simp [windowLoop, getLogsCalls_append, reconcile_events_getLogsCalls, ih]

theorem windowLoop_result_le (env : Env) (m : CacheMap) (acc : Nat) :
    (windowLoop env m acc).result ≤ acc := by
  induction m generalizing acc with
  | nil => exact Nat.le_refl _
  | cons sc rest ih =>
    obtain ⟨sig, cache⟩ := sc
    simp only [windowLoop]
    refine Nat.le_trans (ih _) ?_
    split <;> omega

theorem windowLoop_result_le_resume (env : Env) (m : CacheMap) (acc : Nat) :
    ∀ r ∈ resumePoints env m, (windowLoop env m acc).result ≤ r := by
  induction m generalizing acc with
  | nil => intro r hr; simp [resumePoints] at hr
  | cons sc rest ih =>
    obtain ⟨sig, cache⟩ := sc
    intro r hr
    simp only [resumePoints, List.map_cons, List.mem_cons] at hr
    simp only [windowLoop]
    rcases hr with rfl | hr
    · refine Nat.le_trans (windowLoop_result_le env rest _) ?_
      split <;> omega
    · exact ih _ r hr

theorem windowLoop_result_mem (env : Env) (m : CacheMap) (acc : Nat) :
    (windowLoop env m acc).result = acc ∨ (windowLoop env m acc).result ∈ resumePoints env m := by
  induction m generalizing acc with
  | nil => exact Or.inl rfl
  | cons sc rest ih =>
    obtain ⟨sig, cache⟩ := sc
    simp only [windowLoop, resumePoints, List.map_cons, List.mem_cons]
    rcases ih (if (reconcile env sig cache).1 < acc then (reconcile env sig cache).1 else acc)
      with h | h
    · rw [h]
      split
      · exact Or.inr (Or.inl rfl)
      · exact Or.inl rfl
    · exact Or.inr (Or.inr h)

theorem windowLoop_sigToCache (env : Env) (m : CacheMap) (acc : Nat) :
    (windowLoop env m acc).sigToCache =
      m.map (fun sc => (sc.1, (reconcile env sc.1 sc.2).2.1)) := by
  induction m generalizing acc with
  | nil => rfl
  | cons sc rest ih =>
    obtain ⟨sig, cache⟩ := sc
    simp [windowLoop, ih]

theorem processBlocksInBatch_events_head (env : Env) (fuel : Nat) (m : CacheMap)
    (fromBlock batchSize F : Nat) (addrs : List Address) :
    ∃ ok rest, (processBlocksInBatch env fuel m fromBlock batchSize F addrs).events =
      Event.GetLogs fromBlock (batchToBlock fromBlock batchSize F) addrs ok :: rest := by
  unfold processBlocksInBatch
  split
  · exact ⟨false, [], rfl⟩
  · exact ⟨true, _, rfl⟩

theorem getLatestFinalizedBlock_ok (env : Env) (n : Nat)
    (hF : env.HeaderByHash env.FinalizedCheckpoint = Except.ok n) :
    getLatestFinalizedBlock env = (Except.ok (n % U64),
      [Event.FinalizedCheckpoint, Event.HeaderByHash env.FinalizedCheckpoint true]) := by
  unfold getLatestFinalizedBlock
  rw [hF]

theorem ProcessPastLogs_of_start_ne (env : Env) (m : CacheMap) (n fuel : Nat)
    (hF : env.HeaderByHash env.FinalizedCheckpoint = Except.ok n)
    (hne : (windowLoop env m (n % U64)).result ≠ n % U64) :
    ProcessPastLogs env fuel m =
      Step.after
        ([Event.FinalizedCheckpoint, Event.HeaderByHash env.FinalizedCheckpoint true] ++
          (windowLoop env m (n % U64)).events ++ [Event.GetRegisteredAddresses])
        (batchLoop env (n % U64) env.GetRegisteredAddresses fuel
          (windowLoop env m (n % U64)).result (windowLoop env m (n % U64)).sigToCache) := by
  unfold ProcessPastLogs
  rw [getLatestFinalizedBlock_ok env n hF]
  simp only [if_neg hne]

theorem ProcessPastLogs_of_start_eq (env : Env) (m : CacheMap) (n fuel : Nat)
    (hF : env.HeaderByHash env.FinalizedCheckpoint = Except.ok n)
    (heq : (windowLoop env m (n % U64)).result = n % U64) :
    ProcessPastLogs env fuel m =
      { result := some (Outcome.ok ())
        sigToCache := (windowLoop env m (n % U64)).sigToCache
        events := [Event.FinalizedCheckpoint, Event.HeaderByHash env.FinalizedCheckpoint true] ++
          (windowLoop env m (n % U64)).events } := by
  unfold ProcessPastLogs
  rw [getLatestFinalizedBlock_ok env n hF]
  simp only [if_pos heq]

theorem batchLoop_events_head (env : Env) (F : Nat) (addrs : List Address) (fuel curr : Nat)
    (m : CacheMap) (hlt : curr < F) :
    ∃ ok rest, (batchLoop env F addrs (fuel + 1) curr m).events =
      Event.GetLogs (curr + 1) (batchToBlock (curr + 1) DefaultBatchSize F) addrs ok :: rest := by
  obtain ⟨ok, rest, hev⟩ := processBlocksInBatch_events_head env (fuel + 1) m (curr + 1)
    DefaultBatchSize F addrs
  rw [batchLoop, if_pos hlt]
  split
  · exact ⟨ok, rest, hev⟩
  · exact ⟨ok, _, by simp only [Step.after, hev, List.cons_append]; rfl⟩
  · exact ⟨ok, rest, hev⟩
  · exact ⟨ok, rest, hev⟩

theorem ProcessPastLogs_first_fetch (env : Env) (m : CacheMap) (n fuel : Nat)
    (hF : env.HeaderByHash env.FinalizedCheckpoint = Except.ok n)
    (hne : (windowLoop env m (n % U64)).result ≠ n % U64) :
    (getLogsCalls (ProcessPastLogs env (fuel + 1) m).events).head? =
      some ((windowLoop env m (n % U64)).result + 1,
        batchToBlock ((windowLoop env m (n % U64)).result + 1) DefaultBatchSize (n % U64)) := by
  have hlt : (windowLoop env m (n % U64)).result < n % U64 :=
    Nat.lt_of_le_of_ne (windowLoop_result_le env m _) hne
  obtain ⟨ok, rest, hev⟩ := batchLoop_events_head env (n % U64) env.GetRegisteredAddresses fuel
    _ (windowLoop env m (n % U64)).sigToCache hlt
  rw [ProcessPastLogs_of_start_ne env m n _ hF hne]
  simp [Step.after, hev, getLogsCalls_append, windowLoop_getLogsCalls, getLogsCalls]

theorem reconcile_of_le (env : Env) (sig : Hash) (cache : LogCache)
    (h : env.GetLastProcessedBlockNumber sig ≤ cache.LastProcessedBlock) :
    reconcile env sig cache = (cache.LastProcessedBlock, cache,
      [Event.LastProcessedBlock sig, Event.GetLastProcessedBlockNumber sig]) := by
  unfold reconcile
  rw [if_neg (Nat.not_lt.mpr h)]

theorem reconcile_of_lt (env : Env) (sig : Hash) (cache : LogCache)
    (h : cache.LastProcessedBlock < env.GetLastProcessedBlockNumber sig) :
    reconcile env sig cache = (env.GetLastProcessedBlockNumber sig - 1,
      { cache with
        currentProcessingBlock := env.GetLastProcessedBlockNumber sig
        currentProcessingIndex := env.GetLastProcessedLogIndex sig },
      [Event.LastProcessedBlock sig, Event.GetLastProcessedBlockNumber sig,
       Event.SetCurrentProcessingBlock sig (env.GetLastProcessedBlockNumber sig),
       Event.GetLastProcessedLogIndex sig,
       Event.SetCurrentProcessingIndex sig (env.GetLastProcessedLogIndex sig)]) := by
  unfold reconcile
  rw [if_pos h]
  rfl

theorem windowLoop_events_mem (env : Env) (m : CacheMap) (acc : Nat) (e : Event) :
    e ∈ (windowLoop env m acc).events ↔ ∃ sc ∈ m, e ∈ (reconcile env sc.1 sc.2).2.2 := by
  induction m generalizing acc with
  | nil => simp [windowLoop]
  | cons sc rest ih =>
    obtain ⟨sig, cache⟩ := sc
    simp [windowLoop, ih]

theorem cacheMap_entry_unique (m : CacheMap) (hnd : (m.map Prod.fst).Nodup)
    (sig : Hash) (c1 c2 : LogCache) (h1 : (sig, c1) ∈ m) (h2 : (sig, c2) ∈ m) : c1 = c2 := by
  have := List.inj_on_of_nodup_map hnd h1 h2 rfl
  exact (Prod.mk.inj this).2

theorem filterLogs_getLogsCalls (env : Env) (m : CacheMap) (logs : List Log) :
    getLogsCalls (filterLogs env m logs).2 = [] := by
  induction logs with
  | nil => rfl
  | cons log rest ih =>
    unfold filterLogs
    split
    · rfl
    · split
      · exact ih
      · simp only
        split <;> simpa [getLogsCalls] using ih

theorem pushContainers_getLogsCalls (env : Env) (cs : List LogValueContainer) (m : CacheMap) :
    getLogsCalls (pushContainers env cs m).events = [] := by
  induction cs generalizing m with
  | nil => rfl
  | cons c rest ih =>
    unfold pushContainers
    split
    · exact ih m
    · split
      · rfl
      · simpa [Step.after, getLogsCalls] using ih _

theorem setLastProcessedBlockAllCaches_getLogsCalls (m : CacheMap) (n : Nat) :
    getLogsCalls (setLastProcessedBlockAllCaches m n).events = [] := by
  unfold setLastProcessedBlockAllCaches
  induction m with
  | nil => rfl
  | cons sc rest ih => simpa [getLogsCalls] using ih

theorem rollbackCaches_getLogsCalls (m pre : CacheMap) :
    getLogsCalls (rollbackCaches m pre).events = [] := by
  unfold rollbackCaches
  induction m with
  | nil => rfl
  | cons sc rest ih => simpa [getLogsCalls] using ih

theorem processLogsInBlock_getLogsCalls (env : Env) (m : CacheMap) (logs : List Log)
    (n : Nat) : getLogsCalls (processLogsInBlock env m logs n).events = [] := by
  unfold processLogsInBlock
  split
  · exact filterLogs_getLogsCalls env m logs
  · split
    · simp [getLogsCalls_append, filterLogs_getLogsCalls, getLogsCalls]
    · split
      · simp [getLogsCalls_append, filterLogs_getLogsCalls, getLogsCalls,
          pushContainers_getLogsCalls]
      · simp [getLogsCalls_append, filterLogs_getLogsCalls, getLogsCalls,
          pushContainers_getLogsCalls, setLastProcessedBlockAllCaches_getLogsCalls]

theorem blockLoop_getLogsCalls (env : Env) (logs : List Log) (toBlock fuel blockNum : Nat)
    (m : CacheMap) : getLogsCalls (blockLoop env logs toBlock fuel blockNum m).events = [] := by
  induction fuel generalizing blockNum m with
  | zero => rfl
  | succ fuel ih =>
    unfold blockLoop
    split
    · split
      · exact ih _ _
      · split
        · simp [Step.after, getLogsCalls_append, processLogsInBlock_getLogsCalls, ih]
        · exact processLogsInBlock_getLogsCalls _ _ _ _
        · exact processLogsInBlock_getLogsCalls _ _ _ _
    · rfl

theorem processBlocksInBatch_getLogsCalls (env : Env) (fuel : Nat) (m : CacheMap)
    (fromBlock batchSize F : Nat) (addrs : List Address) :
    getLogsCalls (processBlocksInBatch env fuel m fromBlock batchSize F addrs).events =
      [(fromBlock, batchToBlock fromBlock batchSize F)] := by
  unfold processBlocksInBatch
  split
  · rfl
  · simp only [Step.after, List.singleton_append, getLogsCalls, List.cons.injEq, true_and]
    split <;> simp [getLogsCalls_append, blockLoop_getLogsCalls, rollbackCaches_getLogsCalls]

theorem processBlocksInBatch_result_ok (env : Env) (fuel : Nat) (m : CacheMap)
    (fromBlock batchSize F : Nat) (addrs : List Address) (v : Nat)
    (h : (processBlocksInBatch env fuel m fromBlock batchSize F addrs).result =
      some (Outcome.ok v)) : v = batchToBlock fromBlock batchSize F := by
  unfold processBlocksInBatch at h
  split at h
  · simp at h
  · simp only [Step.after] at h
    split at h <;> simp at h
    exact h.symm

theorem batchToBlock_eq_min (fromBlock batchSize F : Nat) (hB : 1 ≤ batchSize)
    (hno : fromBlock + batchSize ≤ U64) :
    batchToBlock fromBlock batchSize F = min (fromBlock + batchSize - 1) F := by
  have h1 : sub64 (add64 fromBlock batchSize) 1 = fromBlock + batchSize - 1 := by
    unfold sub64 add64 U64 at *
    omega
  unfold batchToBlock
  rw [h1]
  split <;> omega

/-- The block loop returns once its fuel exceeds the number of blocks left, provided the
counter cannot wrap before passing `toBlock`. -/
theorem blockLoop_returns (env : Env) (logs : List Log) (toBlock : Nat)
    (hto : toBlock + 1 < U64) (fuel blockNum : Nat) (m : CacheMap)
    (hfuel : toBlock + 1 - blockNum < fuel) :
    (blockLoop env logs toBlock fuel blockNum m).result ≠ none := by
  induction fuel generalizing blockNum m with
  | zero => omega
  | succ fuel ih =>
    unfold blockLoop
    split
    · rename_i hle
      have hnext : add64 blockNum 1 = blockNum + 1 := by
        unfold add64
        exact Nat.mod_eq_of_lt (by omega)
      have hf : toBlock + 1 - (blockNum + 1) < fuel := by omega
      split
      · rw [hnext]; exact ih _ _ hf
      · split
        · rw [hnext]; exact ih _ _ hf
        · simp
        · simp
    · simp

theorem processBlocksInBatch_returns (env : Env) (fuel : Nat) (m : CacheMap)
    (fromBlock batchSize F : Nat) (addrs : List Address)
    (hto : batchToBlock fromBlock batchSize F + 1 < U64)
    (hfuel : batchToBlock fromBlock batchSize F + 1 - fromBlock < fuel) :
    (processBlocksInBatch env fuel m fromBlock batchSize F addrs).result ≠ none := by
  unfold processBlocksInBatch
  split
  · simp
  · rename_i logs _
    have h := blockLoop_returns env logs _ hto fuel fromBlock m hfuel
    simp only [Step.after]
    split
    · rename_i heq; exact absurd heq h
    · simp
    · simp
    · simp

theorem filterLogs_isSome (env : Env) (m : CacheMap) (logs : List Log)
    (h : ∀ l ∈ logs, l.Topics ≠ []) : ∃ kept, (filterLogs env m logs).1 = some kept := by
  induction logs with
  | nil => exact ⟨[], rfl⟩
  | cons log rest ih =>
    obtain ⟨kept, hk⟩ := ih (fun l hl => h l (List.mem_cons_of_mem _ hl))
    unfold filterLogs
    split
    · rename_i heq
      exact absurd heq (h log (List.mem_cons_self _ _))
    · split
      · exact ⟨kept, hk⟩
      · simp only
        split
        · exact ⟨log :: kept, by simp [hk]⟩
        · exact ⟨kept, hk⟩

theorem blockToLogs_subset (logs : List Log) (n : Nat) (bl : List Log)
    (h : blockToLogs logs n = some bl) : ∀ l ∈ bl, l ∈ logs := by
  induction logs generalizing bl with
  | nil => simp [blockToLogs] at h
  | cons log rest ih =>
    unfold blockToLogs at h
    split at h
    · cases hrest : blockToLogs rest n with
      | none =>
        rw [hrest] at h
        simp at h
        subst h
        intro l hl
        simp at hl
        subst hl
        exact List.mem_cons_self _ _
      | some tl =>
        rw [hrest] at h
        simp at h
        subst h
        intro l hl
        rcases List.mem_cons.mp hl with rfl | hl
        · exact List.mem_cons_self _ _
        · exact List.mem_cons_of_mem _ (ih tl hrest l hl)
    · intro l hl
      exact List.mem_cons_of_mem _ (ih bl h l hl)

theorem pushContainers_ok (env : Env) (h : ∀ sig cache c, env.PushError sig cache c = none)
    (cs : List LogValueContainer) (m : CacheMap) : (pushContainers env cs m).result = none := by
  induction cs generalizing m with
  | nil => rfl
  | cons c rest ih =>
    unfold pushContainers
    split
    · exact ih m
    · split
      · rename_i heq
        rw [h] at heq
        cases heq
      · simpa [Step.after] using ih _

theorem processLogsInBlock_ok (env : Env) (hff : FaultFree env) (m : CacheMap)
    (logs : List Log) (n : Nat) (ht : ∀ l ∈ logs, l.Topics ≠ []) :
    (processLogsInBlock env m logs n).result = Outcome.ok () := by
  obtain ⟨kept, hk⟩ := filterLogs_isSome env m logs ht
  obtain ⟨cs, hcs⟩ := hff.2.1 kept n
  have hp := pushContainers_ok env hff.2.2 cs m
  unfold processLogsInBlock
  rw [hk]
  simp only [hcs, hp]

theorem blockLoop_ok (env : Env) (hff : FaultFree env) (logs : List Log)
    (ht : ∀ l ∈ logs, l.Topics ≠ []) (toBlock fuel blockNum : Nat) (m : CacheMap) :
    (blockLoop env logs toBlock fuel blockNum m).result = none ∨
    (blockLoop env logs toBlock fuel blockNum m).result = some (Outcome.ok ()) := by
  induction fuel generalizing blockNum m with
  | zero => exact Or.inl rfl
  | succ fuel ih =>
    unfold blockLoop
    split
    · split
      · exact ih _ _
      · rename_i bl hbl
        have hok := processLogsInBlock_ok env hff m bl blockNum
          (fun l hl => ht l (blockToLogs_subset logs blockNum bl hbl l hl))
        rw [hok]
        simpa [Step.after] using ih _ _
    · exact Or.inr rfl

theorem processBlocksInBatch_ok (env : Env) (hff : FaultFree env) (fuel : Nat) (m : CacheMap)
    (fromBlock batchSize F : Nat) (addrs : List Address) :
    (processBlocksInBatch env fuel m fromBlock batchSize F addrs).result = none ∨
    (processBlocksInBatch env fuel m fromBlock batchSize F addrs).result =
      some (Outcome.ok (batchToBlock fromBlock batchSize F)) := by
  obtain ⟨logs, hlogs, ht⟩ := hff.1 fromBlock (batchToBlock fromBlock batchSize F) addrs
  unfold processBlocksInBatch
  rw [hlogs]
  simp only [Step.after]
  rcases blockLoop_ok env hff logs ht (batchToBlock fromBlock batchSize F) fuel fromBlock m
    with h | h <;> rw [h] <;> simp

theorem batchLoop_ok (env : Env) (hff : FaultFree env) (F : Nat) (addrs : List Address)
    (fuel curr : Nat) (m : CacheMap) :
    (batchLoop env F addrs fuel curr m).result = none ∨
    (batchLoop env F addrs fuel curr m).result = some (Outcome.ok ()) := by
  induction fuel generalizing curr m with
  | zero => exact Or.inl rfl
  | succ fuel ih =>
    unfold batchLoop
    split
    · rcases processBlocksInBatch_ok env hff (fuel + 1) m (curr + 1) DefaultBatchSize F addrs
        with h | h <;> rw [h]
      · exact Or.inl rfl
      · simpa [Step.after] using ih _ _
    · exact Or.inr rfl

theorem batchToBlock_default (curr F : Nat) (hlt : curr < F)
    (hno : F + DefaultBatchSize ≤ U64) :
    batchToBlock (curr + 1) DefaultBatchSize F = min (curr + DefaultBatchSize) F := by
  rw [batchToBlock_eq_min (curr + 1) DefaultBatchSize F (by decide) (by omega)]
  have h : curr + 1 + DefaultBatchSize - 1 = curr + DefaultBatchSize := by omega
  rw [h]

theorem batchLoop_returns (env : Env) (F : Nat) (addrs : List Address)
    (hno : F + DefaultBatchSize ≤ U64) (fuel curr : Nat) (m : CacheMap) (hle : curr ≤ F)
    (hfuel : F - curr < fuel) : (batchLoop env F addrs fuel curr m).result ≠ none := by
  induction fuel generalizing curr m with
  | zero => omega
  | succ fuel ih =>
    unfold batchLoop
    split
    · rename_i hlt
      have hto := batchToBlock_default curr F hlt hno
      have hB : DefaultBatchSize = 1000 := rfl
      have hU : U64 = 18446744073709551616 := rfl
      have hret := processBlocksInBatch_returns env (fuel + 1) m (curr + 1) DefaultBatchSize F
        addrs (by rw [hto]; omega) (by rw [hto]; omega)
      split
      · rename_i heq; exact absurd heq hret
      · rename_i next heq
        have hnext := processBlocksInBatch_result_ok env _ _ _ _ _ _ _ heq
        rw [hto] at hnext
        simp only [Step.after]
        exact ih _ _ (by omega) (by omega)
      · simp
      · simp
    · simp

theorem batchLoop_covers (env : Env) (F : Nat) (addrs : List Address)
    (hno : F + DefaultBatchSize ≤ U64) (fuel curr : Nat) (m : CacheMap) (hle : curr ≤ F)
    (hok : (batchLoop env F addrs fuel curr m).result = some (Outcome.ok ())) :
    coversInBatches DefaultBatchSize (curr + 1) F
      (getLogsCalls (batchLoop env F addrs fuel curr m).events) := by
  induction fuel generalizing curr m with
  | zero => simp [batchLoop] at hok
  | succ fuel ih =>
    unfold batchLoop at hok ⊢
    split
    · rename_i hlt
      rw [if_pos hlt] at hok
      have hto := batchToBlock_default curr F hlt hno
      have hB : DefaultBatchSize = 1000 := rfl
      have hcalls := processBlocksInBatch_getLogsCalls env (fuel + 1) m (curr + 1)
        DefaultBatchSize F addrs
      split
      · rename_i heq; rw [heq] at hok; simp at hok
      · rename_i next heq
        rw [heq] at hok
        simp only [Step.after] at hok
        have hnext := processBlocksInBatch_result_ok env _ _ _ _ _ _ _ heq
        have hrec := ih next _ (by rw [hnext, hto]; omega) hok
        simp only [Step.after, getLogsCalls_append, hcalls, List.singleton_append,
          coversInBatches]
        rw [← hnext]
        refine ⟨trivial, by rw [hnext, hto]; omega, by rw [hnext, hto]; omega,
          by rw [hnext, hto]; omega, ?_, hrec⟩
        intro hrest
        by_cases hnF : next < F
        · rw [hnext, hto] at hnF ⊢; omega
        · exfalso
          apply hrest
          cases fuel with
          | zero => rfl
          | succ k => rw [batchLoop, if_neg hnF]; rfl
      · rename_i heq; rw [heq] at hok; simp at hok
      · rename_i heq; rw [heq] at hok; simp at hok
    · rename_i hnlt
      simp only [getLogsCalls, coversInBatches]
      omega

theorem reconcile_events_kind (env : Env) (sig : Hash) (cache : LogCache) (e : Event)
    (he : e ∈ (reconcile env sig cache).2.2) :
    e ≠ Event.GetRegisteredAddresses ∧ ∀ a b addrs ok, e ≠ Event.GetLogs a b addrs ok := by
  unfold reconcile at he
  split at he
  · simp only [List.mem_cons, List.mem_singleton, List.not_mem_nil, or_false] at he
    rcases he with h | h | h | h | h <;> subst h <;> simp
  · simp only [List.mem_cons, List.mem_singleton, List.not_mem_nil, or_false] at he
    rcases he with h | h <;> subst h <;> simp

theorem noBlockFailure_nil : noBlockFailure [] := by
  intro e he; cases he

theorem noBlockFailure_append {a b : List Event} (ha : noBlockFailure a)
    (hb : noBlockFailure b) : noBlockFailure (a ++ b) := by
  intro e he
  rcases List.mem_append.mp he with h | h
  · exact ha e h
  · exact hb e h

theorem noBlockFailure_cons {e : Event} {a : List Event} (he : e.isBlockFailure = false)
    (ha : noBlockFailure a) : noBlockFailure (e :: a) := by
  intro x hx
  rcases List.mem_cons.mp hx with h | h
  · subst h; exact he
  · exact ha x h

theorem filterLogs_noBlockFailure (env : Env) (m : CacheMap) (logs : List Log) :
    noBlockFailure (filterLogs env m logs).2 := by
  induction logs with
  | nil => exact noBlockFailure_nil
  | cons log rest ih =>
    unfold filterLogs
    split
    · exact noBlockFailure_nil
    · split
      · exact ih
      · simp only
        split <;> exact noBlockFailure_cons rfl ih

theorem setLastProcessedBlockAllCaches_noBlockFailure (m : CacheMap) (n : Nat) :
    noBlockFailure (setLastProcessedBlockAllCaches m n).events := by
  intro e he
  simp only [setLastProcessedBlockAllCaches, List.mem_map] at he
  obtain ⟨sc, _, rfl⟩ := he
  rfl

theorem rollbackEvents_noBlockFailure (m : CacheMap) : noBlockFailure (rollbackEvents m) := by
  intro e he
  simp only [rollbackEvents, List.mem_map] at he
  obtain ⟨sc, _, rfl⟩ := he
  rfl

theorem windowLoop_noBlockFailure (env : Env) (m : CacheMap) (acc : Nat) :
    noBlockFailure (windowLoop env m acc).events := by
  intro e he
  obtain ⟨sc, _, hsc⟩ := (windowLoop_events_mem env m acc e).mp he
  unfold reconcile at hsc
  split at hsc
  · simp only [List.mem_cons, List.mem_singleton, List.not_mem_nil, or_false] at hsc
    rcases hsc with h | h | h | h | h <;> subst h <;> rfl
  · simp only [List.mem_cons, List.mem_singleton, List.not_mem_nil, or_false] at hsc
    rcases hsc with h | h <;> subst h <;> rfl

/-- The push loop either refuses no push, or stops at the first refused push. -/
theorem pushContainers_shape (env : Env) (cs : List LogValueContainer) (m : CacheMap) :
    ((pushContainers env cs m).result = none ∧ noBlockFailure (pushContainers env cs m).events) ∨
    (∃ e pre f, (pushContainers env cs m).result = some e ∧
      (pushContainers env cs m).events = pre ++ [f] ∧ f.isBlockFailure = true ∧
      noBlockFailure pre) := by
  induction cs generalizing m with
  | nil => exact Or.inl ⟨rfl, noBlockFailure_nil⟩
  | cons c rest ih =>
    unfold pushContainers
    split
    · exact ih m
    · split
      · exact Or.inr ⟨_, [], _, rfl, rfl, rfl, noBlockFailure_nil⟩
      · rename_i _ cache _ _ _
        rcases ih (setCache m c.Signature (cache.Push c)) with ⟨h1, h2⟩ | ⟨e, pre, f, h1, h2, h3, h4⟩
        · exact Or.inl ⟨h1, noBlockFailure_cons rfl h2⟩
        · refine Or.inr ⟨e, Event.Push c.Signature c true :: pre, f, h1, ?_, h3,
            noBlockFailure_cons rfl h4⟩
          simp [Step.after, h2]

/-- One block either sees no failure (and does not return an error), or returns an error
right after the first failed decode or push. -/
theorem processLogsInBlock_shape (env : Env) (m : CacheMap) (logs : List Log) (n : Nat) :
    ((∀ e, (processLogsInBlock env m logs n).result ≠ Outcome.err e) ∧
      noBlockFailure (processLogsInBlock env m logs n).events) ∨
    (∃ e pre f, (processLogsInBlock env m logs n).result = Outcome.err e ∧
      (processLogsInBlock env m logs n).events = pre ++ [f] ∧ f.isBlockFailure = true ∧
      noBlockFailure pre) := by
  have hfl := filterLogs_noBlockFailure env m logs
  unfold processLogsInBlock
  split
  · exact Or.inl ⟨fun e h => (by cases h), hfl⟩
  · split
    · exact Or.inr ⟨_, _, _, rfl, rfl, rfl, hfl⟩
    · rename_i _ kept _ _ cs _
      rcases pushContainers_shape env cs m with ⟨h1, h2⟩ | ⟨e, pre, f, h1, h2, h3, h4⟩
      · rw [h1]
        refine Or.inl ⟨fun e h => (by cases h), ?_⟩
        exact noBlockFailure_append hfl (noBlockFailure_cons rfl
          (noBlockFailure_append h2 (setLastProcessedBlockAllCaches_noBlockFailure _ _)))
      · rw [h1]
        refine Or.inr ⟨e, (filterLogs env m logs).2 ++ Event.ProcessLogs kept n true :: pre,
          f, rfl, ?_, h3, noBlockFailure_append hfl (noBlockFailure_cons rfl h4)⟩
        simp [h2]

/-- The block loop either sees no failure (and does not return an error), or returns an
error right after the first failed decode or push. -/
theorem blockLoop_shape (env : Env) (logs : List Log) (toBlock fuel blockNum : Nat)
    (m : CacheMap) :
    ((∀ e, (blockLoop env logs toBlock fuel blockNum m).result ≠ some (Outcome.err e)) ∧
      noBlockFailure (blockLoop env logs toBlock fuel blockNum m).events) ∨
    (∃ e pre f, (blockLoop env logs toBlock fuel blockNum m).result = some (Outcome.err e) ∧
      (blockLoop env logs toBlock fuel blockNum m).events = pre ++ [f] ∧
      f.isBlockFailure = true ∧ noBlockFailure pre) := by
  induction fuel generalizing blockNum m with
  | zero => exact Or.inl ⟨fun e h => (by cases h), noBlockFailure_nil⟩
  | succ fuel ih =>
    unfold blockLoop
    split
    · split
      · exact ih _ _
      · rename_i _ bl _
        rcases processLogsInBlock_shape env m bl blockNum with
          ⟨h1, h2⟩ | ⟨e, pre, f, h1, h2, h3, h4⟩
        · split
          · rcases ih (add64 blockNum 1) (processLogsInBlock env m bl blockNum).sigToCache with
              ⟨g1, g2⟩ | ⟨e, pre, f, g1, g2, g3, g4⟩
            · exact Or.inl ⟨g1, noBlockFailure_append h2 g2⟩
            · refine Or.inr ⟨e, (processLogsInBlock env m bl blockNum).events ++ pre, f, g1,
                ?_, g3, noBlockFailure_append h2 g4⟩
              simp [Step.after, g2]
          · rename_i e heq
            exact absurd heq (h1 e)
          · exact Or.inl ⟨fun e h => (by cases h), h2⟩
        · rw [h1]
          exact Or.inr ⟨_, pre, f, rfl, h2, h3, h4⟩
    · exact Or.inl ⟨fun e h => (by cases h), noBlockFailure_nil⟩

theorem setCache_keys (m : CacheMap) (sig : Hash) (c : LogCache) :
    (setCache m sig c).map Prod.fst = m.map Prod.fst := by
  induction m with
  | nil => rfl
  | cons sc rest ih =>
    obtain ⟨k, old⟩ := sc
    unfold setCache
    split
    · rfl
    · simp [ih]

theorem pushContainers_keys (env : Env) (cs : List LogValueContainer) (m : CacheMap) :
    (pushContainers env cs m).sigToCache.map Prod.fst = m.map Prod.fst := by
  induction cs generalizing m with
  | nil => rfl
  | cons c rest ih =>
    unfold pushContainers
    split
    · exact ih m
    · split
      · rfl
      · simp only [Step.after]
        rw [ih, setCache_keys]

theorem setLastProcessedBlockAllCaches_keys (m : CacheMap) (n : Nat) :
    (setLastProcessedBlockAllCaches m n).sigToCache.map Prod.fst = m.map Prod.fst := by
  simp [setLastProcessedBlockAllCaches, List.map_map, Function.comp_def]

theorem processLogsInBlock_keys (env : Env) (m : CacheMap) (logs : List Log) (n : Nat) :
    (processLogsInBlock env m logs n).sigToCache.map Prod.fst = m.map Prod.fst := by
  unfold processLogsInBlock
  split
  · rfl
  · split
    · rfl
    · split
      · exact pushContainers_keys _ _ _
      · simp only
        rw [setLastProcessedBlockAllCaches_keys, pushContainers_keys]

theorem blockLoop_keys (env : Env) (logs : List Log) (toBlock fuel blockNum : Nat)
    (m : CacheMap) :
    (blockLoop env logs toBlock fuel blockNum m).sigToCache.map Prod.fst = m.map Prod.fst := by
  induction fuel generalizing blockNum m with
  | zero => rfl
  | succ fuel ih =>
    unfold blockLoop
    split
    · split
      · exact ih _ _
      · split
        · simp only [Step.after]
          rw [ih, processLogsInBlock_keys]
        · exact processLogsInBlock_keys _ _ _ _
        · exact processLogsInBlock_keys _ _ _ _
    · rfl

theorem rollbackCaches_sigToCache (m pre : CacheMap)
    (h : m.map Prod.fst = pre.map Prod.fst) : (rollbackCaches m pre).sigToCache = pre := by
  unfold rollbackCaches
  simp only
  induction m generalizing pre with
  | nil =>
    cases pre with
    | nil => rfl
    | cons a b => simp at h
  | cons sc rest ih =>
    cases pre with
    | nil => simp at h
    | cons a b =>
      simp only [List.map_cons, List.cons.injEq] at h
      simp only [List.zipWith_cons_cons, List.cons.injEq]
      refine ⟨?_, ih b h.2⟩
      obtain ⟨k, c⟩ := a
      simp only at h
      simp [LogCache.Rollback, h.1]

theorem rollbackEvents_congr (m m1 : CacheMap) (h : m1.map Prod.fst = m.map Prod.fst) :
    rollbackEvents m1 = rollbackEvents m := by
  have h2 : ∀ l : CacheMap, rollbackEvents l = (l.map Prod.fst).map Event.Rollback := by
    intro l
    simp [rollbackEvents, List.map_map, Function.comp_def]
  rw [h2, h2, h]

theorem windowLoop_keys (env : Env) (m : CacheMap) (acc : Nat) :
    (windowLoop env m acc).sigToCache.map Prod.fst = m.map Prod.fst := by
  simp [windowLoop_sigToCache, List.map_map, Function.comp_def]

/-- A batch either sees no failed decode or push, or returns an error right after the
first one and the `Rollback` of every registered cache. -/
theorem processBlocksInBatch_shape (env : Env) (fuel : Nat) (m : CacheMap)
    (fromBlock batchSize F : Nat) (addrs : List Address) :
    noBlockFailure (processBlocksInBatch env fuel m fromBlock batchSize F addrs).events ∨
    (∃ e pre f,
      (processBlocksInBatch env fuel m fromBlock batchSize F addrs).result =
        some (Outcome.err e) ∧
      (processBlocksInBatch env fuel m fromBlock batchSize F addrs).events =
        pre ++ f :: rollbackEvents m ∧
      f.isBlockFailure = true ∧ noBlockFailure pre) := by
  unfold processBlocksInBatch
  split
  · exact Or.inl (noBlockFailure_cons rfl noBlockFailure_nil)
  · rename_i logs _
    rcases blockLoop_shape env logs (batchToBlock fromBlock batchSize F) fuel fromBlock m with
      ⟨h1, h2⟩ | ⟨e, pre, f, h1, h2, h3, h4⟩
    · left
      simp only [Step.after]
      split
      · exact noBlockFailure_cons rfl h2
      · exact noBlockFailure_cons rfl h2
      · rename_i e heq
        exact absurd heq (h1 e)
      · exact noBlockFailure_cons rfl h2
    · right
      rw [h1]
      refine ⟨e, Event.GetLogs fromBlock (batchToBlock fromBlock batchSize F) addrs true :: pre,
        f, rfl, ?_, h3, noBlockFailure_cons rfl h4⟩
      have hk := rollbackEvents_congr m _ (blockLoop_keys env logs
        (batchToBlock fromBlock batchSize F) fuel fromBlock m)
      simp only [Step.after, h2, List.singleton_append, List.cons_append, List.append_assoc,
        List.nil_append]
      rw [← hk]
      rfl

theorem processBlocksInBatch_keys (env : Env) (fuel : Nat) (m : CacheMap)
    (fromBlock batchSize F : Nat) (addrs : List Address) :
    (processBlocksInBatch env fuel m fromBlock batchSize F addrs).sigToCache.map Prod.fst =
      m.map Prod.fst := by
  unfold processBlocksInBatch
  split
  · rfl
  · rename_i logs _
    have hk := blockLoop_keys env logs (batchToBlock fromBlock batchSize F) fuel fromBlock m
    simp only [Step.after]
    split
    · exact hk
    · exact hk
    · simp only
      rw [rollbackCaches_sigToCache _ _ hk]
    · exact hk

/-- The batch loop either sees no failed decode or push, or returns an error right after
the first one and the `Rollback` of every registered cache. -/
theorem batchLoop_shape (env : Env) (F : Nat) (addrs : List Address) (fuel curr : Nat)
    (m : CacheMap) :
    noBlockFailure (batchLoop env F addrs fuel curr m).events ∨
    (∃ e pre f, (batchLoop env F addrs fuel curr m).result = some (Outcome.err e) ∧
      (batchLoop env F addrs fuel curr m).events = pre ++ f :: rollbackEvents m ∧
      f.isBlockFailure = true ∧ noBlockFailure pre) := by
  induction fuel generalizing curr m with
  | zero => exact Or.inl noBlockFailure_nil
  | succ fuel ih =>
    unfold batchLoop
    split
    · rcases processBlocksInBatch_shape env (fuel + 1) m (curr + 1) DefaultBatchSize F addrs with
        h | ⟨e, pre, f, h1, h2, h3, h4⟩
      · split
        · exact Or.inl h
        · rename_i next _
          rcases ih next (processBlocksInBatch env (fuel + 1) m (curr + 1) DefaultBatchSize F
            addrs).sigToCache with g | ⟨e, pre, f, g1, g2, g3, g4⟩
          · exact Or.inl (noBlockFailure_append h g)
          · refine Or.inr ⟨e, (processBlocksInBatch env (fuel + 1) m (curr + 1)
              DefaultBatchSize F addrs).events ++ pre, f, g1, ?_, g3,
              noBlockFailure_append h g4⟩
            simp only [Step.after, g2, List.append_assoc]
            rw [rollbackEvents_congr m _ (processBlocksInBatch_keys env (fuel + 1) m (curr + 1)
              DefaultBatchSize F addrs)]
        · exact Or.inl h
        · exact Or.inl h
      · rw [h1]
        exact Or.inr ⟨_, pre, f, rfl, h2, h3, h4⟩
    · exact Or.inl noBlockFailure_nil

/-- A run either sees no failed decode or push, or returns an error right after the first
one and the `Rollback` of every registered cache. -/
theorem ProcessPastLogs_shape (env : Env) (fuel : Nat) (m : CacheMap) :
    noBlockFailure (ProcessPastLogs env fuel m).events ∨
    (∃ e pre f, (ProcessPastLogs env fuel m).result = some (Outcome.err e) ∧
      (ProcessPastLogs env fuel m).events = pre ++ f :: rollbackEvents m ∧
      f.isBlockFailure = true ∧ noBlockFailure pre) := by
  cases hF : env.HeaderByHash env.FinalizedCheckpoint with
  | error e =>
    left
    unfold ProcessPastLogs getLatestFinalizedBlock
    rw [hF]
    exact noBlockFailure_cons rfl (noBlockFailure_cons rfl noBlockFailure_nil)
  | ok n =>
    have hhead : noBlockFailure
        [Event.FinalizedCheckpoint, Event.HeaderByHash env.FinalizedCheckpoint true] :=
      noBlockFailure_cons rfl (noBlockFailure_cons rfl noBlockFailure_nil)
    have hwin := windowLoop_noBlockFailure env m (n % U64)
    by_cases heq : (windowLoop env m (n % U64)).result = n % U64
    · rw [ProcessPastLogs_of_start_eq env m n fuel hF heq]
      exact Or.inl (noBlockFailure_append hhead hwin)
    · rw [ProcessPastLogs_of_start_ne env m n fuel hF heq]
      have hpre : noBlockFailure
          ([Event.FinalizedCheckpoint, Event.HeaderByHash env.FinalizedCheckpoint true] ++
            (windowLoop env m (n % U64)).events ++ [Event.GetRegisteredAddresses]) :=
        noBlockFailure_append (noBlockFailure_append hhead hwin)
          (noBlockFailure_cons rfl noBlockFailure_nil)
      rcases batchLoop_shape env (n % U64) env.GetRegisteredAddresses fuel
        (windowLoop env m (n % U64)).result (windowLoop env m (n % U64)).sigToCache with
        g | ⟨e, pre, f, g1, g2, g3, g4⟩
      · exact Or.inl (noBlockFailure_append hpre g)
      · refine Or.inr ⟨e, _ ++ pre, f, g1, ?_, g3, noBlockFailure_append hpre g4⟩
        simp only [Step.after, g2, List.append_assoc]
        rw [rollbackEvents_congr m _ (windowLoop_keys env m (n % U64))]

theorem onlyBatchCalls_nil : onlyBatchCalls [] := by
  intro e he; cases he

theorem onlyBatchCalls_append {a b : List Event} (ha : onlyBatchCalls a)
    (hb : onlyBatchCalls b) : onlyBatchCalls (a ++ b) := by
  intro e he
  rcases List.mem_append.mp he with h | h
  · exact ha e h
  · exact hb e h

theorem onlyBatchCalls_cons {e : Event} {a : List Event} (he : e.isBatchCall = true)
    (ha : onlyBatchCalls a) : onlyBatchCalls (e :: a) := by
  intro x hx
  rcases List.mem_cons.mp hx with h | h
  · subst h; exact he
  · exact ha x h

theorem filterLogs_onlyBatchCalls (env : Env) (m : CacheMap) (logs : List Log) :
    onlyBatchCalls (filterLogs env m logs).2 := by
  induction logs with
  | nil => exact onlyBatchCalls_nil
  | cons log rest ih =>
    unfold filterLogs
    split
    · exact onlyBatchCalls_nil
    · split
      · exact ih
      · simp only
        split <;> exact onlyBatchCalls_cons rfl ih

theorem pushContainers_onlyBatchCalls (env : Env) (cs : List LogValueContainer)
    (m : CacheMap) : onlyBatchCalls (pushContainers env cs m).events := by
  induction cs generalizing m with
  | nil => exact onlyBatchCalls_nil
  | cons c rest ih =>
    unfold pushContainers
    split
    · exact ih m
    · split
      · exact onlyBatchCalls_cons rfl onlyBatchCalls_nil
      · exact onlyBatchCalls_cons rfl (ih _)

theorem setLastProcessedBlockAllCaches_onlyBatchCalls (m : CacheMap) (n : Nat) :
    onlyBatchCalls (setLastProcessedBlockAllCaches m n).events := by
  intro e he
  simp only [setLastProcessedBlockAllCaches, List.mem_map] at he
  obtain ⟨sc, _, rfl⟩ := he
  rfl

theorem rollbackCaches_onlyBatchCalls (m pre : CacheMap) :
    onlyBatchCalls (rollbackCaches m pre).events := by
  intro e he
  simp only [rollbackCaches, List.mem_map] at he
  obtain ⟨sc, _, rfl⟩ := he
  rfl

theorem processLogsInBlock_onlyBatchCalls (env : Env) (m : CacheMap) (logs : List Log)
    (n : Nat) : onlyBatchCalls (processLogsInBlock env m logs n).events := by
  have hfl := filterLogs_onlyBatchCalls env m logs
  unfold processLogsInBlock
  split
  · exact hfl
  · split
    · exact onlyBatchCalls_append hfl (onlyBatchCalls_cons rfl onlyBatchCalls_nil)
    · split
      · exact onlyBatchCalls_append hfl
          (onlyBatchCalls_cons rfl (pushContainers_onlyBatchCalls _ _ _))
      · exact onlyBatchCalls_append hfl (onlyBatchCalls_cons rfl
          (onlyBatchCalls_append (pushContainers_onlyBatchCalls _ _ _)
            (setLastProcessedBlockAllCaches_onlyBatchCalls _ _)))

theorem blockLoop_onlyBatchCalls (env : Env) (logs : List Log) (toBlock fuel blockNum : Nat)
    (m : CacheMap) : onlyBatchCalls (blockLoop env logs toBlock fuel blockNum m).events := by
  induction fuel generalizing blockNum m with
  | zero => exact onlyBatchCalls_nil
  | succ fuel ih =>
    unfold blockLoop
    split
    · split
      · exact ih _ _
      · split
        · exact onlyBatchCalls_append (processLogsInBlock_onlyBatchCalls _ _ _ _) (ih _ _)
        · exact processLogsInBlock_onlyBatchCalls _ _ _ _
        · exact processLogsInBlock_onlyBatchCalls _ _ _ _
    · exact onlyBatchCalls_nil

theorem processBlocksInBatch_onlyBatchCalls (env : Env) (fuel : Nat) (m : CacheMap)
    (fromBlock batchSize F : Nat) (addrs : List Address) :
    onlyBatchCalls (processBlocksInBatch env fuel m fromBlock batchSize F addrs).events := by
  unfold processBlocksInBatch
  split
  · exact onlyBatchCalls_cons rfl onlyBatchCalls_nil
  · simp only [Step.after, List.singleton_append]
    refine onlyBatchCalls_cons rfl ?_
    split
    · exact blockLoop_onlyBatchCalls _ _ _ _ _ _
    · exact blockLoop_onlyBatchCalls _ _ _ _ _ _
    · exact onlyBatchCalls_append (blockLoop_onlyBatchCalls _ _ _ _ _ _)
        (rollbackCaches_onlyBatchCalls _ _)
    · exact blockLoop_onlyBatchCalls _ _ _ _ _ _

theorem batchLoop_onlyBatchCalls (env : Env) (F : Nat) (addrs : List Address)
    (fuel curr : Nat) (m : CacheMap) :
    onlyBatchCalls (batchLoop env F addrs fuel curr m).events := by
  induction fuel generalizing curr m with
  | zero => exact onlyBatchCalls_nil
  | succ fuel ih =>
    have hb := processBlocksInBatch_onlyBatchCalls env (fuel + 1) m (curr + 1)
      DefaultBatchSize F addrs
    unfold batchLoop
    split
    · split
      · exact hb
      · exact onlyBatchCalls_append hb (ih _ _)
      · exact hb
      · exact hb
    · exact onlyBatchCalls_nil

/-- The calls of a run are those of `getLatestFinalizedBlock`, those of the first loop,
`GetRegisteredAddresses`, and calls a batch can make. -/
theorem ProcessPastLogs_events_mem (env : Env) (fuel : Nat) (m : CacheMap) (e : Event)
    (he : e ∈ (ProcessPastLogs env fuel m).events) :
    e = Event.FinalizedCheckpoint ∨ (∃ ok, e = Event.HeaderByHash env.FinalizedCheckpoint ok) ∨
    (∃ n, e ∈ (windowLoop env m n).events) ∨ e = Event.GetRegisteredAddresses ∨
    e.isBatchCall = true := by
  cases hF : env.HeaderByHash env.FinalizedCheckpoint with
  | error err =>
    unfold ProcessPastLogs getLatestFinalizedBlock at he
    rw [hF] at he
    simp only [List.mem_cons, List.mem_singleton, List.not_mem_nil, or_false] at he
    rcases he with h | h
    · exact Or.inl h
    · exact Or.inr (Or.inl ⟨false, h⟩)
  | ok n =>
    by_cases heq : (windowLoop env m (n % U64)).result = n % U64
    · rw [ProcessPastLogs_of_start_eq env m n fuel hF heq] at he
      simp only [List.mem_append, List.mem_cons, List.mem_singleton, List.not_mem_nil,
        or_false] at he
      rcases he with (h | h) | h
      · exact Or.inl h
      · exact Or.inr (Or.inl ⟨true, h⟩)
      · exact Or.inr (Or.inr (Or.inl ⟨_, h⟩))
    · rw [ProcessPastLogs_of_start_ne env m n fuel hF heq] at he
      simp only [Step.after, List.mem_append, List.mem_cons, List.mem_singleton,
        List.not_mem_nil, or_false] at he
      rcases he with (((h | h) | h) | h) | h
      · exact Or.inl h
      · exact Or.inr (Or.inl ⟨true, h⟩)
      · exact Or.inr (Or.inr (Or.inl ⟨_, h⟩))
      · exact Or.inr (Or.inr (Or.inr (Or.inl h)))
      · exact Or.inr (Or.inr (Or.inr (Or.inr (batchLoop_onlyBatchCalls _ _ _ _ _ _ e h))))

/-! ## C1: the start of the fetch window -/

/-- C1 (as amended): the start block of `ProcessPastLogs` is the minimum of the finalized
block `F` and the per-signature safe resume points: it is at most `F` and at most
every resume point, and it is `F` or one of the resume points; so it is the minimum
over all signatures whenever some resume point is at most `F`.  When it differs from
`F`, the first `GetLogs` call of the run begins at block `start + 1`. -/
theorem C1_start_is_clamped_minimum (env : Env) (m : CacheMap) (n : Nat)
    (hF : env.HeaderByHash env.FinalizedCheckpoint = Except.ok n) :
    (windowLoop env m (n % U64)).result ≤ n % U64 ∧
    (∀ r ∈ resumePoints env m, (windowLoop env m (n % U64)).result ≤ r) ∧
    ((windowLoop env m (n % U64)).result = n % U64 ∨
      (windowLoop env m (n % U64)).result ∈ resumePoints env m) ∧
    ((∃ r ∈ resumePoints env m, r ≤ n % U64) →
      (resumePoints env m).min? = some (windowLoop env m (n % U64)).result) ∧
    ((windowLoop env m (n % U64)).result ≠ n % U64 →
      ∀ fuel, (getLogsCalls (ProcessPastLogs env (fuel + 1) m).events).head? =
        some ((windowLoop env m (n % U64)).result + 1,
          batchToBlock ((windowLoop env m (n % U64)).result + 1) DefaultBatchSize
            (n % U64))) := by
  have hle := windowLoop_result_le env m (n % U64)
  have hall := windowLoop_result_le_resume env m (n % U64)
  have hmem := windowLoop_result_mem env m (n % U64)
  refine ⟨hle, hall, hmem, ?_, fun hne fuel => ProcessPastLogs_first_fetch env m n fuel hF hne⟩
  rintro ⟨r, hr, hrF⟩
  refine List.min?_eq_some_iff'.mpr ⟨?_, hall⟩
  rcases hmem with h | h
  · have hrs := hall r hr
    have : r = (windowLoop env m (n % U64)).result := by omega
    rw [← this]
    exact hr
  · exact h

/-- C1, witness: caches at watermarks 100 and 120 with checkpoints behind them and
finalized block 200 start at 100, and the first fetch begins at block 101. -/
theorem C1_start_is_clamped_minimum_witness :
    resumePoints (exampleEnv 200 0 0 [] none) [(1, cacheAt 100), (2, cacheAt 120)] = [100, 120] ∧
    (windowLoop (exampleEnv 200 0 0 [] none) [(1, cacheAt 100), (2, cacheAt 120)]
      (200 % U64)).result = 100 ∧
    (getLogsCalls (ProcessPastLogs (exampleEnv 200 0 0 [] none) 1
      [(1, cacheAt 100), (2, cacheAt 120)]).events).head? = some (101, 200) ∧
    (getLogsCalls (ProcessPastLogs (exampleEnv 200 0 0 [] none) (0 + 1)
      [(1, cacheAt 100), (2, cacheAt 120)]).events).head? =
        some ((windowLoop (exampleEnv 200 0 0 [] none) [(1, cacheAt 100), (2, cacheAt 120)]
          (200 % U64)).result + 1,
          batchToBlock ((windowLoop (exampleEnv 200 0 0 [] none)
            [(1, cacheAt 100), (2, cacheAt 120)] (200 % U64)).result + 1)
            DefaultBatchSize (200 % U64)) :=
  ⟨by decide, by decide, by decide,
    (C1_start_is_clamped_minimum (exampleEnv 200 0 0 [] none)
      [(1, cacheAt 100), (2, cacheAt 120)] 200 rfl).2.2.2.2 (by decide) 0⟩

/-- C1, counterexample: with one cache at watermark 0, checkpoint `(500, 7)` and
finalized block 100, the only resume point is 499 but the run starts at 100. -/
theorem C1_counterexample :
    ¬ (∀ (env : Env) (m : CacheMap) (F : Nat), m ≠ [] →
        (resumePoints env m).min? = some (windowLoop env m F).result) := by
  intro h
  have h1 := h (exampleEnv 100 500 7 [] none) [(1, cacheAt 0)] 100 (by decide)
  revert h1
  decide

/-! ## C2: the per-signature resume point and the resume hint -/

/-- C2: for the entry `(sig, cache)` at position `k` of `sigToCache`, with cache watermark
`c` and checkpoint `(p, i)`: if `c >= p` the resume point is `c`, the first loop of
`ProcessPastLogs` leaves the cache as it was and (signatures being distinct map keys)
the run calls neither `SetCurrentProcessingBlock` nor `SetCurrentProcessingIndex` on
it; if `c < p` the resume point is `p - 1`, the run calls
`SetCurrentProcessingBlock(p)` and `SetCurrentProcessingIndex(i)` on the cache, and
after the first loop its resume hint is `(p, i)`. -/
theorem C2_resume_point_and_hint (env : Env) (m : CacheMap) (n k : Nat) (sig : Hash)
    (cache : LogCache) (hF : env.HeaderByHash env.FinalizedCheckpoint = Except.ok n)
    (hk : m[k]? = some (sig, cache)) :
    (env.GetLastProcessedBlockNumber sig ≤ cache.LastProcessedBlock →
      (resumePoints env m)[k]? = some cache.LastProcessedBlock ∧
      (windowLoop env m (n % U64)).sigToCache[k]? = some (sig, cache) ∧
      ((m.map Prod.fst).Nodup → ∀ fuel x,
        Event.SetCurrentProcessingBlock sig x ∉ (ProcessPastLogs env fuel m).events ∧
        Event.SetCurrentProcessingIndex sig x ∉ (ProcessPastLogs env fuel m).events)) ∧
    (cache.LastProcessedBlock < env.GetLastProcessedBlockNumber sig →
      (resumePoints env m)[k]? = some (env.GetLastProcessedBlockNumber sig - 1) ∧
      (windowLoop env m (n % U64)).sigToCache[k]? = some (sig,
        { cache with
          currentProcessingBlock := env.GetLastProcessedBlockNumber sig
          currentProcessingIndex := env.GetLastProcessedLogIndex sig }) ∧
      ∀ fuel,
        Event.SetCurrentProcessingBlock sig (env.GetLastProcessedBlockNumber sig) ∈
          (ProcessPastLogs env fuel m).events ∧
        Event.SetCurrentProcessingIndex sig (env.GetLastProcessedLogIndex sig) ∈
          (ProcessPastLogs env fuel m).events) := by
  have hmem : (sig, cache) ∈ m := List.getElem?_mem hk
  constructor
  · intro hle
    refine ⟨?_, ?_, ?_⟩
    · simp [resumePoints, List.getElem?_map, hk, reconcile_of_le env sig cache hle]
    · simp [windowLoop_sigToCache, List.getElem?_map, hk, reconcile_of_le env sig cache hle]
    · intro hnd fuel x
      have hnot : ∀ e : Event,
          (e = Event.SetCurrentProcessingBlock sig x ∨
            e = Event.SetCurrentProcessingIndex sig x) →
          e ∉ (ProcessPastLogs env fuel m).events := by
        intro e hkind hin
        rcases ProcessPastLogs_events_mem env fuel m e hin with
          h | ⟨ok, h⟩ | ⟨acc, h⟩ | h | h
        · rcases hkind with g | g <;> rw [g] at h <;> cases h
        · rcases hkind with g | g <;> rw [g] at h <;> cases h
        · obtain ⟨sc, hsc, he⟩ := (windowLoop_events_mem env m acc e).mp h
          obtain ⟨s, c⟩ := sc
          have hs : s = sig := by
            unfold reconcile at he
            rcases hkind with g | g <;> rw [g] at he <;> split at he <;> simp at he <;>
              exact he.1.symm
          subst hs
          have hc := cacheMap_entry_unique m hnd s c cache hsc hmem
          subst hc
          rw [reconcile_of_le env s c hle] at he
          rcases hkind with g | g <;> rw [g] at he <;> simp at he
        · rcases hkind with g | g <;> rw [g] at h <;> cases h
        · rcases hkind with g | g <;> rw [g] at h <;> cases h
      exact ⟨hnot _ (Or.inl rfl), hnot _ (Or.inr rfl)⟩
  · intro hlt
    have hsub : ∀ fuel, ∀ e ∈ (windowLoop env m (n % U64)).events,
        e ∈ (ProcessPastLogs env fuel m).events := by
      intro fuel e he
      by_cases heq : (windowLoop env m (n % U64)).result = n % U64
      · rw [ProcessPastLogs_of_start_eq env m n fuel hF heq]
        exact List.mem_append_right _ he
      · rw [ProcessPastLogs_of_start_ne env m n fuel hF heq]
        simp only [Step.after]
        exact List.mem_append_left _
          (List.mem_append_left _ (List.mem_append_right _ he))
    refine ⟨?_, ?_, ?_⟩
    · simp [resumePoints, List.getElem?_map, hk, reconcile_of_lt env sig cache hlt]
    · simp [windowLoop_sigToCache, List.getElem?_map, hk, reconcile_of_lt env sig cache hlt]
    · intro fuel
      exact ⟨hsub fuel _ ((windowLoop_events_mem env m _ _).mpr
          ⟨(sig, cache), hmem, by rw [reconcile_of_lt env sig cache hlt]; simp⟩),
        hsub fuel _ ((windowLoop_events_mem env m _ _).mpr
          ⟨(sig, cache), hmem, by rw [reconcile_of_lt env sig cache hlt]; simp⟩)⟩

/-- C2, witness: a cache at watermark 100 with checkpoint `(150, 3)` and finalized block
200 gets resume point 149 and resume hint `(150, 3)`. -/
theorem C2_resume_point_and_hint_witness :
    (cacheAt 100).LastProcessedBlock <
      (exampleEnv 200 150 3 [] none).GetLastProcessedBlockNumber 1 ∧
    (resumePoints (exampleEnv 200 150 3 [] none) [(1, cacheAt 100)])[0]? = some 149 ∧
    (windowLoop (exampleEnv 200 150 3 [] none) [(1, cacheAt 100)]
      (200 % U64)).sigToCache[0]? =
      some (1, { lastProcessedBlock := 100, currentProcessingBlock := 150,
                 currentProcessingIndex := 3, contents := [] }) :=
  ⟨by decide,
    ((C2_resume_point_and_hint (exampleEnv 200 150 3 [] none) [(1, cacheAt 100)] 200 0 1
      (cacheAt 100) rfl rfl).2 (by decide)).1,
    ((C2_resume_point_and_hint (exampleEnv 200 150 3 [] none) [(1, cacheAt 100)] 200 0 1
      (cacheAt 100) rfl rfl).2 (by decide)).2.1⟩

/-! ## C3: the range of one batch -/

/-- C3 (as amended): for `fromBlock <= F` and a batch size `B >= 1` such that
`fromBlock + B - 1` does not overflow 64 bits, `processBlocksInBatch` makes exactly
one `GetLogs` call, for the range `[fromBlock, toBlock]` with
`toBlock = min (fromBlock + B - 1) F`; a successful call returns `toBlock`; and when
`toBlock` is below the largest `uint64` the call returns. -/
theorem C3_batch_range (env : Env) (m : CacheMap) (fromBlock B F : Nat)
    (addrs : List Address) (hle : fromBlock ≤ F) (hB : 1 ≤ B) (hno : fromBlock + B ≤ U64) :
    (∀ fuel, getLogsCalls (processBlocksInBatch env fuel m fromBlock B F addrs).events =
      [(fromBlock, min (fromBlock + B - 1) F)]) ∧
    fromBlock ≤ min (fromBlock + B - 1) F ∧
    (∀ fuel v, (processBlocksInBatch env fuel m fromBlock B F addrs).result =
      some (Outcome.ok v) → v = min (fromBlock + B - 1) F) ∧
    (min (fromBlock + B - 1) F + 1 < U64 →
      ∀ fuel, min (fromBlock + B - 1) F + 1 - fromBlock < fuel →
        (processBlocksInBatch env fuel m fromBlock B F addrs).result ≠ none) := by
  have hmin := batchToBlock_eq_min fromBlock B F hB hno
  refine ⟨fun fuel => ?_, by omega, fun fuel v h => ?_, fun hto fuel hfuel => ?_⟩
  · rw [processBlocksInBatch_getLogsCalls, hmin]
  · rw [← hmin]; exact processBlocksInBatch_result_ok env fuel m fromBlock B F addrs v h
  · exact processBlocksInBatch_returns env fuel m fromBlock B F addrs
      (by rw [hmin]; exact hto) (by rw [hmin]; exact hfuel)

/-- C3, witness: from block 2001 with batch size 1000 and finalized block 2500 the
fetch is `[2001, 2500]` and the call returns 2500. -/
theorem C3_batch_range_witness :
    getLogsCalls (processBlocksInBatch (exampleEnv 2500 0 0 [logAt 1 2100 0] none) 501
      [(1, cacheAt 2000)] 2001 1000 2500 [1]).events = [(2001, min (2001 + 1000 - 1) 2500)] ∧
    min (2001 + 1000 - 1) 2500 = 2500 ∧
    (processBlocksInBatch (exampleEnv 2500 0 0 [logAt 1 2100 0] none) 501
      [(1, cacheAt 2000)] 2001 1000 2500 [1]).result = some (Outcome.ok 2500) :=
  ⟨(C3_batch_range (exampleEnv 2500 0 0 [logAt 1 2100 0] none) [(1, cacheAt 2000)]
      2001 1000 2500 [1] (by decide) (by decide) (by decide)).1 501,
    by decide, by decide!⟩

/-- C3, counterexample: from block `2^64 - 1` with batch size 2 and finalized block
`2^64 - 1`, the sum wraps and the call fetches `[2^64 - 1, 0]` and returns 0, while
`min (fromBlock + B - 1) F` is `2^64 - 1`. -/
theorem C3_counterexample :
    ¬ (∀ (env : Env) (fuel : Nat) (m : CacheMap) (fromBlock B F : Nat) (addrs : List Address),
        fromBlock ≤ F → 1 ≤ B → fromBlock < U64 → B < U64 → F < U64 →
        getLogsCalls (processBlocksInBatch env fuel m fromBlock B F addrs).events =
          [(fromBlock, min (fromBlock + B - 1) F)]) := by
  intro h
  have h1 := h (exampleEnv 0 0 0 [] none) 5 [] (U64 - 1) 2 (U64 - 1) []
    (by decide) (by decide) (by decide) (by decide) (by decide)
  revert h1
  decide

/-! ## C4: the batches of a run -/

/-- C4 (as amended): for every `start < F` with `F + 1000 <= 2^64` (so that no batch end
wraps), `ProcessPastLogs` returns when given fuel beyond `F - start`; when it
succeeds, its `GetLogs` ranges are consecutive, in increasing order, of at most 1000
blocks each and exactly 1000 for all but the last, and cover exactly
`start + 1 .. F`; and with fault-free collaborators it succeeds. -/
theorem C4_batches_cover_window (env : Env) (m : CacheMap) (n fuel : Nat)
    (hF : env.HeaderByHash env.FinalizedCheckpoint = Except.ok n)
    (hlt : (windowLoop env m (n % U64)).result < n % U64)
    (hno : n % U64 + DefaultBatchSize ≤ U64)
    (hfuel : n % U64 - (windowLoop env m (n % U64)).result < fuel) :
    (ProcessPastLogs env fuel m).result ≠ none ∧
    ((ProcessPastLogs env fuel m).result = some (Outcome.ok ()) →
      coversInBatches DefaultBatchSize ((windowLoop env m (n % U64)).result + 1) (n % U64)
        (getLogsCalls (ProcessPastLogs env fuel m).events)) ∧
    (FaultFree env → (ProcessPastLogs env fuel m).result = some (Outcome.ok ())) := by
  have hrun := ProcessPastLogs_of_start_ne env m n fuel hF (Nat.ne_of_lt hlt)
  have hret := batchLoop_returns env (n % U64) env.GetRegisteredAddresses hno fuel _
    (windowLoop env m (n % U64)).sigToCache (Nat.le_of_lt hlt) hfuel
  rw [hrun]
  refine ⟨hret, fun hok => ?_, fun hff => ?_⟩
  · have hcov := batchLoop_covers env (n % U64) env.GetRegisteredAddresses hno fuel _
      (windowLoop env m (n % U64)).sigToCache (Nat.le_of_lt hlt) hok
    simpa [Step.after, getLogsCalls_append, windowLoop_getLogsCalls, getLogsCalls] using hcov
  · rcases batchLoop_ok env hff (n % U64) env.GetRegisteredAddresses fuel
      (windowLoop env m (n % U64)).result (windowLoop env m (n % U64)).sigToCache with h | h
    · exact absurd h hret
    · exact h

/-- C4, witness: a cache at watermark 0 and finalized block 2500 give exactly the three
fetches `[1,1000]`, `[1001,2000]`, `[2001,2500]`, and the run succeeds. -/
theorem C4_batches_cover_window_witness :
    (windowLoop (exampleEnv 2500 0 0 [] none) [(1, cacheAt 0)] (2500 % U64)).result = 0 ∧
    (ProcessPastLogs (exampleEnv 2500 0 0 [] none) 2501 [(1, cacheAt 0)]).result ≠ none ∧
    getLogsCalls (ProcessPastLogs (exampleEnv 2500 0 0 [] none) 2501 [(1, cacheAt 0)]).events =
      [(1, 1000), (1001, 2000), (2001, 2500)] ∧
    (ProcessPastLogs (exampleEnv 2500 0 0 [] none) 2501 [(1, cacheAt 0)]).result =
      some (Outcome.ok ()) :=
  ⟨by decide,
    (C4_batches_cover_window (exampleEnv 2500 0 0 [] none) [(1, cacheAt 0)] 2500 2501 rfl
      (by decide) (by decide) (by decide)).1,
    by decide!, by decide!⟩

/-- C4, counterexample: with finalized block `2^64 - 1` and a cache at `2^64 - 2`, the end
of the first batch wraps: the first fetch is `[2^64 - 1, 998]` and the second
`[999, 1998]`, so the fetched ranges do not cover exactly `start + 1 .. F`. -/
theorem C4_counterexample :
    (windowLoop (exampleEnv (U64 - 1) 0 0 [] none) [(1, cacheAt (U64 - 2))]
      ((U64 - 1) % U64)).result = U64 - 2 ∧
    getLogsCalls (ProcessPastLogs (exampleEnv (U64 - 1) 0 0 [] none) 2
      [(1, cacheAt (U64 - 2))]).events = [(U64 - 1, 998), (999, 1998)] ∧
    ¬ coversInBatches DefaultBatchSize (U64 - 2 + 1) (U64 - 1)
      (getLogsCalls (ProcessPastLogs (exampleEnv (U64 - 1) 0 0 [] none) 2
        [(1, cacheAt (U64 - 2))]).events) := by
  have h : getLogsCalls (ProcessPastLogs (exampleEnv (U64 - 1) 0 0 [] none) 2
      [(1, cacheAt (U64 - 2))]).events = [(U64 - 1, 998), (999, 1998)] := by decide!
  refine ⟨by decide, h, ?_⟩
  rw [h]
  simp [coversInBatches, U64]

/-! ## C5: the watermark after a run without logs -/

/-- C5, the code at the failing input: a single cache at watermark 0 with checkpoint
`(0, 0)`, finalized block 2500 and no logs.  The run succeeds after the three fetches
and `Rollback` is never called, but no block carries a log, so
`SetLastProcessedBlock` is never called either and the watermark is still 0, not
2500. -/
theorem C5_watermark_stays_behind :
    (ProcessPastLogs (exampleEnv 2500 0 0 [] none) 2501 [(1, cacheAt 0)]).result =
      some (Outcome.ok ()) ∧
    (ProcessPastLogs (exampleEnv 2500 0 0 [] none) 2501 [(1, cacheAt 0)]).events =
      [Event.FinalizedCheckpoint, Event.HeaderByHash 7 true, Event.LastProcessedBlock 1,
       Event.GetLastProcessedBlockNumber 1, Event.GetRegisteredAddresses,
       Event.GetLogs 1 1000 [1] true, Event.GetLogs 1001 2000 [1] true,
       Event.GetLogs 2001 2500 [1] true] ∧
    (ProcessPastLogs (exampleEnv 2500 0 0 [] none) 2501 [(1, cacheAt 0)]).sigToCache =
      [(1, cacheAt 0)] ∧
    (cacheAt 0).LastProcessedBlock ≠ 2500 := by
  refine ⟨by decide!, by decide!, by decide!, by decide⟩

/-! ## C6: the watermark across a successful run -/

/-- C6, the code at the failing input: caches registered under signatures 1 and 2 at
watermarks 100 and 120, finalized block 200, and one log, in block 105.  The run
succeeds; the only block that carries a log is 105, so both watermarks are set to 105
and nothing moves them afterwards: the second cache goes from 120 down to 105. -/
theorem C6_watermark_decreases :
    (ProcessPastLogs (exampleEnv 200 0 0 [logAt 1 105 0] none) 201
      [(1, cacheAt 100), (2, cacheAt 120)]).result = some (Outcome.ok ()) ∧
    (∀ sig, Event.Rollback sig ∉ (ProcessPastLogs (exampleEnv 200 0 0 [logAt 1 105 0] none) 201
      [(1, cacheAt 100), (2, cacheAt 120)]).events) ∧
    (getCache (ProcessPastLogs (exampleEnv 200 0 0 [logAt 1 105 0] none) 201
      [(1, cacheAt 100), (2, cacheAt 120)]).sigToCache 2).map LogCache.LastProcessedBlock =
      some 105 ∧
    (getCache [(1, cacheAt 100), (2, cacheAt 120)] 2).map LogCache.LastProcessedBlock =
      some 120 := by
  have hev : (ProcessPastLogs (exampleEnv 200 0 0 [logAt 1 105 0] none) 201
      [(1, cacheAt 100), (2, cacheAt 120)]).events =
      [Event.FinalizedCheckpoint, Event.HeaderByHash 7 true, Event.LastProcessedBlock 1,
       Event.GetLastProcessedBlockNumber 1, Event.LastProcessedBlock 2,
       Event.GetLastProcessedBlockNumber 2, Event.GetRegisteredAddresses,
       Event.GetLogs 101 200 [1] true, Event.ShouldProcess 1 (logAt 1 105 0),
       Event.ProcessLogs [logAt 1 105 0] 105 true,
       Event.Push 1 { Signature := 1, value := 0 } true,
       Event.SetLastProcessedBlock 1 105, Event.SetLastProcessedBlock 2 105] := by decide!
  refine ⟨by decide!, ?_, by decide!, by decide⟩
  intro sig
  rw [hev]
  simp

/-! ## C7: running twice -/

/-- C7, the code at the failing input: a single cache at watermark 0 with checkpoint
`(0, 0)`, finalized block 10 and no logs.  The first run succeeds and leaves the
watermark at 0; the second run, with the same finalized block and checkpoint,
computes the resume point 0 (not 10) and fetches `[1, 10]` again. -/
theorem C7_second_run_fetches_again :
    (ProcessPastLogs (exampleEnv 10 0 0 [] none) 11 [(1, cacheAt 0)]).result =
      some (Outcome.ok ()) ∧
    (windowLoop (exampleEnv 10 0 0 [] none)
      (ProcessPastLogs (exampleEnv 10 0 0 [] none) 11 [(1, cacheAt 0)]).sigToCache
      10).result = 0 ∧
    getLogsCalls (ProcessPastLogs (exampleEnv 10 0 0 [] none) 11
      (ProcessPastLogs (exampleEnv 10 0 0 [] none) 11 [(1, cacheAt 0)]).sigToCache).events =
      [(1, 10)] := by
  refine ⟨by decide!, by decide!, by decide!⟩

/-! ## C8: the run when nothing is left to process -/

/-- C8 (as amended): when the computed start equals `F`, `ProcessPastLogs` returns nil and
calls neither `GetRegisteredAddresses` nor `GetLogs`; the caches stay registered under
the same signatures, each with the watermark and the contents it had; a cache whose
watermark is not behind its checkpoint is left exactly as it was, and a cache whose
watermark is behind its checkpoint `(p, i)` has its resume hint set to `(p, i)`. -/
theorem C8_noop_when_start_is_finalized (env : Env) (m : CacheMap) (n fuel : Nat)
    (hF : env.HeaderByHash env.FinalizedCheckpoint = Except.ok n)
    (heq : (windowLoop env m (n % U64)).result = n % U64) :
    (ProcessPastLogs env fuel m).result = some (Outcome.ok ()) ∧
    (∀ e ∈ (ProcessPastLogs env fuel m).events,
      e ≠ Event.GetRegisteredAddresses ∧ ∀ a b addrs ok, e ≠ Event.GetLogs a b addrs ok) ∧
    (∀ (k : Nat) (sig : Hash) (cache : LogCache), m[k]? = some (sig, cache) →
      ∃ cache1 : LogCache, (ProcessPastLogs env fuel m).sigToCache[k]? = some (sig, cache1) ∧
        cache1.lastProcessedBlock = cache.lastProcessedBlock ∧
        cache1.contents = cache.contents ∧
        (env.GetLastProcessedBlockNumber sig ≤ cache.LastProcessedBlock → cache1 = cache) ∧
        (cache.LastProcessedBlock < env.GetLastProcessedBlockNumber sig →
          cache1 = { cache with
            currentProcessingBlock := env.GetLastProcessedBlockNumber sig
            currentProcessingIndex := env.GetLastProcessedLogIndex sig })) := by
  rw [ProcessPastLogs_of_start_eq env m n fuel hF heq]
  refine ⟨rfl, ?_, ?_⟩
  · intro e he
    simp only [List.mem_append, List.mem_cons, List.mem_singleton, List.not_mem_nil,
      or_false] at he
    rcases he with (h | h) | h
    · subst h; simp
    · subst h; simp
    · obtain ⟨sc, _, hsc⟩ := (windowLoop_events_mem env m _ e).mp h
      exact reconcile_events_kind env sc.1 sc.2 e hsc
  · intro k sig cache hk
    refine ⟨(reconcile env sig cache).2.1, ?_, ?_, ?_, ?_, ?_⟩
    · simp [windowLoop_sigToCache, List.getElem?_map, hk]
    · unfold reconcile; split <;> rfl
    · unfold reconcile; split <;> rfl
    · intro hle; rw [reconcile_of_le env sig cache hle]
    · intro hlt; rw [reconcile_of_lt env sig cache hlt]

/-- C8, witness: a cache at watermark 0 whose checkpoint is `(500, 7)`, with finalized
block 100: the run is a no-op that returns nil, and the cache keeps watermark 0 and
its contents. -/
theorem C8_noop_when_start_is_finalized_witness :
    (windowLoop (exampleEnv 100 500 7 [] none) [(1, cacheAt 0)] (100 % U64)).result =
      100 % U64 ∧
    (ProcessPastLogs (exampleEnv 100 500 7 [] none) 5 [(1, cacheAt 0)]).result =
      some (Outcome.ok ()) ∧
    (ProcessPastLogs (exampleEnv 100 500 7 [] none) 5 [(1, cacheAt 0)]).events =
      [Event.FinalizedCheckpoint, Event.HeaderByHash 7 true, Event.LastProcessedBlock 1,
       Event.GetLastProcessedBlockNumber 1, Event.SetCurrentProcessingBlock 1 500,
       Event.GetLastProcessedLogIndex 1, Event.SetCurrentProcessingIndex 1 7] :=
  ⟨by decide,
    (C8_noop_when_start_is_finalized (exampleEnv 100 500 7 [] none) [(1, cacheAt 0)] 100 5
      rfl (by decide)).1,
    by decide⟩

/-- C8, counterexample: a cache at watermark 0 with no resume hint, checkpoint `(500, 7)`
and finalized block 100.  The computed start is 100, the finalized block, and the run
returns nil without fetching, yet the cache is not as it was: its resume hint has
become `(500, 7)`. -/
theorem C8_counterexample :
    ¬ (∀ (env : Env) (m : CacheMap) (n fuel : Nat),
        env.HeaderByHash env.FinalizedCheckpoint = Except.ok n →
        (windowLoop env m (n % U64)).result = n % U64 →
        (ProcessPastLogs env fuel m).sigToCache = m) := by
  intro h
  have h1 := h (exampleEnv 100 500 7 [] none) [(1, cacheAt 0)] 100 5 rfl (by decide)
  revert h1
  decide

/-! ## C9: a failed decode or push aborts the batch and the run -/

/-- C9: if the trace of `processBlocksInBatch` holds a failed decode or a failed `Push`,
the call returns an error, and after the first such failure its only calls are
`Rollback` on every registered cache (no later block is processed); likewise
`ProcessPastLogs` then returns an error, and after the failure its only calls are
those `Rollback`s (no further batch is started). -/
theorem C9_failure_aborts_batch_and_run (env : Env) (fuel : Nat) (m : CacheMap)
    (fromBlock batchSize F : Nat) (addrs : List Address) :
    ((∃ x ∈ (processBlocksInBatch env fuel m fromBlock batchSize F addrs).events,
        x.isBlockFailure = true) →
      ∃ e pre f,
        (processBlocksInBatch env fuel m fromBlock batchSize F addrs).result =
          some (Outcome.err e) ∧
        (processBlocksInBatch env fuel m fromBlock batchSize F addrs).events =
          pre ++ f :: rollbackEvents m ∧
        f.isBlockFailure = true ∧ noBlockFailure pre) ∧
    ((∃ x ∈ (ProcessPastLogs env fuel m).events, x.isBlockFailure = true) →
      ∃ e pre f,
        (ProcessPastLogs env fuel m).result = some (Outcome.err e) ∧
        (ProcessPastLogs env fuel m).events = pre ++ f :: rollbackEvents m ∧
        f.isBlockFailure = true ∧ noBlockFailure pre) := by
  constructor
  · rintro ⟨x, hx, hfail⟩
    rcases processBlocksInBatch_shape env fuel m fromBlock batchSize F addrs with h | h
    · rw [h x hx] at hfail; cases hfail
    · exact h
  · rintro ⟨x, hx, hfail⟩
    rcases ProcessPastLogs_shape env fuel m with h | h
    · rw [h x hx] at hfail; cases hfail
    · exact h

/-- C9, witness: two registered caches, finalized block 10, logs in blocks 3, 5 and 7,
and a decode step that fails on block 5.  Block 3 is processed, the decode of block 5
fails, the two caches are rolled back, block 7 is never touched, and both the batch
and the run return an error. -/
theorem C9_failure_aborts_batch_and_run_witness :
    (ProcessPastLogs (exampleEnv 10 0 0 [logAt 1 3 0, logAt 1 5 0, logAt 1 7 0] (some 5)) 11
      [(1, cacheAt 0), (2, cacheAt 0)]).events =
      [Event.FinalizedCheckpoint, Event.HeaderByHash 7 true, Event.LastProcessedBlock 1,
       Event.GetLastProcessedBlockNumber 1, Event.LastProcessedBlock 2,
       Event.GetLastProcessedBlockNumber 2, Event.GetRegisteredAddresses,
       Event.GetLogs 1 10 [1] true, Event.ShouldProcess 1 (logAt 1 3 0),
       Event.ProcessLogs [logAt 1 3 0] 3 true,
       Event.Push 1 { Signature := 1, value := 0 } true,
       Event.SetLastProcessedBlock 1 3, Event.SetLastProcessedBlock 2 3,
       Event.ShouldProcess 1 (logAt 1 5 0), Event.ProcessLogs [logAt 1 5 0] 5 false,
       Event.Rollback 1, Event.Rollback 2] ∧
    (∃ e pre f,
      (processBlocksInBatch (exampleEnv 10 0 0 [logAt 1 3 0, logAt 1 5 0, logAt 1 7 0] (some 5))
        11 [(1, cacheAt 0), (2, cacheAt 0)] 1 1000 10 [1]).result = some (Outcome.err e) ∧
      (processBlocksInBatch (exampleEnv 10 0 0 [logAt 1 3 0, logAt 1 5 0, logAt 1 7 0] (some 5))
        11 [(1, cacheAt 0), (2, cacheAt 0)] 1 1000 10 [1]).events =
        pre ++ f :: rollbackEvents [(1, cacheAt 0), (2, cacheAt 0)] ∧
      f.isBlockFailure = true ∧ noBlockFailure pre) ∧
    (∃ e pre f,
      (ProcessPastLogs (exampleEnv 10 0 0 [logAt 1 3 0, logAt 1 5 0, logAt 1 7 0] (some 5)) 11
        [(1, cacheAt 0), (2, cacheAt 0)]).result = some (Outcome.err e) ∧
      (ProcessPastLogs (exampleEnv 10 0 0 [logAt 1 3 0, logAt 1 5 0, logAt 1 7 0] (some 5)) 11
        [(1, cacheAt 0), (2, cacheAt 0)]).events =
        pre ++ f :: rollbackEvents [(1, cacheAt 0), (2, cacheAt 0)] ∧
      f.isBlockFailure = true ∧ noBlockFailure pre) :=
  ⟨by decide!,
    (C9_failure_aborts_batch_and_run
      (exampleEnv 10 0 0 [logAt 1 3 0, logAt 1 5 0, logAt 1 7 0] (some 5)) 11
      [(1, cacheAt 0), (2, cacheAt 0)] 1 1000 10 [1]).1 (by decide!),
    (C9_failure_aborts_batch_and_run
      (exampleEnv 10 0 0 [logAt 1 3 0, logAt 1 5 0, logAt 1 7 0] (some 5)) 11
      [(1, cacheAt 0), (2, cacheAt 0)] 1 1000 10 [1]).2 (by decide!)⟩

/-! ## Shared lemmas on the block step -/

theorem pushCalls_append (a b : List Event) :
    pushCalls (a ++ b) = pushCalls a ++ pushCalls b := by
  induction a with
  | nil => rfl
  | cons e rest ih => cases e <;> simp [pushCalls, ih]

theorem decodeCalls_append (a b : List Event) :
    decodeCalls (a ++ b) = decodeCalls a ++ decodeCalls b := by
  induction a with
  | nil => rfl
  | cons e rest ih => cases e <;> simp [decodeCalls, ih]

theorem pushedTo_append (sig : Hash) (a b : List Event) :
    pushedTo sig (a ++ b) = pushedTo sig a ++ pushedTo sig b := by
  simp [pushedTo, pushCalls_append]

theorem filterLogs_events_kind (env : Env) (m : CacheMap) (logs : List Log) :
    ∀ e ∈ (filterLogs env m logs).2, ∃ sig log, e = Event.ShouldProcess sig log := by
  induction logs with
  | nil => intro e he; cases he
  | cons log rest ih =>
    unfold filterLogs
    split
    · intro e he; cases he
    · split
      · exact ih
      · simp only
        split <;>
        · intro e he
          rcases List.mem_cons.mp he with h | h
          · exact ⟨_, _, h⟩
          · exact ih e h

theorem filterLogs_pushCalls (env : Env) (m : CacheMap) (logs : List Log) :
    pushCalls (filterLogs env m logs).2 = [] := by
  have h := filterLogs_events_kind env m logs
  generalize (filterLogs env m logs).2 = evs at h
  induction evs with
  | nil => rfl
  | cons e rest ih =>
    obtain ⟨sig, log, rfl⟩ := h _ (List.mem_cons_self _ _)
    simpa [pushCalls] using ih (fun x hx => h x (List.mem_cons_of_mem _ hx))

theorem filterLogs_decodeCalls (env : Env) (m : CacheMap) (logs : List Log) :
    decodeCalls (filterLogs env m logs).2 = [] := by
  have h := filterLogs_events_kind env m logs
  generalize (filterLogs env m logs).2 = evs at h
  induction evs with
  | nil => rfl
  | cons e rest ih =>
    obtain ⟨sig, log, rfl⟩ := h _ (List.mem_cons_self _ _)
    simpa [decodeCalls] using ih (fun x hx => h x (List.mem_cons_of_mem _ hx))

/-- The filter loop panics exactly when some log carries no topic. -/
theorem filterLogs_none_iff (env : Env) (m : CacheMap) (logs : List Log) :
    (filterLogs env m logs).1 = none ↔ ∃ l ∈ logs, l.Topics = [] := by
  induction logs with
  | nil => simp [filterLogs]
  | cons log rest ih =>
    unfold filterLogs
    split
    · rename_i heq
      simp only [true_iff]
      exact ⟨log, List.mem_cons_self _ _, heq⟩
    · rename_i sig tl heq
      have hne : log.Topics ≠ [] := by rw [heq]; simp
      have hcons : (∃ l ∈ log :: rest, l.Topics = []) ↔ ∃ l ∈ rest, l.Topics = [] := by
        constructor
        · rintro ⟨l, hl, ht⟩
          rcases List.mem_cons.mp hl with rfl | hl
          · exact absurd ht hne
          · exact ⟨l, hl, ht⟩
        · rintro ⟨l, hl, ht⟩
          exact ⟨l, List.mem_cons_of_mem _ hl, ht⟩
      rw [hcons, ← ih]
      split
      · rfl
      · simp only
        split
        · simp
        · rfl

/-- When the filter loop does not panic, it keeps exactly the accepted logs. -/
theorem filterLogs_some (env : Env) (m : CacheMap) (logs kept : List Log)
    (h : (filterLogs env m logs).1 = some kept) : kept = acceptedLogs env m logs := by
  induction logs generalizing kept with
  | nil =>
    simp [filterLogs] at h
    subst h
    rfl
  | cons log rest ih =>
    unfold filterLogs at h
    unfold acceptedLogs
    split at h
    · simp at h
    · rename_i sig tl heq
      split at h
      · rename_i hc
        rw [List.filter_cons]
        simp only [heq, hc]
        exact ih kept h
      · rename_i cache hc
        simp only at h
        rw [List.filter_cons]
        simp only [heq, hc]
        split at h
        · rename_i hsp
          simp only [Option.map_eq_some'] at h
          obtain ⟨k, hk, rfl⟩ := h
          simp only [hsp, if_true]
          rw [ih k hk]
          rfl
        · rename_i hsp
          simp only [hsp]
          exact ih kept h

theorem getCache_setCache (m : CacheMap) (sig k : Hash) (c : LogCache) :
    getCache (setCache m sig c) k =
      if k = sig then (getCache m sig).map (fun _ => c) else getCache m k := by
  induction m with
  | nil => simp [getCache, setCache]
  | cons sc rest ih =>
    obtain ⟨key, old⟩ := sc
    unfold setCache
    by_cases h1 : key = sig
    · subst h1
      simp only [if_true]
      by_cases h2 : k = key
      · subst h2; simp [getCache]
      · have : ¬ key = k := fun h => h2 h.symm
        simp [getCache, h2, this]
    · simp only [if_neg h1]
      by_cases h2 : k = sig
      · subst h2
        simp only [getCache, if_neg h1, if_true, ih]
      · simp only [getCache, ih, if_neg h2]

theorem registeredContainers_setCache (m : CacheMap) (sig : Hash) (c : LogCache)
    (cs : List LogValueContainer) :
    registeredContainers (setCache m sig c) cs = registeredContainers m cs := by
  unfold registeredContainers
  congr 1
  funext x
  rw [getCache_setCache]
  split
  · rename_i h; rw [h]; cases getCache m sig <;> rfl
  · rfl

/-- The push loop pushes the registered containers in order, each to the cache of its
own signature, and stops at the first refused push. -/
theorem pushContainers_calls (env : Env) (cs : List LogValueContainer) (m : CacheMap) :
    ((pushContainers env cs m).result = none ∧
      (pushContainers env cs m).events =
        (registeredContainers m cs).map (fun c => Event.Push c.Signature c true)) ∨
    (∃ e done c rest, (pushContainers env cs m).result = some e ∧
      registeredContainers m cs = done ++ c :: rest ∧
      (pushContainers env cs m).events =
        done.map (fun c => Event.Push c.Signature c true) ++
          [Event.Push c.Signature c false]) := by
  induction cs generalizing m with
  | nil => exact Or.inl ⟨rfl, rfl⟩
  | cons c tl ih =>
    unfold pushContainers
    split
    · rename_i hc
      have hreg : registeredContainers m (c :: tl) = registeredContainers m tl := by
        simp [registeredContainers, List.filter_cons, hc]
      rw [hreg]
      exact ih m
    · rename_i cache hc
      have hreg : registeredContainers m (c :: tl) = c :: registeredContainers m tl := by
        simp [registeredContainers, List.filter_cons, hc]
      rw [hreg]
      split
      · rename_i e _
        exact Or.inr ⟨_, [], c, registeredContainers m tl, rfl, rfl, rfl⟩
      · rcases ih (setCache m c.Signature (cache.Push c)) with
          ⟨h1, h2⟩ | ⟨e, done, c1, rest, h1, h2, h3⟩
        · rw [registeredContainers_setCache] at h2
          exact Or.inl ⟨h1, by simp [Step.after, h2]⟩
        · rw [registeredContainers_setCache] at h2
          refine Or.inr ⟨e, c :: done, c1, rest, h1, by simp [h2], ?_⟩
          simp [Step.after, h3]

/-- The push loop changes a cache only by appending the containers it pushed to it. -/
theorem pushContainers_contents (env : Env) (cs : List LogValueContainer) (m : CacheMap)
    (sig : Hash) (c0 : LogCache) (h0 : getCache m sig = some c0) :
    getCache (pushContainers env cs m).sigToCache sig =
      some { c0 with
        contents := c0.contents ++ pushedTo sig (pushContainers env cs m).events } := by
  induction cs generalizing m c0 with
  | nil => simp [pushContainers, pushedTo, pushCalls, h0]
  | cons c tl ih =>
    unfold pushContainers
    split
    · exact ih m c0 h0
    · rename_i cache hc
      split
      · simp [pushedTo, pushCalls, h0]
      · by_cases hs : sig = c.Signature
        · subst hs
          rw [h0] at hc
          cases hc
          have hnew : getCache (setCache m c.Signature (c0.Push c)) c.Signature =
              some (c0.Push c) := by
            rw [getCache_setCache]; simp [h0]
          rw [Step.after]
          simp only
          rw [ih _ _ hnew]
          simp [pushedTo, pushCalls, LogCache.Push, List.append_assoc]
        · have hnew : getCache (setCache m c.Signature (cache.Push c)) sig = some c0 := by
            rw [getCache_setCache]; simp [hs, h0]
          have hs2 : ¬ c.Signature = sig := fun h => hs h.symm
          rw [Step.after]
          simp only
          rw [ih _ _ hnew]
          simp [pushedTo, pushCalls, hs2]

/-! ## C12: a successful block step marks every cache -/

theorem setLastProcessedBlockAllCaches_pushCalls (m : CacheMap) (n : Nat) :
    pushCalls (setLastProcessedBlockAllCaches m n).events = [] := by
  unfold setLastProcessedBlockAllCaches
  induction m with
  | nil => rfl
  | cons sc rest ih => simpa [pushCalls] using ih

theorem pushContainers_events_kind (env : Env) (cs : List LogValueContainer) (m : CacheMap) :
    ∀ e ∈ (pushContainers env cs m).events, ∃ c ok, e = Event.Push c.Signature c ok := by
  intro e he
  rcases pushContainers_calls env cs m with ⟨_, h2⟩ | ⟨_, done, c, rest, _, _, h3⟩
  · rw [h2] at he
    obtain ⟨c, _, rfl⟩ := List.mem_map.mp he
    exact ⟨c, true, rfl⟩
  · rw [h3] at he
    rcases List.mem_append.mp he with h | h
    · obtain ⟨c1, _, rfl⟩ := List.mem_map.mp h
      exact ⟨c1, true, rfl⟩
    · rw [List.mem_singleton] at h
      exact ⟨c, false, h⟩

theorem getCache_map (m : CacheMap) (f : LogCache → LogCache) (sig : Hash) :
    getCache (m.map (fun sc => (sc.1, f sc.2))) sig = (getCache m sig).map f := by
  induction m with
  | nil => rfl
  | cons sc rest ih =>
    obtain ⟨k, c⟩ := sc
    simp only [List.map_cons, getCache]
    split
    · rfl
    · exact ih

/-- The result of a block step is a panic exactly when the filter loop panics. -/
theorem processLogsInBlock_panic_iff (env : Env) (m : CacheMap) (logs : List Log) (n : Nat) :
    (processLogsInBlock env m logs n).result = Outcome.panic ↔
      (filterLogs env m logs).1 = none := by
  unfold processLogsInBlock
  split
  · rename_i heq; simp [heq]
  · rename_i kept heq
    rw [heq]
    split
    · simp
    · split <;> simp

/-- C12: if `processLogsInBlock` succeeds on block `n`, the caches are still registered
under the same signatures, every registered cache has watermark `n` (whether or not
it received a container), and the step ends with `SetLastProcessedBlock(n)` on every
registered cache, the only such calls it makes. -/
theorem C12_success_marks_every_cache (env : Env) (m : CacheMap) (logs : List Log) (n : Nat)
    (h : (processLogsInBlock env m logs n).result = Outcome.ok ()) :
    (processLogsInBlock env m logs n).sigToCache.map Prod.fst = m.map Prod.fst ∧
    (∀ sc ∈ (processLogsInBlock env m logs n).sigToCache, sc.2.LastProcessedBlock = n) ∧
    ∃ pre, (processLogsInBlock env m logs n).events =
      pre ++ m.map (fun sc => Event.SetLastProcessedBlock sc.1 n) ∧
      ∀ sig k, Event.SetLastProcessedBlock sig k ∉ pre := by
  refine ⟨processLogsInBlock_keys env m logs n, ?_⟩
  unfold processLogsInBlock at h ⊢
  split
  · rename_i heq; rw [heq] at h; simp at h
  · rename_i kept heq
    rw [heq] at h
    simp only at h
    split
    · rename_i e hdec; rw [hdec] at h; simp at h
    · rename_i cs hdec
      rw [hdec] at h
      simp only at h
      split
      · rename_i e hp; rw [hp] at h; simp at h
      · constructor
        · intro sc hsc
          simp only [setLastProcessedBlockAllCaches, List.mem_map] at hsc
          obtain ⟨a, _, rfl⟩ := hsc
          rfl
        · refine ⟨(filterLogs env m logs).2 ++ Event.ProcessLogs kept n true ::
            (pushContainers env cs m).events, ?_, ?_⟩
          · have hk := pushContainers_keys env cs m
            have hev : ∀ l : CacheMap, l.map (fun sc => Event.SetLastProcessedBlock sc.1 n) =
                (l.map Prod.fst).map (fun s => Event.SetLastProcessedBlock s n) := by
              intro l; simp [List.map_map, Function.comp_def]
            simp only [setLastProcessedBlockAllCaches, List.append_assoc, List.cons_append]
            rw [hev (pushContainers env cs m).sigToCache, hev m, hk]
          · intro sig k hin
            rcases List.mem_append.mp hin with h1 | h1
            · obtain ⟨s, l, hs⟩ := filterLogs_events_kind env m logs _ h1
              cases hs
            · rcases List.mem_cons.mp h1 with h2 | h2
              · cases h2
              · obtain ⟨c, ok, hs⟩ := pushContainers_events_kind env cs m _ h2
                cases hs

/-- C12, witness: caches registered under signatures 1 and 2 at watermarks 0 and 7, and
a block 5 with one log of signature 1: the step succeeds and both watermarks are 5,
also that of the second cache, which received nothing. -/
theorem C12_success_marks_every_cache_witness :
    (processLogsInBlock (exampleEnv 10 0 0 [] none) [(1, cacheAt 0), (2, cacheAt 7)]
      [logAt 1 5 0] 5).sigToCache =
      [(1, { lastProcessedBlock := 5, currentProcessingBlock := 0, currentProcessingIndex := 0,
             contents := [{ Signature := 1, value := 0 }] }),
       (2, { lastProcessedBlock := 5, currentProcessingBlock := 0, currentProcessingIndex := 0,
             contents := [] })] ∧
    ∀ sc ∈ (processLogsInBlock (exampleEnv 10 0 0 [] none) [(1, cacheAt 0), (2, cacheAt 7)]
      [logAt 1 5 0] 5).sigToCache, sc.2.LastProcessedBlock = 5 :=
  ⟨by decide,
    (C12_success_marks_every_cache (exampleEnv 10 0 0 [] none)
      [(1, cacheAt 0), (2, cacheAt 7)] [logAt 1 5 0] 5 (by decide)).2.1⟩

/-! ## C13: what the decode step receives -/

theorem setLastProcessedBlockAllCaches_decodeCalls (m : CacheMap) (n : Nat) :
    decodeCalls (setLastProcessedBlockAllCaches m n).events = [] := by
  unfold setLastProcessedBlockAllCaches
  induction m with
  | nil => rfl
  | cons sc rest ih => simpa [decodeCalls] using ih

theorem pushContainers_decodeCalls (env : Env) (cs : List LogValueContainer) (m : CacheMap) :
    decodeCalls (pushContainers env cs m).events = [] := by
  have h := pushContainers_events_kind env cs m
  generalize (pushContainers env cs m).events = evs at h
  induction evs with
  | nil => rfl
  | cons e rest ih =>
    obtain ⟨c, ok, rfl⟩ := h _ (List.mem_cons_self _ _)
    simpa [decodeCalls] using ih (fun x hx => h x (List.mem_cons_of_mem _ hx))

/-- The decode calls of a block step: none after a panic, else one, on the kept logs. -/
theorem processLogsInBlock_decodeCalls (env : Env) (m : CacheMap) (logs : List Log)
    (n : Nat) :
    decodeCalls (processLogsInBlock env m logs n).events =
      match (filterLogs env m logs).1 with
      | none => []
      | some kept => [(kept, n)] := by
  cases hfl : (filterLogs env m logs).1 with
  | none =>
    unfold processLogsInBlock
    simp only [hfl]
    exact filterLogs_decodeCalls env m logs
  | some kept =>
    unfold processLogsInBlock
    simp only [hfl]
    cases hdec : env.ProcessLogs kept n with
    | error e =>
      simp [decodeCalls_append, filterLogs_decodeCalls, decodeCalls]
    | ok cs =>
      simp only
      cases hp : (pushContainers env cs m).result with
      | some e =>
        simp [decodeCalls_append, filterLogs_decodeCalls, decodeCalls,
          pushContainers_decodeCalls]
      | none =>
        simp [decodeCalls_append, filterLogs_decodeCalls, decodeCalls,
          pushContainers_decodeCalls, setLastProcessedBlockAllCaches_decodeCalls]

/-- A log whose signature has no registered cache does not change what the filter loop
does. -/
theorem filterLogs_drop_unregistered (env : Env) (m : CacheMap) (pre post : List Log)
    (l : Log) (sig : Hash) (tl : List Hash) (ht : l.Topics = sig :: tl)
    (hc : getCache m sig = none) :
    filterLogs env m (pre ++ l :: post) = filterLogs env m (pre ++ post) := by
  induction pre with
  | nil =>
    simp only [List.nil_append]
    rw [filterLogs]
    simp only [ht, hc]
  | cons a rest ih =>
    simp only [List.cons_append]
    rw [filterLogs, filterLogs, ih]

/-- C13: every decode call of `processLogsInBlock` receives exactly the accepted logs of
the block (signature registered and `ShouldProcess` true, in original order) and the
block number; when every log carries a topic there is exactly one decode call; and a
log whose signature has no registered cache is not among the accepted logs and
changes nothing: with or without it the step makes the same calls, returns the same
result and leaves the same caches. -/
theorem C13_decode_gets_accepted_logs (env : Env) (m : CacheMap) (logs : List Log) (n : Nat) :
    (∀ ls k, (ls, k) ∈ decodeCalls (processLogsInBlock env m logs n).events →
      ls = acceptedLogs env m logs ∧ k = n) ∧
    ((∀ l ∈ logs, l.Topics ≠ []) →
      decodeCalls (processLogsInBlock env m logs n).events = [(acceptedLogs env m logs, n)]) ∧
    (∀ (pre post : List Log) (l : Log) (sig : Hash) (tl : List Hash),
      l.Topics = sig :: tl → getCache m sig = none →
      l ∉ acceptedLogs env m (pre ++ l :: post) ∧
      processLogsInBlock env m (pre ++ l :: post) n =
        processLogsInBlock env m (pre ++ post) n) := by
  refine ⟨?_, ?_, ?_⟩
  · intro ls k hmem
    rw [processLogsInBlock_decodeCalls] at hmem
    cases hfl : (filterLogs env m logs).1 with
    | none => rw [hfl] at hmem; simp at hmem
    | some kept =>
      rw [hfl] at hmem
      simp only [List.mem_singleton, Prod.mk.injEq] at hmem
      exact ⟨hmem.1.trans (filterLogs_some env m logs kept hfl), hmem.2⟩
  · intro ht
    rw [processLogsInBlock_decodeCalls]
    cases hfl : (filterLogs env m logs).1 with
    | none =>
      obtain ⟨l, hl, hl0⟩ := (filterLogs_none_iff env m logs).mp hfl
      exact absurd hl0 (ht l hl)
    | some kept =>
      simp only
      rw [filterLogs_some env m logs kept hfl]
  · intro pre post l sig tl ht hc
    constructor
    · intro hin
      have := (List.mem_filter.mp hin).2
      simp [ht, hc] at this
    · unfold processLogsInBlock
      rw [filterLogs_drop_unregistered env m pre post l sig tl ht hc]

/-- C13, witness: with a cache registered under signature 1 only, a block holding logs
of signatures 1, 9 and 1 hands the two logs of signature 1 to the decode step, and
the log of signature 9 ends up in no cache and causes no error. -/
theorem C13_decode_gets_accepted_logs_witness :
    decodeCalls (processLogsInBlock (exampleEnv 10 0 0 [] none) [(1, cacheAt 0)]
      [logAt 1 5 0, logAt 9 5 1, logAt 1 5 2] 5).events =
      [(acceptedLogs (exampleEnv 10 0 0 [] none) [(1, cacheAt 0)]
        [logAt 1 5 0, logAt 9 5 1, logAt 1 5 2], 5)] ∧
    acceptedLogs (exampleEnv 10 0 0 [] none) [(1, cacheAt 0)]
      [logAt 1 5 0, logAt 9 5 1, logAt 1 5 2] = [logAt 1 5 0, logAt 1 5 2] ∧
    (processLogsInBlock (exampleEnv 10 0 0 [] none) [(1, cacheAt 0)]
      [logAt 1 5 0, logAt 9 5 1, logAt 1 5 2] 5).result = Outcome.ok () ∧
    (processLogsInBlock (exampleEnv 10 0 0 [] none) [(1, cacheAt 0)]
      [logAt 1 5 0, logAt 9 5 1, logAt 1 5 2] 5).sigToCache =
      [(1, { lastProcessedBlock := 5, currentProcessingBlock := 0, currentProcessingIndex := 0,
             contents := [{ Signature := 1, value := 0 }, { Signature := 1, value := 2 }] })] :=
  ⟨(C13_decode_gets_accepted_logs (exampleEnv 10 0 0 [] none) [(1, cacheAt 0)]
      [logAt 1 5 0, logAt 9 5 1, logAt 1 5 2] 5).2.1 (by decide),
    by decide, by decide, by decide⟩

/-! ## C14: the pushes of a block step -/

theorem pushCalls_pushEvents (cs : List LogValueContainer) (ok : Bool) :
    pushCalls (cs.map (fun c => Event.Push c.Signature c ok)) =
      cs.map (fun c => (c.Signature, c, ok)) := by
  induction cs with
  | nil => rfl
  | cons c rest ih => simp [pushCalls, ih]

/-- The events of a block step whose filter loop kept `kept` and whose decode step
returned `cs`. -/
theorem processLogsInBlock_decoded (env : Env) (m : CacheMap) (logs kept : List Log) (n : Nat)
    (cs : List LogValueContainer) (hfl : (filterLogs env m logs).1 = some kept)
    (hdec : env.ProcessLogs kept n = Except.ok cs) :
    ((pushContainers env cs m).result = none →
      (processLogsInBlock env m logs n).result = Outcome.ok () ∧
      (processLogsInBlock env m logs n).sigToCache =
        (setLastProcessedBlockAllCaches (pushContainers env cs m).sigToCache n).sigToCache ∧
      (processLogsInBlock env m logs n).events =
        (filterLogs env m logs).2 ++ Event.ProcessLogs kept n true ::
          ((pushContainers env cs m).events ++
            (setLastProcessedBlockAllCaches (pushContainers env cs m).sigToCache n).events)) ∧
    (∀ e, (pushContainers env cs m).result = some e →
      (processLogsInBlock env m logs n).result = Outcome.err e ∧
      (processLogsInBlock env m logs n).sigToCache = (pushContainers env cs m).sigToCache ∧
      (processLogsInBlock env m logs n).events =
        (filterLogs env m logs).2 ++ Event.ProcessLogs kept n true ::
          (pushContainers env cs m).events) := by
  constructor
  · intro hp
    unfold processLogsInBlock
    rw [hfl]
    simp only [hdec, hp, and_self]
  · intro e hp
    unfold processLogsInBlock
    rw [hfl]
    simp only [hdec, hp, and_self]

/-- C14: when the decode step of `processLogsInBlock` returns the containers `cs`, the
step pushes the containers whose signature has a registered cache, in the order
returned, each to the cache registered under its own signature and nothing else
anywhere; either every push is accepted and the step succeeds, or the step returns an
error right after the first refused push, with no later push and no
`SetLastProcessedBlock` call, leaving every watermark as it was.  In both cases a
cache holds afterwards what it held before followed by the containers pushed to it. -/
theorem C14_push_order_and_abort (env : Env) (m : CacheMap) (logs kept : List Log) (n : Nat)
    (cs : List LogValueContainer) (hfl : (filterLogs env m logs).1 = some kept)
    (hdec : env.ProcessLogs kept n = Except.ok cs) :
    (((processLogsInBlock env m logs n).result = Outcome.ok () ∧
        pushCalls (processLogsInBlock env m logs n).events =
          (registeredContainers m cs).map (fun c => (c.Signature, c, true))) ∨
      (∃ e done c rest pre,
        (processLogsInBlock env m logs n).result = Outcome.err e ∧
        registeredContainers m cs = done ++ c :: rest ∧
        pushCalls (processLogsInBlock env m logs n).events =
          done.map (fun c => (c.Signature, c, true)) ++ [(c.Signature, c, false)] ∧
        (processLogsInBlock env m logs n).events = pre ++ [Event.Push c.Signature c false] ∧
        (∀ sig k, Event.SetLastProcessedBlock sig k ∉
          (processLogsInBlock env m logs n).events) ∧
        ∀ sig c0, getCache m sig = some c0 →
          ∃ c1, getCache (processLogsInBlock env m logs n).sigToCache sig = some c1 ∧
            c1.lastProcessedBlock = c0.lastProcessedBlock)) ∧
    (∀ sig c0, getCache m sig = some c0 →
      ∃ c1, getCache (processLogsInBlock env m logs n).sigToCache sig = some c1 ∧
        c1.contents = c0.contents ++ pushedTo sig (processLogsInBlock env m logs n).events) := by
  have hdecoded := processLogsInBlock_decoded env m logs kept n cs hfl hdec
  have hkind := filterLogs_events_kind env m logs
  rcases pushContainers_calls env cs m with ⟨h1, h2⟩ | ⟨e, done, c, rest, h1, h2, h3⟩
  · obtain ⟨hr, hs, he⟩ := hdecoded.1 h1
    constructor
    · left
      refine ⟨hr, ?_⟩
      rw [he]
      simp only [pushCalls_append, filterLogs_pushCalls, pushCalls, List.nil_append,
        setLastProcessedBlockAllCaches_pushCalls, List.append_nil, h2, pushCalls_pushEvents]
    · intro sig c0 h0
      have hc := pushContainers_contents env cs m sig c0 h0
      refine ⟨LogCache.SetLastProcessedBlock
        { c0 with contents := c0.contents ++ pushedTo sig (pushContainers env cs m).events }
        n, ?_, ?_⟩
      · rw [hs]
        simp only [setLastProcessedBlockAllCaches]
        rw [getCache_map _ (fun c => c.SetLastProcessedBlock n), hc]
        rfl
      · rw [he]
        simp only [pushedTo_append, LogCache.SetLastProcessedBlock]
        have hcons : ∀ evs, pushedTo sig (Event.ProcessLogs kept n true :: evs) =
            pushedTo sig evs := by
          intro evs; simp [pushedTo, pushCalls]
        have h0f : pushedTo sig (filterLogs env m logs).2 = [] := by
          simp [pushedTo, filterLogs_pushCalls]
        have h0m : ∀ l, pushedTo sig (setLastProcessedBlockAllCaches l n).events = [] := by
          intro l; simp [pushedTo, setLastProcessedBlockAllCaches_pushCalls]
        rw [hcons, pushedTo_append, h0f, h0m]
        simp
  · obtain ⟨hr, hs, he⟩ := hdecoded.2 e h1
    have hcons : ∀ sig evs, pushedTo sig (Event.ProcessLogs kept n true :: evs) =
        pushedTo sig evs := by
      intro sig evs; simp [pushedTo, pushCalls]
    have h0f : ∀ sig, pushedTo sig (filterLogs env m logs).2 = [] := by
      intro sig; simp [pushedTo, filterLogs_pushCalls]
    constructor
    · right
      refine ⟨e, done, c, rest,
        (filterLogs env m logs).2 ++ Event.ProcessLogs kept n true ::
          done.map (fun c => Event.Push c.Signature c true), hr, h2, ?_, ?_, ?_, ?_⟩
      · rw [he]
        simp only [pushCalls_append, filterLogs_pushCalls, pushCalls, List.nil_append, h3,
          pushCalls_pushEvents]
      · rw [he, h3]
        simp
      · intro sig k hin
        rw [he] at hin
        rcases List.mem_append.mp hin with g | g
        · obtain ⟨s, l, hsl⟩ := hkind _ g
          cases hsl
        · rcases List.mem_cons.mp g with g | g
          · cases g
          · obtain ⟨c1, ok, hc1⟩ := pushContainers_events_kind env cs m _ g
            cases hc1
      · intro sig c0 h0
        refine ⟨{ c0 with
          contents := c0.contents ++ pushedTo sig (pushContainers env cs m).events }, ?_, ?_⟩
        · rw [hs]
          exact pushContainers_contents env cs m sig c0 h0
        · rfl
    · intro sig c0 h0
      refine ⟨{ c0 with
        contents := c0.contents ++ pushedTo sig (pushContainers env cs m).events }, ?_, ?_⟩
      · rw [hs]
        exact pushContainers_contents env cs m sig c0 h0
      · rw [he]
        simp only [pushedTo_append, hcons, h0f, List.nil_append]

/-- C14, witness: a cache registered under signature 1 that refuses the container of
value 1, and a block whose logs decode to containers of signature 1 with values 0, 1
and 2: the first is pushed, the second is refused, the third is never pushed, and
the step returns an error with the watermark still 0. -/
theorem C14_push_order_and_abort_witness :
    (filterLogs (refusingEnv 1) [(1, cacheAt 0)]
      [logAt 1 5 0, logAt 1 5 1, logAt 1 5 2]).1 =
      some [logAt 1 5 0, logAt 1 5 1, logAt 1 5 2] ∧
    (refusingEnv 1).ProcessLogs [logAt 1 5 0, logAt 1 5 1, logAt 1 5 2] 5 =
      Except.ok [{ Signature := 1, value := 0 }, { Signature := 1, value := 1 },
        { Signature := 1, value := 2 }] ∧
    (processLogsInBlock (refusingEnv 1) [(1, cacheAt 0)]
      [logAt 1 5 0, logAt 1 5 1, logAt 1 5 2] 5).events =
      [Event.ShouldProcess 1 (logAt 1 5 0), Event.ShouldProcess 1 (logAt 1 5 1),
       Event.ShouldProcess 1 (logAt 1 5 2),
       Event.ProcessLogs [logAt 1 5 0, logAt 1 5 1, logAt 1 5 2] 5 true,
       Event.Push 1 { Signature := 1, value := 0 } true,
       Event.Push 1 { Signature := 1, value := 1 } false] ∧
    (∀ sig c0, getCache [(1, cacheAt 0)] sig = some c0 →
      ∃ c1, getCache (processLogsInBlock (refusingEnv 1) [(1, cacheAt 0)]
          [logAt 1 5 0, logAt 1 5 1, logAt 1 5 2] 5).sigToCache sig = some c1 ∧
        c1.contents = c0.contents ++ pushedTo sig (processLogsInBlock (refusingEnv 1)
          [(1, cacheAt 0)] [logAt 1 5 0, logAt 1 5 1, logAt 1 5 2] 5).events) :=
  ⟨by decide, rfl, by decide,
    (C14_push_order_and_abort (refusingEnv 1) [(1, cacheAt 0)]
      [logAt 1 5 0, logAt 1 5 1, logAt 1 5 2] [logAt 1 5 0, logAt 1 5 1, logAt 1 5 2] 5
      [{ Signature := 1, value := 0 }, { Signature := 1, value := 1 },
        { Signature := 1, value := 2 }] (by decide) rfl).2⟩

/-! ## C16: nothing is processed past the finalized block -/

theorem getCache_mem (m : CacheMap) (sig : Hash) (c : LogCache)
    (h : getCache m sig = some c) : (sig, c) ∈ m := by
  induction m with
  | nil => simp [getCache] at h
  | cons sc rest ih =>
    obtain ⟨k, c0⟩ := sc
    unfold getCache at h
    split at h
    · rename_i hk
      cases h
      subst hk
      exact List.mem_cons_self _ _
    · exact List.mem_cons_of_mem _ (ih h)

theorem setCache_mem (m : CacheMap) (sig : Hash) (c : LogCache) (sc : Hash × LogCache)
    (h : sc ∈ setCache m sig c) : sc ∈ m ∨ sc = (sig, c) := by
  induction m with
  | nil => simp [setCache] at h
  | cons a rest ih =>
    obtain ⟨k, c0⟩ := a
    unfold setCache at h
    split at h
    · rename_i hk
      rcases List.mem_cons.mp h with h1 | h1
      · right; rw [h1, hk]
      · left; exact List.mem_cons_of_mem _ h1
    · rcases List.mem_cons.mp h with h1 | h1
      · left; rw [h1]; exact List.mem_cons_self _ _
      · rcases ih h1 with h2 | h2
        · left; exact List.mem_cons_of_mem _ h2
        · right; exact h2

theorem pushContainers_watermarks (env : Env) (F : Nat) (cs : List LogValueContainer)
    (m : CacheMap) (h : watermarksAtMost F m) :
    watermarksAtMost F (pushContainers env cs m).sigToCache := by
  induction cs generalizing m with
  | nil => exact h
  | cons c rest ih =>
    unfold pushContainers
    split
    · exact ih m h
    · rename_i cache hc
      split
      · exact h
      · simp only [Step.after]
        apply ih
        intro sc hsc
        rcases setCache_mem _ _ _ _ hsc with h1 | h1
        · exact h sc h1
        · rw [h1]
          exact h (c.Signature, cache) (getCache_mem m _ _ hc)

theorem processLogsInBlock_atMost (env : Env) (F : Nat) (m : CacheMap) (logs : List Log)
    (n : Nat) (hn : n ≤ F) :
    (∀ e ∈ (processLogsInBlock env m logs n).events, e.blocksAtMost F) ∧
    (watermarksAtMost F m → watermarksAtMost F (processLogsInBlock env m logs n).sigToCache) := by
  have hfl : ∀ e ∈ (filterLogs env m logs).2, e.blocksAtMost F := by
    intro e he
    obtain ⟨s, l, rfl⟩ := filterLogs_events_kind env m logs e he
    trivial
  have hpush : ∀ cs, ∀ e ∈ (pushContainers env cs m).events, e.blocksAtMost F := by
    intro cs e he
    obtain ⟨c, ok, rfl⟩ := pushContainers_events_kind env cs m e he
    trivial
  have hmark : ∀ l : CacheMap, ∀ e ∈ (setLastProcessedBlockAllCaches l n).events,
      e.blocksAtMost F := by
    intro l e he
    simp only [setLastProcessedBlockAllCaches, List.mem_map] at he
    obtain ⟨sc, _, rfl⟩ := he
    exact hn
  cases hf : (filterLogs env m logs).1 with
  | none =>
    unfold processLogsInBlock
    simp only [hf]
    exact ⟨hfl, fun h => h⟩
  | some kept =>
    unfold processLogsInBlock
    simp only [hf]
    cases hdec : env.ProcessLogs kept n with
    | error e =>
      simp only
      refine ⟨?_, fun h => h⟩
      intro x hx
      rcases List.mem_append.mp hx with h1 | h1
      · exact hfl x h1
      · rw [List.mem_singleton] at h1
        rw [h1]
        exact hn
    | ok cs =>
      simp only
      cases hp : (pushContainers env cs m).result with
      | some e =>
        simp only
        refine ⟨?_, fun h => pushContainers_watermarks env F cs m h⟩
        intro x hx
        rcases List.mem_append.mp hx with h1 | h1
        · exact hfl x h1
        · rcases List.mem_cons.mp h1 with h2 | h2
          · rw [h2]; exact hn
          · exact hpush cs x h2
      | none =>
        simp only
        refine ⟨?_, ?_⟩
        · intro x hx
          rcases List.mem_append.mp hx with h1 | h1
          · exact hfl x h1
          · rcases List.mem_cons.mp h1 with h2 | h2
            · rw [h2]; exact hn
            · rcases List.mem_append.mp h2 with h3 | h3
              · exact hpush cs x h3
              · exact hmark _ x h3
        · intro _ sc hsc
          simp only [setLastProcessedBlockAllCaches, List.mem_map] at hsc
          obtain ⟨a, _, rfl⟩ := hsc
          exact hn

theorem blockLoop_atMost (env : Env) (F : Nat) (logs : List Log) (toBlock : Nat)
    (hto : toBlock ≤ F) (fuel blockNum : Nat) (m : CacheMap) :
    (∀ e ∈ (blockLoop env logs toBlock fuel blockNum m).events, e.blocksAtMost F) ∧
    (watermarksAtMost F m →
      watermarksAtMost F (blockLoop env logs toBlock fuel blockNum m).sigToCache) := by
  induction fuel generalizing blockNum m with
  | zero =>
    exact ⟨fun e he => (by cases he), fun h => h⟩
  | succ fuel ih =>
    unfold blockLoop
    by_cases hle : blockNum ≤ toBlock
    · simp only [if_pos hle]
      cases hb : blockToLogs logs blockNum with
      | none => exact ih _ _
      | some bl =>
        simp only
        have hstep := processLogsInBlock_atMost env F m bl blockNum (Nat.le_trans hle hto)
        cases hr : (processLogsInBlock env m bl blockNum).result with
        | ok u =>
          simp only [Step.after]
          have hrec := ih (add64 blockNum 1) (processLogsInBlock env m bl blockNum).sigToCache
          refine ⟨?_, fun h => hrec.2 (hstep.2 h)⟩
          intro x hx
          rcases List.mem_append.mp hx with h1 | h1
          · exact hstep.1 x h1
          · exact hrec.1 x h1
        | err e => exact hstep
        | panic => exact hstep
    · simp only [if_neg hle]
      exact ⟨fun e he => (by cases he), fun h => h⟩

theorem batchToBlock_le (fromBlock batchSize F : Nat) : batchToBlock fromBlock batchSize F ≤ F := by
  unfold batchToBlock
  split <;> omega

theorem processBlocksInBatch_atMost (env : Env) (F : Nat) (fuel : Nat) (m : CacheMap)
    (fromBlock batchSize : Nat) (addrs : List Address) (hfrom : fromBlock ≤ F) :
    (∀ e ∈ (processBlocksInBatch env fuel m fromBlock batchSize F addrs).events,
      e.blocksAtMost F) ∧
    (watermarksAtMost F m →
      watermarksAtMost F (processBlocksInBatch env fuel m fromBlock batchSize F addrs).sigToCache) := by
  have hto := batchToBlock_le fromBlock batchSize F
  unfold processBlocksInBatch
  cases hg : env.GetLogs fromBlock (batchToBlock fromBlock batchSize F) addrs with
  | error e =>
    simp only
    refine ⟨?_, fun h => h⟩
    intro x hx
    rw [List.mem_singleton] at hx
    rw [hx]
    exact ⟨hfrom, hto⟩
  | ok logs =>
    simp only [Step.after, List.singleton_append]
    have hloop := blockLoop_atMost env F logs _ hto fuel fromBlock m
    have hk := blockLoop_keys env logs (batchToBlock fromBlock batchSize F) fuel fromBlock m
    have hhead : (Event.GetLogs fromBlock (batchToBlock fromBlock batchSize F) addrs
        true).blocksAtMost F := ⟨hfrom, hto⟩
    have hcons : ∀ evs : List Event, (∀ e ∈ evs, e.blocksAtMost F) →
        ∀ e ∈ Event.GetLogs fromBlock (batchToBlock fromBlock batchSize F) addrs true :: evs,
          e.blocksAtMost F := by
      intro evs h e he
      rcases List.mem_cons.mp he with h1 | h1
      · rw [h1]; exact hhead
      · exact h e h1
    cases hr : (blockLoop env logs (batchToBlock fromBlock batchSize F) fuel fromBlock
        m).result with
    | none => exact ⟨hcons _ hloop.1, hloop.2⟩
    | some o =>
      cases o with
      | ok u => exact ⟨hcons _ hloop.1, hloop.2⟩
      | panic => exact ⟨hcons _ hloop.1, hloop.2⟩
      | err e =>
        simp only
        refine ⟨hcons _ ?_, ?_⟩
        · intro x hx
          rcases List.mem_append.mp hx with h1 | h1
          · exact hloop.1 x h1
          · simp only [rollbackCaches, List.mem_map] at h1
            obtain ⟨sc, _, rfl⟩ := h1
            trivial
        · intro h
          rw [rollbackCaches_sigToCache _ _ hk]
          exact h

theorem batchLoop_atMost (env : Env) (F : Nat) (addrs : List Address) (fuel curr : Nat)
    (m : CacheMap) :
    (∀ e ∈ (batchLoop env F addrs fuel curr m).events, e.blocksAtMost F) ∧
    (watermarksAtMost F m → watermarksAtMost F (batchLoop env F addrs fuel curr m).sigToCache) := by
  induction fuel generalizing curr m with
  | zero => exact ⟨fun e he => (by cases he), fun h => h⟩
  | succ fuel ih =>
    unfold batchLoop
    by_cases hlt : curr < F
    · simp only [if_pos hlt]
      have hb := processBlocksInBatch_atMost env F (fuel + 1) m (curr + 1) DefaultBatchSize
        addrs hlt
      cases hr : (processBlocksInBatch env (fuel + 1) m (curr + 1) DefaultBatchSize F
          addrs).result with
      | none => exact hb
      | some o =>
        cases o with
        | ok next =>
          simp only [Step.after]
          have hrec := ih next (processBlocksInBatch env (fuel + 1) m (curr + 1)
            DefaultBatchSize F addrs).sigToCache
          refine ⟨?_, fun h => hrec.2 (hb.2 h)⟩
          intro x hx
          rcases List.mem_append.mp hx with h1 | h1
          · exact hb.1 x h1
          · exact hrec.1 x h1
        | err e => exact hb
        | panic => exact hb
    · simp only [if_neg hlt]
      exact ⟨fun e he => (by cases he), fun h => h⟩

theorem windowLoop_atMost (env : Env) (F : Nat) (m : CacheMap) (acc : Nat) :
    (∀ e ∈ (windowLoop env m acc).events, e.blocksAtMost F) ∧
    (watermarksAtMost F m → watermarksAtMost F (windowLoop env m acc).sigToCache) := by
  constructor
  · intro e he
    obtain ⟨sc, _, hsc⟩ := (windowLoop_events_mem env m acc e).mp he
    unfold reconcile at hsc
    split at hsc
    · simp only [List.mem_cons, List.mem_singleton, List.not_mem_nil, or_false] at hsc
      rcases hsc with h | h | h | h | h <;> subst h <;> trivial
    · simp only [List.mem_cons, List.mem_singleton, List.not_mem_nil, or_false] at hsc
      rcases hsc with h | h <;> subst h <;> trivial
  · intro h sc hsc
    rw [windowLoop_sigToCache] at hsc
    obtain ⟨a, ha, rfl⟩ := List.mem_map.mp hsc
    have := h a ha
    unfold reconcile
    split <;> exact this

/-- C16: in a `ProcessPastLogs` run with finalized block `F`, every block number passed
to `GetLogs`, to the decode step or to `SetLastProcessedBlock` is at most `F`,
whatever the fuel; and if every cache's watermark is at most `F` before the run, it
is at most `F` after it. -/
theorem C16_never_past_finality (env : Env) (fuel : Nat) (m : CacheMap) (n : Nat)
    (hF : env.HeaderByHash env.FinalizedCheckpoint = Except.ok n) :
    (∀ e ∈ (ProcessPastLogs env fuel m).events, e.blocksAtMost (n % U64)) ∧
    (watermarksAtMost (n % U64) m →
      watermarksAtMost (n % U64) (ProcessPastLogs env fuel m).sigToCache) := by
  have hw := windowLoop_atMost env (n % U64) m (n % U64)
  by_cases heq : (windowLoop env m (n % U64)).result = n % U64
  · rw [ProcessPastLogs_of_start_eq env m n fuel hF heq]
    refine ⟨?_, hw.2⟩
    intro x hx
    rcases List.mem_append.mp hx with h1 | h1
    · simp only [List.mem_cons, List.mem_singleton, List.not_mem_nil, or_false] at h1
      rcases h1 with h | h <;> subst h <;> trivial
    · exact hw.1 x h1
  · rw [ProcessPastLogs_of_start_ne env m n fuel hF heq]
    have hb := batchLoop_atMost env (n % U64) env.GetRegisteredAddresses fuel
      (windowLoop env m (n % U64)).result (windowLoop env m (n % U64)).sigToCache
    simp only [Step.after]
    refine ⟨?_, fun h => hb.2 (hw.2 h)⟩
    intro x hx
    rcases List.mem_append.mp hx with h1 | h1
    · rcases List.mem_append.mp h1 with h2 | h2
      · rcases List.mem_append.mp h2 with h3 | h3
        · simp only [List.mem_cons, List.mem_singleton, List.not_mem_nil, or_false] at h3
          rcases h3 with h | h <;> subst h <;> trivial
        · exact hw.1 x h3
      · rw [List.mem_singleton] at h2
        subst h2
        trivial
    · exact hb.1 x h1

/-- C16, witness: caches at watermarks 100 and 120, finalized block 200 and logs in
blocks 105 and 200: every watermark is at most 200 before the run and after it, where
both are 200. -/
theorem C16_never_past_finality_witness :
    watermarksAtMost (200 % U64) [(1, cacheAt 100), (2, cacheAt 120)] ∧
    watermarksAtMost (200 % U64)
      (ProcessPastLogs (exampleEnv 200 0 0 [logAt 1 105 0, logAt 2 200 0] none) 201
        [(1, cacheAt 100), (2, cacheAt 120)]).sigToCache ∧
    (ProcessPastLogs (exampleEnv 200 0 0 [logAt 1 105 0, logAt 2 200 0] none) 201
      [(1, cacheAt 100), (2, cacheAt 120)]).sigToCache.map
      (fun sc => sc.2.LastProcessedBlock) = [200, 200] :=
  ⟨by
      intro sc hsc
      simp only [List.mem_cons, List.mem_singleton, List.not_mem_nil, or_false] at hsc
      rcases hsc with h | h <;> subst h <;> decide,
    (C16_never_past_finality (exampleEnv 200 0 0 [logAt 1 105 0, logAt 2 200 0] none) 201
      [(1, cacheAt 100), (2, cacheAt 120)] 200 rfl).2 (by
        intro sc hsc
        simp only [List.mem_cons, List.mem_singleton, List.not_mem_nil, or_false] at hsc
        rcases hsc with h | h <;> subst h <;> decide),
    by decide!⟩

/-! ## C11: upstream failures -/

theorem processLogsInBlock_events_kind (env : Env) (m : CacheMap) (logs : List Log) (n : Nat) :
    ∀ e ∈ (processLogsInBlock env m logs n).events, e.isBlockStepCall = true := by
  have hfl : ∀ e ∈ (filterLogs env m logs).2, e.isBlockStepCall = true := by
    intro e he
    obtain ⟨s, l, rfl⟩ := filterLogs_events_kind env m logs e he
    rfl
  have hpush : ∀ cs, ∀ e ∈ (pushContainers env cs m).events, e.isBlockStepCall = true := by
    intro cs e he
    obtain ⟨c, ok, rfl⟩ := pushContainers_events_kind env cs m e he
    rfl
  have hmark : ∀ l : CacheMap, ∀ e ∈ (setLastProcessedBlockAllCaches l n).events,
      e.isBlockStepCall = true := by
    intro l e he
    simp only [setLastProcessedBlockAllCaches, List.mem_map] at he
    obtain ⟨sc, _, rfl⟩ := he
    rfl
  cases hf : (filterLogs env m logs).1 with
  | none =>
    unfold processLogsInBlock
    simp only [hf]
    exact hfl
  | some kept =>
    unfold processLogsInBlock
    simp only [hf]
    cases hdec : env.ProcessLogs kept n with
    | error e =>
      simp only
      intro x hx
      rcases List.mem_append.mp hx with h1 | h1
      · exact hfl x h1
      · rw [List.mem_singleton] at h1
        rw [h1]
        rfl
    | ok cs =>
      simp only
      cases hp : (pushContainers env cs m).result with
      | some e =>
        simp only
        intro x hx
        rcases List.mem_append.mp hx with h1 | h1
        · exact hfl x h1
        · rcases List.mem_cons.mp h1 with h2 | h2
          · rw [h2]; rfl
          · exact hpush cs x h2
      | none =>
        simp only
        intro x hx
        rcases List.mem_append.mp hx with h1 | h1
        · exact hfl x h1
        · rcases List.mem_cons.mp h1 with h2 | h2
          · rw [h2]; rfl
          · rcases List.mem_append.mp h2 with h3 | h3
            · exact hpush cs x h3
            · exact hmark _ x h3

theorem blockLoop_events_kind (env : Env) (logs : List Log) (toBlock fuel blockNum : Nat)
    (m : CacheMap) :
    ∀ e ∈ (blockLoop env logs toBlock fuel blockNum m).events, e.isBlockStepCall = true := by
  induction fuel generalizing blockNum m with
  | zero => intro e he; cases he
  | succ fuel ih =>
    unfold blockLoop
    by_cases hle : blockNum ≤ toBlock
    · simp only [if_pos hle]
      cases hb : blockToLogs logs blockNum with
      | none => exact ih _ _
      | some bl =>
        simp only
        have hstep := processLogsInBlock_events_kind env m bl blockNum
        cases hr : (processLogsInBlock env m bl blockNum).result with
        | ok u =>
          simp only [Step.after]
          intro x hx
          rcases List.mem_append.mp hx with h1 | h1
          · exact hstep x h1
          · exact ih _ _ x h1
        | err e => exact hstep
        | panic => exact hstep
    · simp only [if_neg hle]
      intro e he; cases he

/-- A batch whose `GetLogs` call fails returns the wrapped error at once: it touches no
cache and makes no other call. -/
theorem processBlocksInBatch_fetch_error (env : Env) (fuel : Nat) (m : CacheMap)
    (fromBlock batchSize F : Nat) (addrs : List Address) (e : Error)
    (h : env.GetLogs fromBlock (batchToBlock fromBlock batchSize F) addrs = Except.error e) :
    (processBlocksInBatch env fuel m fromBlock batchSize F addrs).result =
      some (Outcome.err (Error.wrapf e WrapMsg.failedToGetLogs)) ∧
    (processBlocksInBatch env fuel m fromBlock batchSize F addrs).sigToCache = m ∧
    (processBlocksInBatch env fuel m fromBlock batchSize F addrs).events =
      [Event.GetLogs fromBlock (batchToBlock fromBlock batchSize F) addrs false] := by
  unfold processBlocksInBatch
  simp only [h, and_self]

/-- A batch whose `GetLogs` call succeeds makes no failed fetch, and calls `Rollback` only
when it returns an error. -/
theorem processBlocksInBatch_fetch_ok (env : Env) (fuel : Nat) (m : CacheMap)
    (fromBlock batchSize F : Nat) (addrs : List Address) (logs : List Log)
    (h : env.GetLogs fromBlock (batchToBlock fromBlock batchSize F) addrs = Except.ok logs) :
    (∀ x ∈ (processBlocksInBatch env fuel m fromBlock batchSize F addrs).events,
      x.isFetchFailure = false) ∧
    ((∀ e, (processBlocksInBatch env fuel m fromBlock batchSize F addrs).result ≠
        some (Outcome.err e)) →
      ∀ x ∈ (processBlocksInBatch env fuel m fromBlock batchSize F addrs).events,
        x.isRollback = false) := by
  have hk := blockLoop_events_kind env logs (batchToBlock fromBlock batchSize F) fuel
    fromBlock m
  have hnf : ∀ x : Event, x.isBlockStepCall = true → x.isFetchFailure = false := by
    intro x hx; cases x <;> first | rfl | cases hx
  have hnr : ∀ x : Event, x.isBlockStepCall = true → x.isRollback = false := by
    intro x hx; cases x <;> first | rfl | cases hx
  unfold processBlocksInBatch
  simp only [h, Step.after, List.singleton_append]
  cases hr : (blockLoop env logs (batchToBlock fromBlock batchSize F) fuel fromBlock
      m).result with
  | none =>
    simp only
    refine ⟨?_, fun _ => ?_⟩ <;>
    · intro x hx
      rcases List.mem_cons.mp hx with h1 | h1
      · rw [h1]; rfl
      · first | exact hnf x (hk x h1) | exact hnr x (hk x h1)
  | some o =>
    cases o with
    | ok u =>
      simp only
      refine ⟨?_, fun _ => ?_⟩ <;>
      · intro x hx
        rcases List.mem_cons.mp hx with h1 | h1
        · rw [h1]; rfl
        · first | exact hnf x (hk x h1) | exact hnr x (hk x h1)
    | panic =>
      simp only
      refine ⟨?_, fun _ => ?_⟩ <;>
      · intro x hx
        rcases List.mem_cons.mp hx with h1 | h1
        · rw [h1]; rfl
        · first | exact hnf x (hk x h1) | exact hnr x (hk x h1)
    | err e =>
      simp only
      refine ⟨?_, fun hne => absurd rfl (hne e)⟩
      intro x hx
      rcases List.mem_cons.mp hx with h1 | h1
      · rw [h1]; rfl
      · rcases List.mem_append.mp h1 with h2 | h2
        · exact hnf x (hk x h2)
        · simp only [rollbackCaches, List.mem_map] at h2
          obtain ⟨sc, _, rfl⟩ := h2
          rfl

/-- The batch loop either makes no failed fetch, or returns the wrapped fetch error right
after the first one, having called no `Rollback`. -/
theorem batchLoop_fetch_shape (env : Env) (F : Nat) (addrs : List Address) (fuel curr : Nat)
    (m : CacheMap) :
    (∀ x ∈ (batchLoop env F addrs fuel curr m).events, x.isFetchFailure = false) ∨
    (∃ e pre a b,
      (batchLoop env F addrs fuel curr m).result = some (Outcome.err
        (Error.wrapf (Error.wrapf e WrapMsg.failedToGetLogs)
          WrapMsg.failedToProcessLogsInBatch)) ∧
      (batchLoop env F addrs fuel curr m).events = pre ++ [Event.GetLogs a b addrs false] ∧
      ∀ x ∈ pre, x.isFetchFailure = false ∧ x.isRollback = false) := by
  induction fuel generalizing curr m with
  | zero => exact Or.inl (fun x hx => by cases hx)
  | succ fuel ih =>
    unfold batchLoop
    by_cases hlt : curr < F
    · simp only [if_pos hlt]
      cases hg : env.GetLogs (curr + 1) (batchToBlock (curr + 1) DefaultBatchSize F) addrs with
      | error e =>
        obtain ⟨h1, _, h3⟩ := processBlocksInBatch_fetch_error env (fuel + 1) m (curr + 1)
          DefaultBatchSize F addrs e hg
        right
        rw [h1]
        exact ⟨e, [], _, _, rfl, by rw [h3]; rfl, fun x hx => by cases hx⟩
      | ok logs =>
        obtain ⟨h1, h2⟩ := processBlocksInBatch_fetch_ok env (fuel + 1) m (curr + 1)
          DefaultBatchSize F addrs logs hg
        cases hr : (processBlocksInBatch env (fuel + 1) m (curr + 1) DefaultBatchSize F
            addrs).result with
        | none => exact Or.inl h1
        | some o =>
          cases o with
          | ok next =>
            simp only [Step.after]
            have hnr := h2 (by rw [hr]; intro e he; cases he)
            rcases ih next (processBlocksInBatch env (fuel + 1) m (curr + 1) DefaultBatchSize F
              addrs).sigToCache with g | ⟨e, pre, a, b, g1, g2, g3⟩
            · left
              intro x hx
              rcases List.mem_append.mp hx with h | h
              · exact h1 x h
              · exact g x h
            · right
              refine ⟨e, (processBlocksInBatch env (fuel + 1) m (curr + 1) DefaultBatchSize F
                addrs).events ++ pre, a, b, g1, ?_, ?_⟩
              · rw [g2, List.append_assoc]
              · intro x hx
                rcases List.mem_append.mp hx with h | h
                · exact ⟨h1 x h, hnr x h⟩
                · exact g3 x h
          | err e => exact Or.inl h1
          | panic => exact Or.inl h1
    · simp only [if_neg hlt]
      exact Or.inl (fun x hx => by cases hx)

/-- C11 (as amended): if the finalized-header lookup fails, `ProcessPastLogs` returns the
wrapped error having made no call on any cache, and every cache is as it was.  A
batch whose `GetLogs` call fails returns the wrapped error having touched no cache
and made no other call.  If a `GetLogs` call of a run fails, the run returns the
wrapped error right after it and has never called `Rollback`.  When the failed call
is the first fetch of the run, every cache's watermark and contents are those of the
start of the run. -/
theorem C11_upstream_failure (env : Env) (fuel : Nat) (m : CacheMap) :
    (∀ e, env.HeaderByHash env.FinalizedCheckpoint = Except.error e →
      (ProcessPastLogs env fuel m).result = some (Outcome.err
        (Error.wrapf (Error.wrapf e WrapMsg.failedToGetFinalizedHeader)
          WrapMsg.failedToGetLatestFinalizedBlock)) ∧
      (ProcessPastLogs env fuel m).sigToCache = m ∧
      (ProcessPastLogs env fuel m).events =
        [Event.FinalizedCheckpoint, Event.HeaderByHash env.FinalizedCheckpoint false]) ∧
    (∀ (m0 : CacheMap) (fromBlock batchSize F : Nat) (addrs : List Address) (e : Error),
      env.GetLogs fromBlock (batchToBlock fromBlock batchSize F) addrs = Except.error e →
      (processBlocksInBatch env fuel m0 fromBlock batchSize F addrs).result =
        some (Outcome.err (Error.wrapf e WrapMsg.failedToGetLogs)) ∧
      (processBlocksInBatch env fuel m0 fromBlock batchSize F addrs).sigToCache = m0 ∧
      (processBlocksInBatch env fuel m0 fromBlock batchSize F addrs).events =
        [Event.GetLogs fromBlock (batchToBlock fromBlock batchSize F) addrs false]) ∧
    ((∃ x ∈ (ProcessPastLogs env fuel m).events, x.isFetchFailure = true) →
      ∃ e pre a b,
        (ProcessPastLogs env fuel m).result = some (Outcome.err
          (Error.wrapf (Error.wrapf e WrapMsg.failedToGetLogs)
            WrapMsg.failedToProcessLogsInBatch)) ∧
        (ProcessPastLogs env fuel m).events =
          pre ++ [Event.GetLogs a b env.GetRegisteredAddresses false] ∧
        ∀ x ∈ (ProcessPastLogs env fuel m).events, x.isRollback = false) ∧
    (∀ n e, env.HeaderByHash env.FinalizedCheckpoint = Except.ok n →
      (windowLoop env m (n % U64)).result ≠ n % U64 →
      env.GetLogs ((windowLoop env m (n % U64)).result + 1)
        (batchToBlock ((windowLoop env m (n % U64)).result + 1) DefaultBatchSize (n % U64))
        env.GetRegisteredAddresses = Except.error e →
      (ProcessPastLogs env (fuel + 1) m).result = some (Outcome.err
        (Error.wrapf (Error.wrapf e WrapMsg.failedToGetLogs)
          WrapMsg.failedToProcessLogsInBatch)) ∧
      ∀ (k : Nat) (sig : Hash) (cache : LogCache), m[k]? = some (sig, cache) →
        ∃ cache1 : LogCache,
          (ProcessPastLogs env (fuel + 1) m).sigToCache[k]? = some (sig, cache1) ∧
          cache1.lastProcessedBlock = cache.lastProcessedBlock ∧
          cache1.contents = cache.contents) := by
  refine ⟨?_, ?_, ?_, ?_⟩
  · intro e hE
    unfold ProcessPastLogs getLatestFinalizedBlock
    simp only [hE, and_self]
  · intro m0 fromBlock batchSize F addrs e h
    exact processBlocksInBatch_fetch_error env fuel m0 fromBlock batchSize F addrs e h
  · rintro ⟨x, hx, hfail⟩
    cases hH : env.HeaderByHash env.FinalizedCheckpoint with
    | error e =>
      exfalso
      unfold ProcessPastLogs getLatestFinalizedBlock at hx
      simp only [hH, List.mem_cons, List.mem_singleton, List.not_mem_nil, or_false] at hx
      rcases hx with h | h <;> subst h <;> cases hfail
    | ok n =>
      have hquiet : ∀ y ∈ ([Event.FinalizedCheckpoint,
          Event.HeaderByHash env.FinalizedCheckpoint true] ++
          (windowLoop env m (n % U64)).events),
          y.isFetchFailure = false ∧ y.isRollback = false := by
        intro y hy
        rcases List.mem_append.mp hy with h | h
        · simp only [List.mem_cons, List.mem_singleton, List.not_mem_nil, or_false] at h
          rcases h with h | h <;> subst h <;> exact ⟨rfl, rfl⟩
        · obtain ⟨sc, _, hsc⟩ := (windowLoop_events_mem env m _ y).mp h
          unfold reconcile at hsc
          split at hsc
          · simp only [List.mem_cons, List.mem_singleton, List.not_mem_nil, or_false] at hsc
            rcases hsc with h | h | h | h | h <;> subst h <;> exact ⟨rfl, rfl⟩
          · simp only [List.mem_cons, List.mem_singleton, List.not_mem_nil, or_false] at hsc
            rcases hsc with h | h <;> subst h <;> exact ⟨rfl, rfl⟩
      by_cases heq : (windowLoop env m (n % U64)).result = n % U64
      · exfalso
        rw [ProcessPastLogs_of_start_eq env m n fuel hH heq] at hx
        rw [(hquiet x hx).1] at hfail
        cases hfail
      · rw [ProcessPastLogs_of_start_ne env m n fuel hH heq] at hx ⊢
        simp only [Step.after] at hx ⊢
        rcases batchLoop_fetch_shape env (n % U64) env.GetRegisteredAddresses fuel
          (windowLoop env m (n % U64)).result (windowLoop env m (n % U64)).sigToCache with
          g | ⟨e, pre, a, b, g1, g2, g3⟩
        · exfalso
          rcases List.mem_append.mp hx with h | h
          · rcases List.mem_append.mp h with h | h
            · rw [(hquiet x h).1] at hfail; cases hfail
            · rw [List.mem_singleton] at h; subst h; cases hfail
          · rw [g x h] at hfail; cases hfail
        · refine ⟨e, ([Event.FinalizedCheckpoint,
            Event.HeaderByHash env.FinalizedCheckpoint true] ++
            (windowLoop env m (n % U64)).events ++ [Event.GetRegisteredAddresses]) ++ pre,
            a, b, g1, ?_, ?_⟩
          · rw [g2, List.append_assoc _ pre]
          · intro y hy
            rw [g2] at hy
            rcases List.mem_append.mp hy with h | h
            · rcases List.mem_append.mp h with h | h
              · exact (hquiet y h).2
              · rw [List.mem_singleton] at h; subst h; rfl
            · rcases List.mem_append.mp h with h | h
              · exact (g3 y h).2
              · rw [List.mem_singleton] at h; subst h; rfl
  · intro n e hH hne hg
    have hlt : (windowLoop env m (n % U64)).result < n % U64 :=
      Nat.lt_of_le_of_ne (windowLoop_result_le env m _) hne
    obtain ⟨h1, h2, _⟩ := processBlocksInBatch_fetch_error env (fuel + 1)
      (windowLoop env m (n % U64)).sigToCache _ DefaultBatchSize (n % U64)
      env.GetRegisteredAddresses e hg
    rw [ProcessPastLogs_of_start_ne env m n _ hH hne]
    rw [batchLoop, if_pos hlt, h1]
    simp only [Step.after, h2]
    refine ⟨trivial, ?_⟩
    intro k sig cache hk
    refine ⟨(reconcile env sig cache).2.1, ?_, ?_, ?_⟩
    · simp [windowLoop_sigToCache, List.getElem?_map, hk]
    · unfold reconcile; split <;> rfl
    · unfold reconcile; split <;> rfl

/-- C11, witness: a cache at watermark 0, finalized block 1500 and an engine whose first
fetch (from block 1) fails: the run returns the wrapped error, calls no `Rollback`,
and the cache is as it was. -/
theorem C11_upstream_failure_witness :
    (ProcessPastLogs (fetchFailingEnv 1500 0 0 [logAt 1 500 0] 1) 1501
      [(1, cacheAt 0)]).events =
      [Event.FinalizedCheckpoint, Event.HeaderByHash 7 true, Event.LastProcessedBlock 1,
       Event.GetLastProcessedBlockNumber 1, Event.GetRegisteredAddresses,
       Event.GetLogs 1 1000 [1] false] ∧
    (ProcessPastLogs (fetchFailingEnv 1500 0 0 [logAt 1 500 0] 1) 1501
      [(1, cacheAt 0)]).sigToCache = [(1, cacheAt 0)] ∧
    ∃ e pre a b,
      (ProcessPastLogs (fetchFailingEnv 1500 0 0 [logAt 1 500 0] 1) 1501
        [(1, cacheAt 0)]).result = some (Outcome.err
          (Error.wrapf (Error.wrapf e WrapMsg.failedToGetLogs)
            WrapMsg.failedToProcessLogsInBatch)) ∧
      (ProcessPastLogs (fetchFailingEnv 1500 0 0 [logAt 1 500 0] 1) 1501
        [(1, cacheAt 0)]).events =
        pre ++ [Event.GetLogs a b
          (fetchFailingEnv 1500 0 0 [logAt 1 500 0] 1).GetRegisteredAddresses false] ∧
      ∀ x ∈ (ProcessPastLogs (fetchFailingEnv 1500 0 0 [logAt 1 500 0] 1) 1501
        [(1, cacheAt 0)]).events, x.isRollback = false :=
  ⟨by decide!, by decide!,
    (C11_upstream_failure (fetchFailingEnv 1500 0 0 [logAt 1 500 0] 1) 1501
      [(1, cacheAt 0)]).2.2.1 (by decide!)⟩

/-- C11, counterexample: a cache at watermark 0, finalized block 1500, a log in block 500
and an engine whose second fetch (from block 1001) fails.  The run returns an error
after the failed `GetLogs` call and never calls `Rollback`, but the first batch has
already pushed a container and moved the watermark to 500: the cache is not as it
was at the start of the run. -/
theorem C11_counterexample :
    (∃ x ∈ (ProcessPastLogs (fetchFailingEnv 1500 0 0 [logAt 1 500 0] 1001) 1501
        [(1, cacheAt 0)]).events, x.isFetchFailure = true) ∧
    (ProcessPastLogs (fetchFailingEnv 1500 0 0 [logAt 1 500 0] 1001) 1501
      [(1, cacheAt 0)]).sigToCache =
      [(1, { lastProcessedBlock := 500, currentProcessingBlock := 0,
             currentProcessingIndex := 0, contents := [{ Signature := 1, value := 0 }] })] ∧
    (ProcessPastLogs (fetchFailingEnv 1500 0 0 [logAt 1 500 0] 1001) 1501
      [(1, cacheAt 0)]).sigToCache ≠ [(1, cacheAt 0)] := by
  refine ⟨by decide!, by decide!, by decide!⟩

/-! ## C15: the order of blocks in a batch -/

theorem blockToLogs_eq_filter (logs : List Log) (n : Nat) :
    blockToLogs logs n =
      if logs.filter (fun l => decide (l.BlockNumber = n)) = [] then none
      else some (logs.filter (fun l => decide (l.BlockNumber = n))) := by
  induction logs with
  | nil => rfl
  | cons log rest ih =>
    unfold blockToLogs
    by_cases h : log.BlockNumber = n
    · simp only [if_pos h, List.filter_cons, h, decide_True, if_true]
      rw [ih]
      split <;> simp_all
    · simp only [if_neg h, List.filter_cons, h, decide_False]
      exact ih

theorem blockToLogs_sameBlocks (logs logs2 : List Log) (h : sameBlocks logs logs2) (n : Nat) :
    blockToLogs logs n = blockToLogs logs2 n := by
  rw [blockToLogs_eq_filter, blockToLogs_eq_filter, h n]

theorem blockLoop_sameBlocks (env : Env) (logs logs2 : List Log) (h : sameBlocks logs logs2)
    (toBlock fuel blockNum : Nat) (m : CacheMap) :
    blockLoop env logs toBlock fuel blockNum m = blockLoop env logs2 toBlock fuel blockNum m := by
  induction fuel generalizing blockNum m with
  | zero => rfl
  | succ fuel ih =>
    rw [blockLoop, blockLoop, blockToLogs_sameBlocks logs logs2 h blockNum]
    simp only [ih]

theorem filterLogs_withLogs (env : Env) (l : List Log) (m : CacheMap) (logs : List Log) :
    filterLogs (env.withLogs l) m logs = filterLogs env m logs := by
  induction logs with
  | nil => rfl
  | cons a rest ih =>
    rw [filterLogs, filterLogs, ih]
    rfl

theorem pushContainers_withLogs (env : Env) (l : List Log) (cs : List LogValueContainer)
    (m : CacheMap) : pushContainers (env.withLogs l) cs m = pushContainers env cs m := by
  induction cs generalizing m with
  | nil => rfl
  | cons c rest ih =>
    rw [pushContainers, pushContainers]
    simp only [ih]
    rfl

theorem processLogsInBlock_withLogs (env : Env) (l : List Log) (m : CacheMap)
    (logs : List Log) (n : Nat) :
    processLogsInBlock (env.withLogs l) m logs n = processLogsInBlock env m logs n := by
  unfold processLogsInBlock
  simp only [filterLogs_withLogs, pushContainers_withLogs]
  rfl

theorem blockLoop_withLogs (env : Env) (l logs : List Log) (toBlock fuel blockNum : Nat)
    (m : CacheMap) :
    blockLoop (env.withLogs l) logs toBlock fuel blockNum m =
      blockLoop env logs toBlock fuel blockNum m := by
  induction fuel generalizing blockNum m with
  | zero => rfl
  | succ fuel ih =>
    rw [blockLoop, blockLoop]
    simp only [ih, processLogsInBlock_withLogs]

/-- The batch run on the fetched logs `logs`: `processBlocksInBatch` with an engine that
returns `logs` is the head call followed by the block loop on `logs` and the deferred
rollback. -/
theorem processBlocksInBatch_withLogs_congr (env : Env) (logs logs2 : List Log)
    (h : sameBlocks logs logs2) (fuel : Nat) (m : CacheMap) (fromBlock batchSize F : Nat)
    (addrs : List Address) :
    processBlocksInBatch (env.withLogs logs) fuel m fromBlock batchSize F addrs =
      processBlocksInBatch (env.withLogs logs2) fuel m fromBlock batchSize F addrs := by
  unfold processBlocksInBatch
  have h1 : (env.withLogs logs).GetLogs fromBlock (batchToBlock fromBlock batchSize F) addrs =
      Except.ok logs := rfl
  have h2 : (env.withLogs logs2).GetLogs fromBlock (batchToBlock fromBlock batchSize F)
      addrs = Except.ok logs2 := rfl
  simp only [h1, h2, blockLoop_withLogs, blockLoop_sameBlocks env logs logs2 h]

/-- The decode calls of one block step are for that block, and there is at most one. -/
theorem processLogsInBlock_decodedBlocks (env : Env) (m : CacheMap) (logs : List Log)
    (n : Nat) :
    decodedBlocks (processLogsInBlock env m logs n).events = [] ∨
    decodedBlocks (processLogsInBlock env m logs n).events = [n] := by
  unfold decodedBlocks
  rw [processLogsInBlock_decodeCalls]
  cases (filterLogs env m logs).1 with
  | none => exact Or.inl rfl
  | some kept => exact Or.inr rfl

theorem decodedBlocks_append (a b : List Event) :
    decodedBlocks (a ++ b) = decodedBlocks a ++ decodedBlocks b := by
  simp [decodedBlocks, decodeCalls_append]

/-- Below the largest `uint64`, the block loop decodes blocks in strictly increasing
order, all of them between its counter and `toBlock`. -/
theorem blockLoop_decodedBlocks (env : Env) (logs : List Log) (toBlock : Nat)
    (hto : toBlock + 1 < U64) (fuel blockNum : Nat) (m : CacheMap) :
    (decodedBlocks (blockLoop env logs toBlock fuel blockNum m).events).Pairwise
      (fun a b => a < b) ∧
    ∀ b ∈ decodedBlocks (blockLoop env logs toBlock fuel blockNum m).events,
      blockNum ≤ b ∧ b ≤ toBlock := by
  induction fuel generalizing blockNum m with
  | zero => exact ⟨List.Pairwise.nil, fun b hb => (by cases hb)⟩
  | succ fuel ih =>
    unfold blockLoop
    by_cases hle : blockNum ≤ toBlock
    · simp only [if_pos hle]
      have hnext : add64 blockNum 1 = blockNum + 1 := by
        unfold add64
        exact Nat.mod_eq_of_lt (by omega)
      rw [hnext]
      cases hb : blockToLogs logs blockNum with
      | none =>
        simp only
        obtain ⟨h1, h2⟩ := ih (blockNum + 1) m
        exact ⟨h1, fun b hb => ⟨by have := (h2 b hb).1; omega, (h2 b hb).2⟩⟩
      | some bl =>
        simp only
        have hstep := processLogsInBlock_decodedBlocks env m bl blockNum
        cases hr : (processLogsInBlock env m bl blockNum).result with
        | ok u =>
          simp only [Step.after, decodedBlocks_append]
          obtain ⟨h1, h2⟩ := ih (blockNum + 1)
            (processLogsInBlock env m bl blockNum).sigToCache
          rcases hstep with hs | hs
          · rw [hs, List.nil_append]
            exact ⟨h1, fun b hb => ⟨by have := (h2 b hb).1; omega, (h2 b hb).2⟩⟩
          · rw [hs]
            refine ⟨?_, ?_⟩
            · simp only [List.singleton_append, List.pairwise_cons]
              exact ⟨fun b hb => by have := (h2 b hb).1; omega, h1⟩
            · intro b hb
              simp only [List.singleton_append, List.mem_cons] at hb
              rcases hb with rfl | hb
              · exact ⟨Nat.le_refl _, hle⟩
              · exact ⟨by have := (h2 b hb).1; omega, (h2 b hb).2⟩
        | err e =>
          simp only
          rcases hstep with hs | hs <;> rw [hs]
          · exact ⟨List.Pairwise.nil, fun b hb => (by cases hb)⟩
          · refine ⟨List.pairwise_singleton _ _, ?_⟩
            intro b hb
            rw [List.mem_singleton] at hb
            subst hb
            exact ⟨Nat.le_refl _, hle⟩
        | panic =>
          simp only
          rcases hstep with hs | hs <;> rw [hs]
          · exact ⟨List.Pairwise.nil, fun b hb => (by cases hb)⟩
          · refine ⟨List.pairwise_singleton _ _, ?_⟩
            intro b hb
            rw [List.mem_singleton] at hb
            subst hb
            exact ⟨Nat.le_refl _, hle⟩
    · simp only [if_neg hle]
      exact ⟨List.Pairwise.nil, fun b hb => (by cases hb)⟩

theorem processBlocksInBatch_decodedBlocks (env : Env) (fuel : Nat) (m : CacheMap)
    (fromBlock batchSize F : Nat) (addrs : List Address)
    (hto : batchToBlock fromBlock batchSize F + 1 < U64) :
    (decodedBlocks (processBlocksInBatch env fuel m fromBlock batchSize F addrs).events).Pairwise
      (fun a b => a < b) ∧
    ∀ b ∈ decodedBlocks (processBlocksInBatch env fuel m fromBlock batchSize F addrs).events,
      fromBlock ≤ b ∧ b ≤ batchToBlock fromBlock batchSize F := by
  have hroll : ∀ a b : CacheMap, decodedBlocks (rollbackCaches a b).events = [] := by
    intro a b
    unfold rollbackCaches decodedBlocks
    simp only
    induction a with
    | nil => rfl
    | cons sc rest ih => simpa [decodeCalls] using ih
  unfold processBlocksInBatch
  cases hg : env.GetLogs fromBlock (batchToBlock fromBlock batchSize F) addrs with
  | error e => exact ⟨List.Pairwise.nil, fun b hb => (by cases hb)⟩
  | ok logs =>
    have hloop := blockLoop_decodedBlocks env logs _ hto fuel fromBlock m
    have hcons : ∀ evs, decodedBlocks (Event.GetLogs fromBlock
        (batchToBlock fromBlock batchSize F) addrs true :: evs) = decodedBlocks evs := by
      intro evs; rfl
    simp only [Step.after, List.singleton_append, hcons]
    cases hr : (blockLoop env logs (batchToBlock fromBlock batchSize F) fuel fromBlock
        m).result with
    | none => exact hloop
    | some o =>
      cases o with
      | ok u => exact hloop
      | panic => exact hloop
      | err e =>
        simp only [decodedBlocks_append, hroll, List.append_nil]
        exact hloop

theorem processBlocksInBatch_decodedBlocks_eq (env : Env) (fuel : Nat) (m : CacheMap)
    (fromBlock batchSize F : Nat) (addrs : List Address) (logs : List Log)
    (hg : env.GetLogs fromBlock (batchToBlock fromBlock batchSize F) addrs = Except.ok logs) :
    decodedBlocks (processBlocksInBatch env fuel m fromBlock batchSize F addrs).events =
      decodedBlocks (blockLoop env logs (batchToBlock fromBlock batchSize F) fuel fromBlock
        m).events := by
  have hroll : ∀ a b : CacheMap, decodedBlocks (rollbackCaches a b).events = [] := by
    intro a b
    unfold rollbackCaches decodedBlocks
    simp only
    induction a with
    | nil => rfl
    | cons sc rest ih => simpa [decodeCalls] using ih
  have hcons : ∀ evs, decodedBlocks (Event.GetLogs fromBlock
      (batchToBlock fromBlock batchSize F) addrs true :: evs) = decodedBlocks evs := by
    intro evs; rfl
  unfold processBlocksInBatch
  simp only [hg, Step.after, List.singleton_append, hcons]
  cases hr : (blockLoop env logs (batchToBlock fromBlock batchSize F) fuel fromBlock
      m).result with
  | none => rfl
  | some o =>
    cases o with
    | ok u => rfl
    | panic => rfl
    | err e => simp only [decodedBlocks_append, hroll, List.append_nil]

/-- The block loop passes over blocks without logs, one iteration each. -/
theorem blockLoop_skip (env : Env) (logs : List Log) (toBlock : Nat) (hto : toBlock < U64)
    (j fuel b : Nat) (m : CacheMap) (hj : b + j ≤ toBlock)
    (hnone : ∀ i, i < j → blockToLogs logs (b + i) = none) :
    blockLoop env logs toBlock (fuel + j) b m = blockLoop env logs toBlock fuel (b + j) m := by
  induction j generalizing b with
  | zero => rfl
  | succ j ih =>
    have hle : b ≤ toBlock := by omega
    have h0 : blockToLogs logs b = none := hnone 0 (by omega)
    have hnext : add64 b 1 = b + 1 := by
      unfold add64
      exact Nat.mod_eq_of_lt (by omega)
    have hfuel : fuel + (j + 1) = (fuel + j) + 1 := by omega
    rw [hfuel, blockLoop, if_pos hle, h0]
    simp only
    rw [hnext, ih (b + 1) (by omega) (fun i hi => by
      have := hnone (i + 1) (by omega)
      rw [← this]; congr 1; omega)]
    congr 1
    omega

/-- With fault-free collaborators, an iteration of the block loop on a block that has
logs decodes that block and goes on with the next one. -/
theorem blockLoop_decodes (env : Env) (hff : FaultFree env) (logs : List Log)
    (ht : ∀ l ∈ logs, l.Topics ≠ []) (toBlock fuel b : Nat) (m : CacheMap) (bl : List Log)
    (hle : b ≤ toBlock) (hb : blockToLogs logs b = some bl) :
    ∃ m1, decodedBlocks (blockLoop env logs toBlock (fuel + 1) b m).events =
      b :: decodedBlocks (blockLoop env logs toBlock fuel (add64 b 1) m1).events := by
  have htb : ∀ l ∈ bl, l.Topics ≠ [] :=
    fun l hl => ht l (blockToLogs_subset logs b bl hb l hl)
  have hok := processLogsInBlock_ok env hff m bl b htb
  obtain ⟨kept, hk⟩ := filterLogs_isSome env m bl htb
  have hd : decodedBlocks (processLogsInBlock env m bl b).events = [b] := by
    unfold decodedBlocks
    rw [processLogsInBlock_decodeCalls, hk]
    rfl
  refine ⟨(processLogsInBlock env m bl b).sigToCache, ?_⟩
  rw [blockLoop, if_pos hle, hb]
  simp only [hok, Step.after, decodedBlocks_append, hd, List.singleton_append]

theorem wrapEnv_faultFree : FaultFree wrapEnv := by
  refine ⟨?_, ?_, ?_⟩
  · intro a b addrs
    refine ⟨_, rfl, ?_⟩
    intro l hl
    have hmem := (List.mem_filter.mp hl).1
    rw [List.mem_singleton] at hmem
    rw [hmem]
    simp [logAt]
  · intro logs n
    exact ⟨_, rfl⟩
  · intro sig cache c
    rfl

/-- C15 (as amended): in a batch whose end `toBlock` is below the largest `uint64`, the
decode calls are for strictly increasing block numbers (so each block is processed
at most once), all within `[fromBlock, toBlock]`, whatever order the logs were
returned in; and for every `toBlock`, two answers of `GetLogs` that hold the same
logs block by block, in the same relative order within each block, make
`processBlocksInBatch` perform the same calls, return the same result and leave the
same caches. -/
theorem C15_block_order_and_permutation (env : Env) (fuel : Nat) (m : CacheMap)
    (fromBlock batchSize F : Nat) (addrs : List Address) :
    (batchToBlock fromBlock batchSize F + 1 < U64 →
      (decodedBlocks
        (processBlocksInBatch env fuel m fromBlock batchSize F addrs).events).Pairwise
        (fun a b => a < b) ∧
      ∀ b ∈ decodedBlocks (processBlocksInBatch env fuel m fromBlock batchSize F addrs).events,
        fromBlock ≤ b ∧ b ≤ batchToBlock fromBlock batchSize F) ∧
    (∀ logs logs2 : List Log, sameBlocks logs logs2 →
      processBlocksInBatch (env.withLogs logs) fuel m fromBlock batchSize F addrs =
        processBlocksInBatch (env.withLogs logs2) fuel m fromBlock batchSize F addrs) :=
  ⟨fun hto => processBlocksInBatch_decodedBlocks env fuel m fromBlock batchSize F addrs hto,
    fun logs logs2 h =>
      processBlocksInBatch_withLogs_congr env logs logs2 h fuel m fromBlock batchSize F addrs⟩

/-- C15, witness: the answers `[b3, b5, b3']` and `[b5, b3, b3']` (logs of blocks 3, 5
and 3) hold the same logs block by block; both make the batch `[1, 10]` decode block
3 and then block 5, with the same calls and the same result. -/
theorem C15_block_order_and_permutation_witness :
    sameBlocks [logAt 1 3 0, logAt 1 5 0, logAt 1 3 1] [logAt 1 5 0, logAt 1 3 0, logAt 1 3 1] ∧
    processBlocksInBatch
      ((exampleEnv 10 0 0 [] none).withLogs [logAt 1 3 0, logAt 1 5 0, logAt 1 3 1]) 11
      [(1, cacheAt 0)] 1 1000 10 [1] =
    processBlocksInBatch
      ((exampleEnv 10 0 0 [] none).withLogs [logAt 1 5 0, logAt 1 3 0, logAt 1 3 1]) 11
      [(1, cacheAt 0)] 1 1000 10 [1] ∧
    (processBlocksInBatch
      ((exampleEnv 10 0 0 [] none).withLogs [logAt 1 5 0, logAt 1 3 0, logAt 1 3 1]) 11
      [(1, cacheAt 0)] 1 1000 10 [1]).events =
      [Event.GetLogs 1 10 [1] true,
       Event.ShouldProcess 1 (logAt 1 3 0), Event.ShouldProcess 1 (logAt 1 3 1),
       Event.ProcessLogs [logAt 1 3 0, logAt 1 3 1] 3 true,
       Event.Push 1 { Signature := 1, value := 0 } true,
       Event.Push 1 { Signature := 1, value := 1 } true,
       Event.SetLastProcessedBlock 1 3,
       Event.ShouldProcess 1 (logAt 1 5 0),
       Event.ProcessLogs [logAt 1 5 0] 5 true,
       Event.Push 1 { Signature := 1, value := 0 } true,
       Event.SetLastProcessedBlock 1 5] :=
  have hsame : sameBlocks [logAt 1 3 0, logAt 1 5 0, logAt 1 3 1]
      [logAt 1 5 0, logAt 1 3 0, logAt 1 3 1] := by
    intro n
    by_cases h3 : 3 = n
    · subst h3; rfl
    · by_cases h5 : 5 = n
      · subst h5; rfl
      · simp [List.filter, logAt, h3, h5]
  ⟨hsame,
    (C15_block_order_and_permutation
      (exampleEnv 10 0 0 [] none) 11 [(1, cacheAt 0)] 1 1000 10 [1]).2 _ _ hsame,
    by decide⟩

/-- C15, counterexample: the batch from block `2^64 - 1` with batch size 1 and finalized
block `2^64 - 1`, the engine returning one log, of block `2^64 - 1`.  The loop counter
wraps to 0 after that block and comes back to it: the block is decoded a second
time, so the decoded block numbers are not strictly increasing. -/
theorem C15_counterexample :
    decodedBlocks (processBlocksInBatch wrapEnv (1 + (U64 - 1) + 1) [(1, cacheAt (U64 - 2))]
      (U64 - 1) 1 (U64 - 1) [1]).events = [U64 - 1, U64 - 1] ∧
    ¬ ([U64 - 1, U64 - 1] : List Nat).Pairwise (fun a b => a < b) := by
  have hlogs : ∀ l ∈ [logAt 1 (U64 - 1) 0], l.Topics ≠ [] := by
    intro l hl
    rw [List.mem_singleton] at hl
    rw [hl]
    simp [logAt]
  have hg : wrapEnv.GetLogs (U64 - 1) (batchToBlock (U64 - 1) 1 (U64 - 1)) [1] =
      Except.ok [logAt 1 (U64 - 1) 0] := rfl
  have hto : batchToBlock (U64 - 1) 1 (U64 - 1) = U64 - 1 := by decide
  have hb : blockToLogs [logAt 1 (U64 - 1) 0] (U64 - 1) = some [logAt 1 (U64 - 1) 0] := by
    decide
  have hwrapped : add64 (U64 - 1) 1 = 0 := by decide
  have hnone : ∀ i, i < U64 - 1 → blockToLogs [logAt 1 (U64 - 1) 0] (0 + i) = none := by
    intro i hi
    have hne : ¬ (U64 - 1 = i) := by omega
    simp [blockToLogs, logAt, hne]
  constructor
  · rw [processBlocksInBatch_decodedBlocks_eq wrapEnv _ _ _ _ _ _ _ hg, hto]
    obtain ⟨m1, h1⟩ := blockLoop_decodes wrapEnv wrapEnv_faultFree [logAt 1 (U64 - 1) 0] hlogs
      (U64 - 1) (1 + (U64 - 1)) (U64 - 1) [(1, cacheAt (U64 - 2))] _ (Nat.le_refl _) hb
    rw [h1, hwrapped]
    rw [blockLoop_skip wrapEnv [logAt 1 (U64 - 1) 0] (U64 - 1) (by decide) (U64 - 1) 1 0 m1
      (by decide) hnone]
    obtain ⟨m2, h2⟩ := blockLoop_decodes wrapEnv wrapEnv_faultFree [logAt 1 (U64 - 1) 0] hlogs
      (U64 - 1) 0 (0 + (U64 - 1)) m1 [logAt 1 (U64 - 1) 0] (by decide) (by decide)
    rw [h2]
    rfl
  · intro h
    have := List.rel_of_pairwise_cons h (List.mem_singleton_self _)
    exact Nat.lt_irrefl _ this

/-! ## C18: logs without topics -/

/-- C18: the lookups `log.Topics[0]` of `processLogsInBlock` are all in range (the step
does not panic) if and only if every log of the block carries at least one topic;
and a log without topics makes the step panic instead of being dropped: no log is
decoded, nothing is pushed, no watermark is set and the caches are as they were. -/
theorem C18_topic_lookup_in_range (env : Env) (m : CacheMap) (logs : List Log) (n : Nat) :
    ((∀ l ∈ logs, l.Topics ≠ []) ↔
      (processLogsInBlock env m logs n).result ≠ Outcome.panic) ∧
    ((∃ l ∈ logs, l.Topics = []) →
      (processLogsInBlock env m logs n).result = Outcome.panic ∧
      (processLogsInBlock env m logs n).sigToCache = m ∧
      decodeCalls (processLogsInBlock env m logs n).events = [] ∧
      pushCalls (processLogsInBlock env m logs n).events = [] ∧
      ∀ sig k, Event.SetLastProcessedBlock sig k ∉
        (processLogsInBlock env m logs n).events) := by
  have hiff := processLogsInBlock_panic_iff env m logs n
  have hnone := filterLogs_none_iff env m logs
  constructor
  · constructor
    · intro hall hp
      obtain ⟨l, hl, h0⟩ := hnone.mp (hiff.mp hp)
      exact hall l hl h0
    · intro hnp l hl h0
      exact hnp (hiff.mpr (hnone.mpr ⟨l, hl, h0⟩))
  · intro hex
    have hfl := hnone.mpr hex
    refine ⟨hiff.mpr hfl, ?_, ?_, ?_, ?_⟩
    · unfold processLogsInBlock
      simp only [hfl]
    · rw [processLogsInBlock_decodeCalls]
      simp only [hfl]
    · unfold processLogsInBlock
      simp only [hfl]
      exact filterLogs_pushCalls env m logs
    · intro sig k hin
      unfold processLogsInBlock at hin
      simp only [hfl] at hin
      obtain ⟨s, l, hsl⟩ := filterLogs_events_kind env m logs _ hin
      cases hsl

/-- C18, witness: with a cache registered under signature 1, a block whose second log
has no topics makes the step panic after one `ShouldProcess` call, while the same
block with a log of the unregistered signature 9 in its place succeeds. -/
theorem C18_topic_lookup_in_range_witness :
    (processLogsInBlock (exampleEnv 10 0 0 [] none) [(1, cacheAt 0)]
      [logAt 1 5 0, { Address := 1, Topics := [], Data := [], BlockNumber := 5, Index := 1 }]
      5).result = Outcome.panic ∧
    (processLogsInBlock (exampleEnv 10 0 0 [] none) [(1, cacheAt 0)]
      [logAt 1 5 0, { Address := 1, Topics := [], Data := [], BlockNumber := 5, Index := 1 }]
      5).sigToCache = [(1, cacheAt 0)] ∧
    (processLogsInBlock (exampleEnv 10 0 0 [] none) [(1, cacheAt 0)]
      [logAt 1 5 0, { Address := 1, Topics := [], Data := [], BlockNumber := 5, Index := 1 }]
      5).events = [Event.ShouldProcess 1 (logAt 1 5 0)] ∧
    (processLogsInBlock (exampleEnv 10 0 0 [] none) [(1, cacheAt 0)]
      [logAt 1 5 0, logAt 9 5 1] 5).result = Outcome.ok () :=
  ⟨((C18_topic_lookup_in_range (exampleEnv 10 0 0 [] none) [(1, cacheAt 0)]
      [logAt 1 5 0, { Address := 1, Topics := [], Data := [], BlockNumber := 5, Index := 1 }]
      5).2 (by decide)).1,
    ((C18_topic_lookup_in_range (exampleEnv 10 0 0 [] none) [(1, cacheAt 0)]
      [logAt 1 5 0, { Address := 1, Topics := [], Data := [], BlockNumber := 5, Index := 1 }]
      5).2 (by decide)).2.1,
    by decide, by decide⟩

/-! ## C10: rollback atomicity is left to the caches -/

theorem noFailureNoRollback_nil : noFailureNoRollback [] := by
  intro e he; cases he

theorem noFailureNoRollback_append {a b : List Event} (ha : noFailureNoRollback a)
    (hb : noFailureNoRollback b) : noFailureNoRollback (a ++ b) := by
  intro e he
  rcases List.mem_append.mp he with h | h
  · exact ha e h
  · exact hb e h

theorem noFailureNoRollback_cons {e : Event} {a : List Event}
    (he : e.isBlockFailure = false ∧ e.isRollback = false) (ha : noFailureNoRollback a) :
    noFailureNoRollback (e :: a) := by
  intro x hx
  rcases List.mem_cons.mp hx with h | h
  · subst h; exact he
  · exact ha x h

theorem noFailureNoRollback_of_kind {evs : List Event} (h1 : noBlockFailure evs)
    (h2 : ∀ e ∈ evs, e.isBlockStepCall = true) : noFailureNoRollback evs := by
  intro e he
  refine ⟨h1 e he, ?_⟩
  have := h2 e he
  cases e <;> first | rfl | cases this

theorem windowLoop_noFailureNoRollback (env : Env) (m : CacheMap) (acc : Nat) :
    noFailureNoRollback (windowLoop env m acc).events := by
  intro e he
  obtain ⟨sc, _, hsc⟩ := (windowLoop_events_mem env m acc e).mp he
  unfold reconcile at hsc
  split at hsc
  · simp only [List.mem_cons, List.mem_singleton, List.not_mem_nil, or_false] at hsc
    rcases hsc with h | h | h | h | h <;> subst h <;> exact ⟨rfl, rfl⟩
  · simp only [List.mem_cons, List.mem_singleton, List.not_mem_nil, or_false] at hsc
    rcases hsc with h | h <;> subst h <;> exact ⟨rfl, rfl⟩

/-- The block loop calls no `Rollback`; it either sees no failure (and does not return an
error), or returns an error right after the first failed decode or push. -/
theorem blockLoop_rollback_shape (env : Env) (logs : List Log) (toBlock fuel blockNum : Nat)
    (m : CacheMap) :
    ((∀ e, (blockLoop env logs toBlock fuel blockNum m).result ≠ some (Outcome.err e)) ∧
      noFailureNoRollback (blockLoop env logs toBlock fuel blockNum m).events) ∨
    (∃ e pre f, (blockLoop env logs toBlock fuel blockNum m).result = some (Outcome.err e) ∧
      (blockLoop env logs toBlock fuel blockNum m).events = pre ++ [f] ∧
      f.isBlockFailure = true ∧ noFailureNoRollback pre) := by
  have hk := blockLoop_events_kind env logs toBlock fuel blockNum m
  rcases blockLoop_shape env logs toBlock fuel blockNum m with
    ⟨h1, h2⟩ | ⟨e, pre, f, h1, h2, h3, h4⟩
  · exact Or.inl ⟨h1, noFailureNoRollback_of_kind h2 hk⟩
  · refine Or.inr ⟨e, pre, f, h1, h2, h3, noFailureNoRollback_of_kind h4 ?_⟩
    intro x hx
    exact hk x (by rw [h2]; exact List.mem_append_left _ hx)

/-- A batch either sees no failed decode or push and calls no `Rollback`, or returns an
error right after the first failure and the `Rollback` of every registered cache, having
called no `Rollback` before. -/
theorem processBlocksInBatch_rollback_shape (env : Env) (fuel : Nat) (m : CacheMap)
    (fromBlock batchSize F : Nat) (addrs : List Address) :
    noFailureNoRollback (processBlocksInBatch env fuel m fromBlock batchSize F addrs).events ∨
    (∃ e pre f,
      (processBlocksInBatch env fuel m fromBlock batchSize F addrs).result =
        some (Outcome.err e) ∧
      (processBlocksInBatch env fuel m fromBlock batchSize F addrs).events =
        pre ++ f :: rollbackEvents m ∧
      f.isBlockFailure = true ∧ noFailureNoRollback pre) := by
  unfold processBlocksInBatch
  cases hg : env.GetLogs fromBlock (batchToBlock fromBlock batchSize F) addrs with
  | error e0 =>
    exact Or.inl (noFailureNoRollback_cons ⟨rfl, rfl⟩ noFailureNoRollback_nil)
  | ok logs =>
    simp only
    rcases blockLoop_rollback_shape env logs (batchToBlock fromBlock batchSize F) fuel
      fromBlock m with ⟨h1, h2⟩ | ⟨e, pre, f, h1, h2, h3, h4⟩
    · left
      simp only [Step.after]
      cases hr : (blockLoop env logs (batchToBlock fromBlock batchSize F) fuel fromBlock
          m).result with
      | none => exact noFailureNoRollback_cons ⟨rfl, rfl⟩ h2
      | some o =>
        cases o with
        | ok u => exact noFailureNoRollback_cons ⟨rfl, rfl⟩ h2
        | err e => exact absurd hr (h1 e)
        | panic => exact noFailureNoRollback_cons ⟨rfl, rfl⟩ h2
    · right
      rw [h1]
      refine ⟨e, Event.GetLogs fromBlock (batchToBlock fromBlock batchSize F) addrs true :: pre,
        f, rfl, ?_, h3, noFailureNoRollback_cons ⟨rfl, rfl⟩ h4⟩
      have hk := rollbackEvents_congr m _ (blockLoop_keys env logs
        (batchToBlock fromBlock batchSize F) fuel fromBlock m)
      simp only [Step.after, h2, List.singleton_append, List.cons_append, List.append_assoc,
        List.nil_append]
      rw [← hk]
      rfl

/-- The batch loop either sees no failed decode or push and calls no `Rollback`, or
returns an error right after the first failure and the `Rollback` of every registered
cache, having called no `Rollback` before. -/
theorem batchLoop_rollback_shape (env : Env) (F : Nat) (addrs : List Address)
    (fuel curr : Nat) (m : CacheMap) :
    noFailureNoRollback (batchLoop env F addrs fuel curr m).events ∨
    (∃ e pre f, (batchLoop env F addrs fuel curr m).result = some (Outcome.err e) ∧
      (batchLoop env F addrs fuel curr m).events = pre ++ f :: rollbackEvents m ∧
      f.isBlockFailure = true ∧ noFailureNoRollback pre) := by
  induction fuel generalizing curr m with
  | zero => exact Or.inl noFailureNoRollback_nil
  | succ fuel ih =>
    unfold batchLoop
    by_cases hlt : curr < F
    · simp only [if_pos hlt]
      rcases processBlocksInBatch_rollback_shape env (fuel + 1) m (curr + 1) DefaultBatchSize F
        addrs with h | ⟨e, pre, f, h1, h2, h3, h4⟩
      · cases hr : (processBlocksInBatch env (fuel + 1) m (curr + 1) DefaultBatchSize F
            addrs).result with
        | none => exact Or.inl h
        | some o =>
          cases o with
          | ok next =>
            simp only
            rcases ih next (processBlocksInBatch env (fuel + 1) m (curr + 1) DefaultBatchSize F
              addrs).sigToCache with g | ⟨e, pre, f, g1, g2, g3, g4⟩
            · exact Or.inl (noFailureNoRollback_append h g)
            · refine Or.inr ⟨e, (processBlocksInBatch env (fuel + 1) m (curr + 1)
                DefaultBatchSize F addrs).events ++ pre, f, g1, ?_, g3,
                noFailureNoRollback_append h g4⟩
              simp only [Step.after, g2, List.append_assoc]
              rw [rollbackEvents_congr m _ (processBlocksInBatch_keys env (fuel + 1) m
                (curr + 1) DefaultBatchSize F addrs)]
          | err e => exact Or.inl h
          | panic => exact Or.inl h
      · rw [h1]
        exact Or.inr ⟨_, pre, f, rfl, h2, h3, h4⟩
    · simp only [if_neg hlt]
      exact Or.inl noFailureNoRollback_nil

/-- A run either sees no failed decode or push and calls no `Rollback`, or returns an
error right after the first failure and the `Rollback` of every registered cache, having
called no `Rollback` before. -/
theorem ProcessPastLogs_rollback_shape (env : Env) (fuel : Nat) (m : CacheMap) :
    noFailureNoRollback (ProcessPastLogs env fuel m).events ∨
    (∃ e pre f, (ProcessPastLogs env fuel m).result = some (Outcome.err e) ∧
      (ProcessPastLogs env fuel m).events = pre ++ f :: rollbackEvents m ∧
      f.isBlockFailure = true ∧ noFailureNoRollback pre) := by
  cases hF : env.HeaderByHash env.FinalizedCheckpoint with
  | error e =>
    left
    unfold ProcessPastLogs getLatestFinalizedBlock
    rw [hF]
    exact noFailureNoRollback_cons ⟨rfl, rfl⟩
      (noFailureNoRollback_cons ⟨rfl, rfl⟩ noFailureNoRollback_nil)
  | ok n =>
    have hhead : noFailureNoRollback
        [Event.FinalizedCheckpoint, Event.HeaderByHash env.FinalizedCheckpoint true] :=
      noFailureNoRollback_cons ⟨rfl, rfl⟩
        (noFailureNoRollback_cons ⟨rfl, rfl⟩ noFailureNoRollback_nil)
    have hwin := windowLoop_noFailureNoRollback env m (n % U64)
    by_cases heq : (windowLoop env m (n % U64)).result = n % U64
    · rw [ProcessPastLogs_of_start_eq env m n fuel hF heq]
      exact Or.inl (noFailureNoRollback_append hhead hwin)
    · rw [ProcessPastLogs_of_start_ne env m n fuel hF heq]
      have hpre : noFailureNoRollback
          ([Event.FinalizedCheckpoint, Event.HeaderByHash env.FinalizedCheckpoint true] ++
            (windowLoop env m (n % U64)).events ++ [Event.GetRegisteredAddresses]) :=
        noFailureNoRollback_append (noFailureNoRollback_append hhead hwin)
          (noFailureNoRollback_cons ⟨rfl, rfl⟩ noFailureNoRollback_nil)
      rcases batchLoop_rollback_shape env (n % U64) env.GetRegisteredAddresses fuel
        (windowLoop env m (n % U64)).result (windowLoop env m (n % U64)).sigToCache with
        g | ⟨e, pre, f, g1, g2, g3, g4⟩
      · exact Or.inl (noFailureNoRollback_append hpre g)
      · refine Or.inr ⟨e, _ ++ pre, f, g1, ?_, g3, noFailureNoRollback_append hpre g4⟩
        simp only [Step.after, g2, List.append_assoc]
        rw [rollbackEvents_congr m _ (windowLoop_keys env m (n % U64))]

theorem replay_nil {σ : Type} (impl : CacheImpl σ) (sig : Hash) (s : σ) :
    impl.replay sig [] s = s := rfl

theorem replay_cons {σ : Type} (impl : CacheImpl σ) (sig : Hash) (e : Event)
    (evs : List Event) (s : σ) :
    impl.replay sig (e :: evs) s = impl.replay sig evs (impl.apply sig s e) := rfl

theorem replay_append {σ : Type} (impl : CacheImpl σ) (sig : Hash) (a b : List Event)
    (s : σ) : impl.replay sig (a ++ b) s = impl.replay sig b (impl.replay sig a s) := by
  simp [CacheImpl.replay, List.foldl_append]

/-- A call that cannot change the state of a cache leaves it as it is. -/
theorem apply_of_not_changes {σ : Type} (impl : CacheImpl σ) (sig : Hash) (s : σ) (e : Event)
    (h : e.changes sig = false) : impl.apply sig s e = s := by
  cases e <;> simp_all [Event.changes, CacheImpl.apply]

/-- The state of a cache after a trace depends only on the calls of the trace that can
change it. -/
theorem replay_cacheCalls {σ : Type} (impl : CacheImpl σ) (sig : Hash) (evs : List Event)
    (s : σ) : impl.replay sig (cacheCalls sig evs) s = impl.replay sig evs s := by
  induction evs generalizing s with
  | nil => rfl
  | cons e rest ih =>
    cases h : e.changes sig with
    | true =>
      have : cacheCalls sig (e :: rest) = e :: cacheCalls sig rest := by
        simp [cacheCalls, List.filter_cons, h]
      rw [this, replay_cons, replay_cons]
      exact ih _
    | false =>
      have : cacheCalls sig (e :: rest) = cacheCalls sig rest := by
        simp [cacheCalls, List.filter_cons, h]
      rw [this, replay_cons, apply_of_not_changes impl sig s e h]
      exact ih _

/-- The calls of `rollbackCaches` leave an unregistered cache as it is. -/
theorem replay_rollbackEvents_of_not_mem {σ : Type} (impl : CacheImpl σ) (sig : Hash)
    (m : CacheMap) (s : σ) (h : sig ∉ m.map Prod.fst) :
    impl.replay sig (rollbackEvents m) s = s := by
  induction m generalizing s with
  | nil => rfl
  | cons sc rest ih =>
    simp only [List.map_cons, List.mem_cons, not_or] at h
    have h1 : ¬ sc.1 = sig := fun hh => h.1 hh.symm
    simp only [rollbackEvents, List.map_cons] at ih ⊢
    rw [replay_cons]
    simp only [CacheImpl.apply, if_neg h1]
    exact ih s h.2

/-- The calls of `rollbackCaches` are one `Rollback()` for a registered cache. -/
theorem replay_rollbackEvents {σ : Type} (impl : CacheImpl σ) (sig : Hash)
    (m : CacheMap) (s : σ) (hnd : (m.map Prod.fst).Nodup) (h : sig ∈ m.map Prod.fst) :
    impl.replay sig (rollbackEvents m) s = impl.Rollback s := by
  induction m generalizing s with
  | nil => simp at h
  | cons sc rest ih =>
    simp only [List.map_cons, List.nodup_cons] at hnd
    simp only [List.map_cons, List.mem_cons] at h
    show impl.replay sig (Event.Rollback sc.1 :: rollbackEvents rest) s = impl.Rollback s
    rw [replay_cons]
    by_cases hk : sc.1 = sig
    · simp only [CacheImpl.apply, if_pos hk]
      exact replay_rollbackEvents_of_not_mem impl sig rest _ (hk ▸ hnd.1)
    · simp only [CacheImpl.apply, if_neg hk]
      rcases h with h | h
      · exact absurd h.symm hk
      · exact ih s hnd.2 h

/-- C10 (as amended): if decoding or a `Push` fails on some log of a run, the run returns
an error and its calls end with the failed call followed by one `Rollback()` on every
registered cache; before the failure the processor has called no `Rollback`, and after
it it pushes nothing and sets no watermark.  So, whatever the implementation of a
registered cache, the state of the cache after the run is what its own `Rollback()`
makes of the state it had reached when the failure occurred (the processor itself
restores nothing and passes `Rollback()` no argument). -/
theorem C10_rollback_is_left_to_the_caches (env : Env) (fuel : Nat) (m : CacheMap)
    (hfail : ∃ x ∈ (ProcessPastLogs env fuel m).events, x.isBlockFailure = true) :
    ∃ e pre f,
      (ProcessPastLogs env fuel m).result = some (Outcome.err e) ∧
      (ProcessPastLogs env fuel m).events = pre ++ f :: rollbackEvents m ∧
      f.isBlockFailure = true ∧ noFailureNoRollback pre ∧
      ∀ (σ : Type) (impl : CacheImpl σ) (s : σ) (sig : Hash),
        (m.map Prod.fst).Nodup → sig ∈ m.map Prod.fst →
        impl.replay sig (ProcessPastLogs env fuel m).events s =
          impl.Rollback (impl.replay sig (pre ++ [f]) s) := by
  obtain ⟨x, hx, hxf⟩ := hfail
  rcases ProcessPastLogs_rollback_shape env fuel m with h | ⟨e, pre, f, h1, h2, h3, h4⟩
  · rw [(h x hx).1] at hxf; cases hxf
  · refine ⟨e, pre, f, h1, h2, h3, h4, ?_⟩
    intro σ impl s sig hnd hsig
    have hsplit : pre ++ f :: rollbackEvents m = (pre ++ [f]) ++ rollbackEvents m := by simp
    rw [h2, hsplit, replay_append, replay_rollbackEvents impl sig m _ hnd hsig]

/-- C10, witness: one cache at watermark 0, finalized block 2000, logs in blocks 500 and
1200, and a decode step that fails on block 1200, in the second batch. -/
theorem C10_rollback_is_left_to_the_caches_witness :
    (∃ x ∈ (ProcessPastLogs (atomicityEnv 2000) 1002 [(1, cacheAt 0)]).events,
      x.isBlockFailure = true) ∧
    ∃ e pre f,
      (ProcessPastLogs (atomicityEnv 2000) 1002 [(1, cacheAt 0)]).result =
        some (Outcome.err e) ∧
      (ProcessPastLogs (atomicityEnv 2000) 1002 [(1, cacheAt 0)]).events =
        pre ++ f :: rollbackEvents [(1, cacheAt 0)] ∧
      f.isBlockFailure = true ∧ noFailureNoRollback pre ∧
      ∀ (σ : Type) (impl : CacheImpl σ) (s : σ) (sig : Hash),
        (([(1, cacheAt 0)] : CacheMap).map Prod.fst).Nodup →
        sig ∈ ([(1, cacheAt 0)] : CacheMap).map Prod.fst →
        impl.replay sig (ProcessPastLogs (atomicityEnv 2000) 1002 [(1, cacheAt 0)]).events s =
          impl.Rollback (impl.replay sig (pre ++ [f]) s) :=
  ⟨by decide!,
    C10_rollback_is_left_to_the_caches (atomicityEnv 2000) 1002 [(1, cacheAt 0)]
      (by decide!)⟩

/-- C10, counterexample: the same failure reached in two ways.  In `singleRun` a run at
finalized block 2000 starts with the cache at watermark 0, processes block 500 in its
first batch and fails on block 1200 in its second.  In `earlierRun` a run at finalized
block 1000 processes block 500 and returns nil, leaving the watermark at 500; then
`laterRun`, at finalized block 2000, fails on block 1200 in its only batch.  Between
its creation and the end the cache receives the same calls in both: `ShouldProcess`,
`Push`, `SetLastProcessedBlock(500)`, `ShouldProcess`, `Rollback()`, and only the getter
`LastProcessedBlock()` once more in the second.  Whatever its implementation, a cache
that answers as in these runs (watermark 0 at first, 500 after `earlierRun`) ends in
the same state in both, so its watermark after the run cannot be the value before the
run in both, which is 500 for `laterRun` and 0 for `singleRun`.  Such caches exist:
`keepingCache` is one, its state after `earlierRun` is the one the processor leaves,
and with it the watermark after `singleRun` is 500, not 0. -/
theorem C10_counterexample :
    earlierRun.result = some (Outcome.ok ()) ∧
    (getCache earlierRun.sigToCache 1).map LogCache.LastProcessedBlock = some 500 ∧
    (∃ x ∈ laterRun.events, x.isBlockFailure = true) ∧
    (∃ x ∈ singleRun.events, x.isBlockFailure = true) ∧
    cacheCalls 1 singleRun.events =
      [Event.ShouldProcess 1 (logAt 1 500 0), Event.Push 1 { Signature := 1, value := 0 } true,
       Event.SetLastProcessedBlock 1 500, Event.ShouldProcess 1 (logAt 1 1200 0),
       Event.Rollback 1] ∧
    cacheCalls 1 (earlierRun.events ++ laterRun.events) = cacheCalls 1 singleRun.events ∧
    (∀ (σ : Type) (impl : CacheImpl σ) (s : σ),
      impl.LastProcessedBlock s = 0 →
      impl.LastProcessedBlock (impl.replay 1 earlierRun.events s) = 500 →
      ¬ (impl.LastProcessedBlock
            (impl.replay 1 laterRun.events (impl.replay 1 earlierRun.events s)) =
          impl.LastProcessedBlock (impl.replay 1 earlierRun.events s) ∧
        impl.LastProcessedBlock (impl.replay 1 singleRun.events s) =
          impl.LastProcessedBlock s)) ∧
    keepingCache.LastProcessedBlock (cacheAt 0) = 0 ∧
    getCache earlierRun.sigToCache 1 =
      some (keepingCache.replay 1 earlierRun.events (cacheAt 0)) ∧
    keepingCache.LastProcessedBlock (keepingCache.replay 1 earlierRun.events (cacheAt 0)) =
      500 ∧
    keepingCache.LastProcessedBlock (keepingCache.replay 1 singleRun.events (cacheAt 0)) =
      500 := by
  have hc : cacheCalls 1 (earlierRun.events ++ laterRun.events) =
      cacheCalls 1 singleRun.events := by decide!
  refine ⟨by decide!, by decide!, by decide!, by decide!, by decide!, hc, ?_, by decide!,
    by decide!, by decide!, by decide!⟩
  intro σ impl s h0 h1 h
  have hsame : impl.replay 1 laterRun.events (impl.replay 1 earlierRun.events s) =
      impl.replay 1 singleRun.events s := by
    rw [← replay_append, ← replay_cacheCalls, hc, replay_cacheCalls]
  rw [hsame, h.2, h0, h1] at h
  exact absurd h.1 (by decide)

end BeaconKit.Logs

namespace BeaconKit.Types

/-! ## C17: the SSZ round trip of `Fork` -/

theorem littleEndian8_eq (i : Nat) :
    littleEndian8 i = [byteOf i, byteOf (i / 256), byteOf (i / 65536), byteOf (i / 16777216),
      byteOf (i / 4294967296), byteOf (i / 1099511627776), byteOf (i / 281474976710656),
      byteOf (i / 72057594037927936)] := by
  simp [littleEndian8, List.range, List.range.loop]

theorem MarshalUint64_eq (dst : List Byte) (i : Nat) :
    MarshalUint64 dst i = dst ++ littleEndian8 i := by
  rw [littleEndian8_eq]
  rfl

theorem UnmarshallUint64_littleEndian8 (n : Nat) (h : n < Logs.U64) :
    UnmarshallUint64 (littleEndian8 n) = n := by
  have hU : Logs.U64 = 18446744073709551616 := rfl
  rw [hU] at h
  rw [littleEndian8_eq]
  simp only [UnmarshallUint64, List.getD_cons_zero, List.getD_cons_succ, byteOf]
  omega

/-- C17: for every `Fork` whose epoch is a `uint64`, `MarshalSSZTo` on the empty buffer
returns a nil error and exactly `SizeSSZ() = 16` bytes: the previous version, the
current version, then the epoch as 8 little-endian bytes; `UnmarshalSSZ` of those
bytes, on any receiver, returns a nil error and leaves the receiver equal to the
`Fork` that was marshalled; and on any input `UnmarshalSSZ` returns the size error
exactly when the input length is not 16, in which case the receiver is unchanged. -/
theorem C17_fork_ssz_round_trip (f g : Fork) (hE : f.Epoch < Logs.U64) :
    (f.MarshalSSZTo []).2 = none ∧
    (f.MarshalSSZTo []).1.length = f.SizeSSZ ∧
    f.SizeSSZ = 16 ∧
    (f.MarshalSSZTo []).1 =
      f.PreviousVersion.bytes ++ f.CurrentVersion.bytes ++ littleEndian8 f.Epoch ∧
    g.UnmarshalSSZ (f.MarshalSSZTo []).1 = (f, none) ∧
    (∀ buf : List Byte,
      ((g.UnmarshalSSZ buf).2 = some SSZError.ErrSize ↔ buf.length ≠ 16) ∧
      (buf.length ≠ 16 → (g.UnmarshalSSZ buf).1 = g)) := by
  have hmod : f.Epoch % Logs.U64 = f.Epoch := Nat.mod_eq_of_lt hE
  have hbytes : (f.MarshalSSZTo []).1 =
      f.PreviousVersion.bytes ++ f.CurrentVersion.bytes ++ littleEndian8 f.Epoch := by
    simp only [Fork.MarshalSSZTo, hmod, MarshalUint64_eq, List.nil_append]
  refine ⟨rfl, ?_, rfl, hbytes, ?_, ?_⟩
  · rw [hbytes]
    rfl
  · rw [hbytes]
    have hrt := UnmarshallUint64_littleEndian8 f.Epoch hE
    have hslice : slice (f.PreviousVersion.bytes ++ f.CurrentVersion.bytes ++
        littleEndian8 f.Epoch) 8 16 = littleEndian8 f.Epoch := rfl
    have hlen : ¬ (f.PreviousVersion.bytes ++ f.CurrentVersion.bytes ++
        littleEndian8 f.Epoch).length ≠ 16 := by
      simp [Version.bytes, littleEndian8]
    unfold Fork.UnmarshalSSZ
    rw [if_neg hlen, hslice, hrt]
    rfl
  · intro buf
    unfold Fork.UnmarshalSSZ
    by_cases h : buf.length = 16
    · simp [h]
    · simp [h]

/-- C17, witness: the fork with versions `01 00 00 00` and `02 00 00 00` and epoch
`2^32 + 5` marshals to 16 bytes, and unmarshalling them into another fork restores
it; 15 bytes give the size error. -/
theorem C17_fork_ssz_round_trip_witness :
    exampleFork.Epoch < Logs.U64 ∧
    (exampleFork.MarshalSSZTo []).1 = [1, 0, 0, 0, 2, 0, 0, 0, 5, 0, 0, 0, 1, 0, 0, 0] ∧
    otherFork.UnmarshalSSZ (exampleFork.MarshalSSZTo []).1 = (exampleFork, none) ∧
    otherFork.UnmarshalSSZ [1, 0, 0, 0, 2, 0, 0, 0, 5, 0, 0, 0, 1, 0, 0] =
      (otherFork, some SSZError.ErrSize) :=
  ⟨by decide, by decide,
    (C17_fork_ssz_round_trip exampleFork otherFork (by decide)).2.2.2.2.1,
    by decide⟩

end BeaconKit.Types
